import Mathlib

/-!
Verification development for the `aba-cache` LRU cache.

The definitions below are a shallow embedding of the Rust sources:

* `src/lru/storage.rs` — `Pointer`, `Entry`, `Storage` and its operations
  (`put`, `update`, `get`, `capacity`, `move_to_top`);
* `src/lru/mod.rs`     — `Cache` (composition of a `Storage` with a key map)
  and its operations (`new`, `get`, `put`, `evict`, `capacity`, `len`,
  `is_empty`);
* `src/lru/asynchronous/update_intent/mod.rs` — the single-flight layer's
  `UpdateState` cells and its `put` operation.

Modelling conventions:

* A Rust `Slab` is a fixed shape list of optional slots; a slot holds `none`
  when vacant.  Allocation fills the first vacant slot, or appends when the
  slab is full, so slot identifiers are stable (no re-indexing).
* The wall clock is an external collaborator; every operation that reads the
  clock takes an explicit `now : Nat` argument (seconds since the epoch).
* A Rust panic (null-handle dereference, slab index out of range,
  zero-capacity construction) is modelled by returning `none` from the
  operation; the outer `Option` of each operation is the "abort" channel.
* `HashMap<Rc<K>, Pointer>` is modelled as an association list with unique
  keys; `Rc` sharing is dropped since keys are compared by value.
-/

set_option linter.deprecated false
set_option linter.unusedSectionVars false
set_option linter.unusedVariables false

namespace AbaCache

variable {K V : Type}

/-- Pointer into the segmented store: either the null sentinel or a
(segment id, slot id) pair.  Mirrors `Pointer` in `src/lru/storage.rs`. -/
inductive Pointer : Type where
  | null : Pointer
  | internalPointer (slab : Nat) (pos : Nat) : Pointer
deriving DecidableEq, Repr

/-- Returns `true` if this pointer is null (`Pointer::is_null`). -/
def Pointer.is_null : Pointer → Bool
  | Pointer.null => true
  | Pointer.internalPointer _ _ => false

/-- Entry node of the cache: key, timestamp (seconds), value, and the
intrusive recency-list links.  Mirrors `Entry` in `src/lru/storage.rs`. -/
structure Entry (K V : Type) : Type where
  key : K
  timestamp : Nat
  data : V
  next : Pointer
  prev : Pointer
deriving DecidableEq, Repr

/-- Construct an entry at clock value `now` (`Entry::new`, which reads the
clock for the timestamp). -/
def Entry.new (now : Nat) (key : K) (data : V) (next prev : Pointer) : Entry K V :=
  { key := key, timestamp := now, data := data, next := next, prev := prev }

/-- One segment: a fixed-capacity pool of slots (`Slab<Entry<K, V>>`).
The list length is the segment capacity; a `none` slot is vacant. -/
abbrev Seg (K V : Type) : Type := List (Option (Entry K V))

/-- Number of live (occupied) slots of a segment (`Slab::len`). -/
def segOccupied (seg : Seg K V) : Nat := seg.countP (fun o => o.isSome)

/-- The segmented node store with the recency-list endpoints.
Mirrors `Storage` in `src/lru/storage.rs`. -/
structure Storage (K V : Type) : Type where
  slabs : List (Option (Seg K V))
  cap : Nat
  len : Nat
  head : Pointer
  tail : Pointer
  timeout_secs : Nat
deriving DecidableEq

/-- Fresh storage: one empty segment of capacity `cap` (`Storage::new`). -/
def Storage.new (cap : Nat) (timeout_secs : Nat) : Storage K V :=
  { slabs := [some (List.replicate cap none)], cap := cap, len := 0,
    head := Pointer.null, tail := Pointer.null, timeout_secs := timeout_secs }

/-- Read the slot a handle points at within a segment list;
`none` for the null pointer and for vacant or out-of-range slots. -/
def slotGet? (slabs : List (Option (Seg K V))) (ptr : Pointer) : Option (Entry K V) :=
  match ptr with
  | Pointer.null => none
  | Pointer.internalPointer i j =>
    match slabs.get? i with
    | some (some seg) => (seg.get? j).getD none
    | _ => none

/-- Overwrite the slot a handle points at within a segment list; identity
when the handle is null or does not name a segment. -/
def setSlot (slabs : List (Option (Seg K V))) (ptr : Pointer) (e : Entry K V) :
    List (Option (Seg K V)) :=
  match ptr with
  | Pointer.null => slabs
  | Pointer.internalPointer i j =>
    match slabs.get? i with
    | some (some seg) => slabs.set i (some (seg.set j (some e)))
    | _ => slabs

/-- Dereference a handle (`Index<Pointer> for Storage`).  Returns `none` on
the null pointer or on a vacant/out-of-range slot, where the source aborts
with a panic. -/
def Storage.entry? (s : Storage K V) (ptr : Pointer) : Option (Entry K V) :=
  slotGet? s.slabs ptr

/-- Overwrite the slot a handle points at.  Callers first read the slot via
`Storage.entry?` (mirroring `IndexMut<Pointer>`), so the target is occupied. -/
def Storage.setEntry (s : Storage K V) (ptr : Pointer) (e : Entry K V) : Storage K V :=
  { s with slabs := setSlot s.slabs ptr e }

/-- Read-modify-write of the entry a handle points at; `none` models the
source's panic when the handle is null or dangling. -/
def Storage.modifyEntry? (s : Storage K V) (ptr : Pointer) (f : Entry K V → Entry K V) :
    Option (Storage K V) :=
  match s.entry? ptr with
  | none => none
  | some e => some (s.setEntry ptr (f e))

/-- Total capacity: sum of segment capacities (`Storage::capacity`). -/
def segCap (o : Option (Seg K V)) : Nat :=
  match o with
  | some seg => seg.length
  | none => 0

/-- Capacity of the storage: sum of the capacities of live segments. -/
def Storage.capacity (s : Storage K V) : Nat := (s.slabs.map segCap).sum

/-- Move the entry at `ptr` to the top of the LRU list
(`Storage::move_to_top`).  The caller guarantees `ptr` is not the head. -/
def Storage.move_to_top (s : Storage K V) (ptr : Pointer) : Option (Storage K V) := do
  let target ← s.entry? ptr
  let next := target.next
  let prev := target.prev
  let head := s.head
  let s1 ←
    if next.is_null then
      pure { s with tail := prev }
    else
      s.modifyEntry? next (fun e => { e with prev := prev })
  let s2 ← s1.modifyEntry? prev (fun e => { e with next := next })
  let s3 ← s2.modifyEntry? head (fun e => { e with prev := ptr })
  ({ s3 with head := ptr } : Storage K V).modifyEntry? ptr
    (fun e => { e with next := head, prev := Pointer.null })

/-- Index (within `l`) of the first vacant slot of a slab, if any. -/
def slabVacant {α : Type} : List (Option α) → Option Nat
  | [] => none
  | none :: _ => some 0
  | some _ :: rest => (slabVacant rest).map (fun i => i + 1)

/-- Insert into a slab (`Slab::insert`): fill the first vacant slot, or
append when no slot is vacant.  Returns the chosen slot id. -/
def slabInsert {α : Type} (l : List (Option α)) (a : α) : Nat × List (Option α) :=
  match slabVacant l with
  | some i => (i, l.set i (some a))
  | none => (l.length, l ++ [some a])

/-- First live segment id (in id order) whose segment still has a free slot;
mirrors the allocation scan in `Storage::put`. -/
def findFreeSlab : Nat → List (Option (Seg K V)) → Option Nat
  | _, [] => none
  | i, none :: rest => findFreeSlab (i + 1) rest
  | i, some seg :: rest =>
    if segOccupied seg < seg.length then some i else findFreeSlab (i + 1) rest

/-- Insert an entry into the segment with id `i`; returns the slot id and the
updated segment list, or `none` when `i` is not a live segment id. -/
def slabInsertEntry (slabs : List (Option (Seg K V))) (i : Nat) (e : Entry K V) :
    Option (Nat × List (Option (Seg K V))) :=
  match slabs.get? i with
  | some (some seg) =>
    let r := slabInsert seg e
    some (r.1, slabs.set i (some r.2))
  | _ => none

/-- Allocation path of `Storage::put`: pick the first segment with a free
slot (creating a new segment of capacity `cap` when none has one),
initialize the node with `now`, and push it to the front of the list. -/
def Storage.insertNew (now : Nat) (s : Storage K V) (key : K) (data : V) :
    Option ((Pointer × Option (K × V)) × Storage K V) := do
  let alloc :=
    match findFreeSlab 0 s.slabs with
    | some i => (i, s.slabs)
    | none => slabInsert s.slabs (List.replicate s.cap none)
  let slab := alloc.1
  let entry := Entry.new now key data s.head Pointer.null
  let inserted ← slabInsertEntry alloc.2 slab entry
  let id := Pointer.internalPointer slab inserted.1
  let s1 : Storage K V := { s with slabs := inserted.2 }
  let s2 ←
    if s.head.is_null then
      pure { s1 with tail := id }
    else
      s1.modifyEntry? s.head (fun e => { e with prev := id })
  pure ((id, none), { s2 with head := id, len := s.len + 1 })

/-- Insert a key-value pair (`Storage::put`): when the tail exists and is
expired (`timestamp + timeout_secs ≤ now`), overwrite the tail in place
after promoting it; otherwise allocate a new node. -/
def Storage.put (now : Nat) (s : Storage K V) (key : K) (data : V) :
    Option ((Pointer × Option (K × V)) × Storage K V) :=
  if s.tail.is_null = false then
    match s.entry? s.tail with
    | none => none
    | some e =>
      if e.timestamp + s.timeout_secs ≤ now then do
        let ptr := s.tail
        let s1 ← if s.head = ptr then pure s else s.move_to_top s.tail
        let old ← s1.entry? ptr
        pure ((ptr, some (old.key, old.data)),
              s1.setEntry ptr { old with key := key, data := data, timestamp := now })
      else
        s.insertNew now key data
  else
    s.insertNew now key data

/-- Update the value behind a handle, refresh its timestamp and move it to
the top of the list (`Storage::update`); returns the previous value. -/
def Storage.update (now : Nat) (s : Storage K V) (ptr : Pointer) (data : V) :
    Option (V × Storage K V) := do
  let s1 ← if s.head = ptr then pure s else s.move_to_top ptr
  let old ← s1.entry? ptr
  pure (old.data, s1.setEntry ptr { old with timestamp := now, data := data })

/-- Read the value behind a handle (`Storage::get`): refresh the timestamp,
move the node to the top, and return `some` of the value.  Note the source
performs no expiry check here and never returns `None` on success. -/
def Storage.get (now : Nat) (s : Storage K V) (ptr : Pointer) :
    Option (Option V × Storage K V) := do
  if ptr = s.head then
    let s1 ← s.modifyEntry? ptr (fun e => { e with timestamp := now })
    let e ← s1.entry? ptr
    pure (some e.data, s1)
  else
    let s1 ← s.move_to_top ptr
    let s2 ← s1.modifyEntry? ptr (fun e => { e with timestamp := now })
    let e ← s2.entry? ptr
    pure (some e.data, s2)

/-- Vacate the slot a handle points at (free during the eviction sweep). -/
def freeSlot (slabs : List (Option (Seg K V))) (ptr : Pointer) :
    List (Option (Seg K V)) :=
  match ptr with
  | Pointer.null => slabs
  | Pointer.internalPointer i j =>
    match slabs.get? i with
    | some (some seg) => slabs.set i (some (seg.set j none))
    | _ => slabs

/-- Remove every segment whose live count is zero (capacity reclamation at
the end of the eviction sweep). -/
def dropEmptySegs (slabs : List (Option (Seg K V))) : List (Option (Seg K V)) :=
  slabs.map (fun o =>
    match o with
    | some seg => if segOccupied seg = 0 then none else some seg
    | none => none)

/-- Modelled from the spec: loop of `Storage::evict`, whose body is not
under `src/` (only its caller `Cache::evict` is).  Walk the recency list
from the tail toward the head; while the current node is expired
(`timestamp + timeout_secs ≤ now`), unlink it, free its slot and record its
key.  The walk stops at the first non-expired node.  The fuel argument
bounds the walk by the number of live nodes. -/
def Storage.evictLoop (now : Nat) :
    Nat → Storage K V → List K → Option (List K × Storage K V)
  | 0, s, acc => some (acc.reverse, s)
  | fuel + 1, s, acc =>
    if s.tail.is_null then some (acc.reverse, s)
    else
      match s.entry? s.tail with
      | none => none
      | some e =>
        if e.timestamp + s.timeout_secs ≤ now then
          let s1 : Storage K V :=
            { s with slabs := freeSlot s.slabs s.tail, tail := e.prev, len := s.len - 1 }
          match (if e.prev.is_null then some { s1 with head := Pointer.null }
                 else s1.modifyEntry? e.prev (fun e2 => { e2 with next := Pointer.null })) with
          | none => none
          | some s2 => Storage.evictLoop now fuel s2 (e.key :: acc)
        else some (acc.reverse, s)

/-- Modelled from the spec: `Storage::evict`, whose body is not under
`src/`.  Remove the expired suffix of the recency list, then drop every
segment whose live count reached zero; returns the removed keys so the
caller can remove them from the key map. -/
def Storage.evict (now : Nat) (s : Storage K V) : Option (List K × Storage K V) := do
  let r ← Storage.evictLoop now s.len s []
  pure (r.1, { r.2 with slabs := dropEmptySegs r.2.slabs })

/-! Association-list model of `HashMap<Rc<K>, Pointer>`. -/

/-- Key lookup (`HashMap::get`). -/
def lookupKey [DecidableEq K] (m : List (K × Pointer)) (k : K) : Option Pointer :=
  match m with
  | [] => none
  | kv :: rest => if kv.1 = k then some kv.2 else lookupKey rest k

/-- Key removal (`HashMap::remove`). -/
def eraseKey [DecidableEq K] (m : List (K × Pointer)) (k : K) : List (K × Pointer) :=
  match m with
  | [] => []
  | kv :: rest => if kv.1 = k then eraseKey rest k else kv :: eraseKey rest k

/-- Key insertion (`HashMap::insert`), replacing any existing binding. -/
def insertKey [DecidableEq K] (m : List (K × Pointer)) (k : K) (p : Pointer) :
    List (K × Pointer) :=
  (k, p) :: eraseKey m k

/-- The LRU cache: a `Storage` plus the key map.
Mirrors `Cache` in `src/lru/mod.rs`. -/
structure Cache (K V : Type) : Type where
  storage : Storage K V
  map : List (K × Pointer)
deriving DecidableEq

variable [DecidableEq K]

/-- Constructor (`Cache::new`): `none` models the panic on zero capacity. -/
def Cache.new (multiply_cap : Nat) (timeout_secs : Nat) : Option (Cache K V) :=
  if multiply_cap = 0 then none
  else some { storage := Storage.new multiply_cap timeout_secs, map := [] }

/-- Lookup (`Cache::get`): miss returns `None`; a hit delegates to
`Storage::get` (which refreshes and promotes), and would drop the key from
the map if the storage reported `None` (a branch the storage never takes). -/
def Cache.get (now : Nat) (c : Cache K V) (key : K) : Option (Option V × Cache K V) :=
  if c.map.isEmpty then some (none, c)
  else
    match lookupKey c.map key with
    | some index =>
      match c.storage.get now index with
      | none => none
      | some (result, st) =>
        some (result,
          { storage := st,
            map := if result.isNone then eraseKey c.map key else c.map })
    | none => some (none, c)

/-- Insertion (`Cache::put`): update in place for a known key; otherwise
delegate to `Storage::put` and reconcile the key map (removing the key of a
reused expired tail). -/
def Cache.put (now : Nat) (c : Cache K V) (key : K) (value : V) :
    Option (Option V × Cache K V) :=
  match lookupKey c.map key with
  | some index =>
    match c.storage.update now index value with
    | none => none
    | some (old, st) => some (some old, { c with storage := st })
  | none =>
    match c.storage.put now key value with
    | none => none
    | some ((idx, oldPair), st) =>
      match oldPair with
      | some op =>
        some (some op.2,
          { storage := st, map := insertKey (eraseKey c.map op.1) key idx })
      | none => some (none, { storage := st, map := insertKey c.map key idx })

/-- Number of live entries (`Cache::len`). -/
def Cache.len (c : Cache K V) : Nat := c.map.length

/-- Emptiness (`Cache::is_empty`). -/
def Cache.is_empty (c : Cache K V) : Bool := c.map.isEmpty

/-- Capacity (`Cache::capacity`). -/
def Cache.capacity (c : Cache K V) : Nat := c.storage.capacity

/-- Expired-entry sweep (`Cache::evict`): when non-empty, run the storage
sweep and drop the removed keys from the map. -/
def Cache.evict (now : Nat) (c : Cache K V) : Option (Cache K V) :=
  if c.is_empty then some c
  else
    match c.storage.evict now with
    | none => none
    | some (keys, st) =>
      some { storage := st, map := keys.foldl (fun m k => eraseKey m k) c.map }

/-! Well-formedness of the cache state.  The recency list is described by the
list `ord` of handles from head (most recent) to tail (least recent). -/

/-- The pointers in `l` form a consecutive doubly-linked segment: the first
element's `prev` is `pv`, consecutive elements are linked by `next`/`prev`,
and the last element's `next` is `nx`. -/
def dll (s : Storage K V) : Pointer → List Pointer → Pointer → Prop
  | _, [], _ => True
  | pv, p :: rest, nx =>
    (s.entry? p).map Entry.prev = some pv ∧
    (s.entry? p).map Entry.next = some (rest.headD nx) ∧
    dll s p rest nx

instance dllDecidable (s : Storage K V) :
    (pv : Pointer) → (l : List Pointer) → (nx : Pointer) → Decidable (dll s pv l nx)
  | _, [], _ => Decidable.isTrue trivial
  | _, p :: rest, nx =>
    have : Decidable (dll s p rest nx) := dllDecidable s p rest nx
    inferInstanceAs (Decidable (_ ∧ _ ∧ _))

/-- Shape of a segment list: capacity of each live segment slot. -/
def slabsShape (slabs : List (Option (Seg K V))) : List (Option Nat) :=
  slabs.map (Option.map List.length)

/-- Shape of the segment list of a storage. -/
def segShape (s : Storage K V) : List (Option Nat) :=
  slabsShape s.slabs

/-- Total number of occupied slots over a segment list. -/
def slabsOcc (slabs : List (Option (Seg K V))) : Nat :=
  (slabs.map (fun o => segOccupied (o.getD []))).sum

/-- Total number of occupied slots over all segments of a storage. -/
def totalOcc (s : Storage K V) : Nat :=
  slabsOcc s.slabs

/-- Well-formedness of a cache state with recency order `ord` (head first).
This is the inductive invariant maintained by every operation. -/
structure WF [DecidableEq K] (c : Cache K V) (ord : List Pointer) : Prop where
  hdll : dll c.storage Pointer.null ord Pointer.null
  hhead : c.storage.head = ord.headD Pointer.null
  htail : c.storage.tail = ord.getLastD Pointer.null
  hnodup : ord.Nodup
  hlen : c.storage.len = ord.length
  hocc : totalOcc c.storage = c.storage.len
  hmaplen : c.map.length = ord.length
  hkeymap : ∀ p ∈ ord, ((c.storage.entry? p).bind fun e => lookupKey c.map e.key) = some p
  hmapsto : ∀ kv ∈ c.map,
    ((c.storage.entry? kv.2).map Entry.key) = some kv.1 ∧ kv.2 ∈ ord
  hkeysnodup : (c.map.map Prod.fst).Nodup
  hshape : ∀ o ∈ segShape c.storage, o = none ∨ o = some c.storage.cap
  hcap : 0 < c.storage.cap

/-- Forward traversal of the recency list by `next` handles, bounded by
`fuel`; used to state invariant I2. -/
def walkNext (s : Storage K V) : Nat → Pointer → List Pointer
  | 0, _ => []
  | fuel + 1, p =>
    match s.entry? p with
    | none => []
    | some e => p :: walkNext s fuel e.next

/-- Backward traversal of the recency list by `prev` handles, bounded by
`fuel`; used to state invariant I2. -/
def walkPrev (s : Storage K V) : Nat → Pointer → List Pointer
  | 0, _ => []
  | fuel + 1, p =>
    match s.entry? p with
    | none => []
    | some e => p :: walkPrev s fuel e.prev

/-- Invariants I1-I6 of the specification, stated over a cache state:
I1 head/tail/map emptiness agree; I2 the `next` walk from the head visits
exactly `len` nodes without revisits, ends at the tail, and the `prev` walk
from the tail is its reverse; I3 every node's key maps to exactly its handle
and map values are distinct; I4 every map value dereferences to a live slot;
I5 the head's `prev` and the tail's `next` are null; I6 `len ≤ capacity`
and the capacity is a multiple of the construction unit. -/
structure CacheInvariants [DecidableEq K] (c : Cache K V) (U : Nat) : Prop where
  i1 : (c.storage.head = Pointer.null ↔ c.map = []) ∧
       (c.storage.tail = Pointer.null ↔ c.map = []) ∧
       (c.len = 0 ↔ c.map = [])
  i2 : (walkNext c.storage c.storage.len c.storage.head).length = c.len ∧
       (walkNext c.storage c.storage.len c.storage.head).Nodup ∧
       (walkNext c.storage c.storage.len c.storage.head).getLastD Pointer.null
         = c.storage.tail ∧
       walkPrev c.storage c.storage.len c.storage.tail
         = (walkNext c.storage c.storage.len c.storage.head).reverse
  i3 : (∀ p ∈ walkNext c.storage c.storage.len c.storage.head,
          ((c.storage.entry? p).bind fun e => lookupKey c.map e.key) = some p) ∧
       (∀ kv ∈ c.map, ∀ kv2 ∈ c.map, kv.2 = kv2.2 → kv.1 = kv2.1)
  i4 : ∀ kv ∈ c.map, (c.storage.entry? kv.2).isSome = true
  i5 : c.map ≠ [] →
       ((c.storage.entry? c.storage.head).map Entry.prev = some Pointer.null ∧
        (c.storage.entry? c.storage.tail).map Entry.next = some Pointer.null)
  i6 : c.len ≤ c.capacity ∧ ∃ m, c.capacity = m * U

/-- One cache operation of the public interface, tagged with the clock value
at which it runs. -/
inductive Op (K V : Type) : Type where
  | put (now : Nat) (key : K) (value : V)
  | get (now : Nat) (key : K)
  | evict (now : Nat)

/-- Run one operation, keeping only the resulting state. -/
def Cache.step [DecidableEq K] (c : Cache K V) : Op K V → Option (Cache K V)
  | Op.put now k v => (c.put now k v).map Prod.snd
  | Op.get now k => (c.get now k).map Prod.snd
  | Op.evict now => c.evict now

/-- Run a sequence of operations. -/
def Cache.run [DecidableEq K] (c : Cache K V) : List (Op K V) → Option (Cache K V)
  | [] => some c
  | op :: ops =>
    match c.step op with
    | none => none
    | some c2 => c2.run ops

/-! Concrete runs used by the claim theorems. -/

/-- Cache of scenario S6 after `new(2, 1)` and `put(1,1), put(2,2), put(3,3)`
at clock value 1000. -/
def s6Cache : Option (Cache Nat Nat) := do
  let c0 ← Cache.new 2 1
  let r1 ← c0.put 1000 1 1
  let r2 ← r1.2.put 1000 2 2
  let r3 ← r2.2.put 1000 3 3
  pure r3.2

/-- Cache of scenario S6 after the first (fresh) `get(2)` at clock 1000. -/
def s6CacheAfterGet : Option (Cache Nat Nat) := do
  let c3 ← s6Cache
  let r ← c3.get 1000 2
  pure r.2

/-- Scenario S6 cache with a harmless default (the runs above all succeed). -/
def s6CacheD : Cache Nat Nat := s6Cache.getD { storage := Storage.new 1 1, map := [] }

/-- Cache used by several concrete witnesses: `new(2, 1)` followed by
`put(1, 10)` and `put(2, 20)`, both at clock value 0. -/
def twoEntryCache : Cache Nat Nat :=
  (((Cache.new 2 1 : Option (Cache Nat Nat)).bind
      (fun c0 => (c0.put 0 1 10).map Prod.snd)).bind
    (fun c1 => (c1.put 0 2 20).map Prod.snd)).getD
    ⟨Storage.new 1 1, []⟩

/-! Model of the asynchronous single-flight layer
(`src/lru/asynchronous/update_intent/mod.rs`).  The base cache stores
`Arc<Mutex<UpdateState<V>>>` cells; a cell is either a published value or a
marker carrying the broadcast channel of the in-flight computation.  A
channel is identified by a number; `sent` below records the channels on
which the completion signal has been broadcast. -/

/-- `UpdateState`: a published value, or an in-flight computation holding
the sender of its broadcast channel. -/
inductive UpdateState (V : Type) : Type where
  | available (v : V)
  | inProgress (ch : Nat)
deriving DecidableEq, Repr

/-- `CacheError` of the single-flight layer. -/
inductive CacheError : Type where
  | updateInProgress
deriving DecidableEq, Repr

/-- Single-flight `Cache::put` (`update_intent/mod.rs`): inspect the cell
under `key` via the base cache's `get` (which promotes and refreshes on a
hit), fail on an in-flight cell, and otherwise overwrite with the new
value. -/
def sfgPut [DecidableEq K] (now : Nat) (c : Cache K (UpdateState V)) (k : K)
    (v : V) :
    Option (Except CacheError (Option V) × Cache K (UpdateState V)) := do
  let r1 ← c.get now k
  let result : Except CacheError (Option V) :=
    match r1.1 with
    | none => Except.ok none
    | some (UpdateState.available v0) => Except.ok (some v0)
    | some (UpdateState.inProgress _) => Except.error CacheError.updateInProgress
  match result with
  | Except.ok _ => do
    let r2 ← r1.2.put now k (UpdateState.available v)
    pure (result, r2.2)
  | Except.error _ => pure (result, r1.2)

/-- Control point of one task running
`get_or_update(k, compute)`: at the top of the retry loop, subscribed and
waiting on a channel, computing after having installed its `InProgress`
cell, or returned. -/
inductive TaskPc (V : Type) : Type where
  | start
  | waiting (ch : Nat)
  | computing (ch : Nat)
  | done (r : Option V)
deriving DecidableEq, Repr

/-- Shared state of two tasks racing `get_or_update` on one cache: the
base cache of cells, both control points, a supply of fresh channel ids,
the channels already signalled, and how many times `compute` was
invoked. -/
structure SFState (K V : Type) : Type where
  cache : Cache K (UpdateState V)
  pc0 : TaskPc V
  pc1 : TaskPc V
  nextCh : Nat
  sent : List Nat
  calls : Nat
deriving DecidableEq

/-- One atomic section of `get_or_update(k, compute)` where `compute`
produces `v`.  Each arm is one lock-holding section of the source: from
the loop top, a miss invokes `compute`, installs `InProgress` with a fresh
channel and leaves the lock to await the future; a published cell returns
its value; an in-flight cell subscribes.  A waiting task wakes once its
channel was signalled.  A computing task (outside the lock) finishes the
future, writes the published value directly into its cell, signals the
channel and returns. -/
def gouStep [DecidableEq K] (now : Nat) (k : K) (v : V)
    (c : Cache K (UpdateState V)) (pc : TaskPc V) (nextCh : Nat)
    (sent : List Nat) (calls : Nat) :
    Option (Cache K (UpdateState V) × TaskPc V × Nat × List Nat × Nat) :=
  match pc with
  | TaskPc.start =>
    match c.get now k with
    | none => none
    | some (g, c1) =>
      match g with
      | none =>
        match c1.put now k (UpdateState.inProgress nextCh) with
        | none => none
        | some (_, c2) =>
          some (c2, TaskPc.computing nextCh, nextCh + 1, sent, calls + 1)
      | some (UpdateState.available v0) =>
        some (c1, TaskPc.done (some v0), nextCh, sent, calls)
      | some (UpdateState.inProgress ch) =>
        some (c1, TaskPc.waiting ch, nextCh, sent, calls)
  | TaskPc.waiting ch =>
    if ch ∈ sent then some (c, TaskPc.start, nextCh, sent, calls)
    else some (c, TaskPc.waiting ch, nextCh, sent, calls)
  | TaskPc.computing ch =>
    match lookupKey c.map k with
    | some p =>
      match c.storage.modifyEntry? p
          (fun e => { e with data := UpdateState.available v }) with
      | none => none
      | some st => some (⟨st, c.map⟩, TaskPc.done (some v), nextCh,
          ch :: sent, calls)
    | none => some (c, TaskPc.done (some v), nextCh, ch :: sent, calls)
  | TaskPc.done r => some (c, TaskPc.done r, nextCh, sent, calls)

/-- Schedule one of the two tasks (`false` = task 0, `true` = task 1). -/
def sfgStepTask [DecidableEq K] (now : Nat) (k : K) (v : V)
    (s : SFState K V) (t : Bool) : Option (SFState K V) :=
  if t then
    match gouStep now k v s.cache s.pc1 s.nextCh s.sent s.calls with
    | none => none
    | some (c2, pc2, n2, sent2, calls2) =>
      some ⟨c2, s.pc0, pc2, n2, sent2, calls2⟩
  else
    match gouStep now k v s.cache s.pc0 s.nextCh s.sent s.calls with
    | none => none
    | some (c2, pc2, n2, sent2, calls2) =>
      some ⟨c2, pc2, s.pc1, n2, sent2, calls2⟩

/-- Run a schedule (a list of task choices). -/
def sfgRunFrom [DecidableEq K] (now : Nat) (k : K) (v : V)
    (s : SFState K V) : List Bool → Option (SFState K V)
  | [] => some s
  | t :: ts =>
    match sfgStepTask now k v s t with
    | none => none
    | some s2 => sfgRunFrom now k v s2 ts

/-- Scenario S7: a fresh unit cache and two tasks about to race
`get_or_update(1, compute)` where `compute` yields `42`. -/
def s7Init : SFState Nat Nat :=
  ⟨(Cache.new 1 60).getD ⟨Storage.new 1 60, []⟩, TaskPc.start, TaskPc.start,
   0, [], 0⟩

/-- Number of live slots holding an `InProgress` cell. -/
def inProgressSlots (c : Cache K (UpdateState V)) : Nat :=
  (c.storage.slabs.map (fun o => (o.getD []).countP (fun sl =>
    match sl with
    | some en =>
      match en.data with
      | UpdateState.inProgress _ => true
      | UpdateState.available _ => false
    | none => false))).sum

/-- One breadth step of the reachable-state exploration for S7. -/
def s7Expand (ss : List (SFState Nat Nat)) : List (SFState Nat Nat) :=
  (ss ++ ss.bind (fun s =>
    [sfgStepTask 0 1 42 s false, sfgStepTask 0 1 42 s true].filterMap id)).dedup

/-- All states reachable in scenario S7 (the exploration closes well below
16 rounds). -/
def s7Reach : List (SFState Nat Nat) := Nat.iterate s7Expand 16 [s7Init]

/-- Cache used by the C8 counterexample: `new(2, 60)` holding an
in-flight cell under key 2 (inserted first, hence at the tail) and a
published value under key 1 (at the head), both at clock value 0. -/
def sfgTwo : Cache Nat (UpdateState Nat) :=
  (((Cache.new 2 60 : Option (Cache Nat (UpdateState Nat))).bind
      (fun c0 => (c0.put 0 2 (UpdateState.inProgress 0)).map Prod.snd)).bind
    (fun c1 => (c1.put 0 1 (UpdateState.available 10)).map Prod.snd)).getD
    ⟨Storage.new 1 60, []⟩

/-- State of `sfgTwo` after the failing single-flight `put(2, 99)` at
clock value 7. -/
def sfgTwoAfter : Cache Nat (UpdateState Nat) :=
  ((sfgPut 7 sfgTwo 2 99).getD (Except.ok none, sfgTwo)).2

/-- Has this task returned? -/
def TaskPc.isDone : TaskPc V → Bool
  | TaskPc.done _ => true
  | _ => false

instance exceptDecEq {E A : Type} [DecidableEq E] [DecidableEq A] :
    DecidableEq (Except E A) := fun a b =>
  match a, b with
  | Except.ok x, Except.ok y =>
    if h : x = y then Decidable.isTrue (by rw [h])
    else Decidable.isFalse (fun he => h (by cases he; rfl))
  | Except.error x, Except.error y =>
    if h : x = y then Decidable.isTrue (by rw [h])
    else Decidable.isFalse (fun he => h (by cases he; rfl))
  | Except.ok _, Except.error _ => Decidable.isFalse (fun he => by cases he)
  | Except.error _, Except.ok _ => Decidable.isFalse (fun he => by cases he)

/-! Basic lemmas about slot reads and writes. -/

theorem get?_some_lt {α : Type} {l : List α} {n : Nat} {a : α} (h : l.get? n = some a) :
    n < l.length :=
  (List.get?_eq_some.mp h).1

theorem countP_set_of_eq {α : Type} (f : α → Bool) :
    ∀ (l : List α) (i : Nat) (x y : α), l.get? i = some y → f x = f y →
      (l.set i x).countP f = l.countP f := by
  intro l
  induction l with
  | nil => intro i x y h; simp at h
  | cons a l ih =>
    intro i x y h hf
    cases i with
    | zero =>
      simp only [List.get?] at h
      cases h
      simp [List.set, List.countP_cons, hf]
    | succ n =>
      simp only [List.get?] at h
      simp [List.set, List.countP_cons, ih n x y h hf]

theorem map_sum_set {α : Type} (f : α → Nat) :
    ∀ (l : List α) (i : Nat) (x y : α), l.get? i = some y →
      ((l.set i x).map f).sum + f y = (l.map f).sum + f x := by
  intro l
  induction l with
  | nil => intro i x y h; simp at h
  | cons a l ih =>
    intro i x y h
    cases i with
    | zero =>
      simp only [List.get?] at h
      cases h
      simp [List.set]
      omega
    | succ n =>
      simp only [List.get?] at h
      have := ih n x y h
      simp only [List.set, List.map_cons, List.sum_cons]
      omega

theorem slotGet?_setSlot_self {slabs : List (Option (Seg K V))} {p : Pointer}
    (e : Entry K V) (h : (slotGet? slabs p).isSome = true) :
    slotGet? (setSlot slabs p e) p = some e := by
  cases p with
  | null => simp [slotGet?] at h
  | internalPointer i j =>
    simp only [slotGet?] at h ⊢
    cases hseg : slabs.get? i with
    | none => rw [hseg] at h; simp at h
    | some o =>
      cases o with
      | none => rw [hseg] at h; simp at h
      | some seg =>
        rw [hseg] at h
        simp only at h
        cases hj : seg.get? j with
        | none => rw [hj] at h; simp at h
        | some o2 =>
          cases o2 with
          | none => rw [hj] at h; simp at h
          | some e0 =>
            simp only [setSlot, hseg]
            rw [List.get?_set_eq_of_lt _ (get?_some_lt hseg)]
            simp only
            rw [List.get?_set_eq_of_lt _ (get?_some_lt hj)]
            rfl

theorem slotGet?_setSlot_ne {slabs : List (Option (Seg K V))} {p q : Pointer}
    (e : Entry K V) (h : q ≠ p) :
    slotGet? (setSlot slabs p e) q = slotGet? slabs q := by
  cases p with
  | null => rfl
  | internalPointer i j =>
    simp only [setSlot]
    cases hseg : slabs.get? i with
    | none => rfl
    | some o =>
      cases o with
      | none => rfl
      | some seg =>
        cases q with
        | null => rfl
        | internalPointer i2 j2 =>
          simp only [slotGet?]
          by_cases hi : i2 = i
          · subst hi
            have hj : j2 ≠ j := by
              intro hj; exact h (by rw [hj])
            rw [List.get?_set_eq_of_lt _ (get?_some_lt hseg), hseg]
            simp only
            rw [List.get?_set_ne _ _ (fun hh => hj hh.symm)]
          · rw [List.get?_set_ne _ _ (fun hh => hi hh.symm)]

theorem slabsShape_setSlot (slabs : List (Option (Seg K V))) (p : Pointer)
    (e : Entry K V) : slabsShape (setSlot slabs p e) = slabsShape slabs := by
  cases p with
  | null => rfl
  | internalPointer i j =>
    simp only [setSlot]
    cases hseg : slabs.get? i with
    | none => rfl
    | some o =>
      cases o with
      | none => rfl
      | some seg =>
        simp only [slabsShape]
        have hlt := get?_some_lt hseg
        apply List.ext_get?
        intro n
        rw [List.get?_map, List.get?_map]
        by_cases hn : n = i
        · subst hn
          rw [List.get?_set_eq_of_lt _ hlt, hseg]
          simp
        · rw [List.get?_set_ne _ _ (Ne.symm hn)]

theorem slabsOcc_setSlot {slabs : List (Option (Seg K V))} {p : Pointer}
    (e : Entry K V) (h : (slotGet? slabs p).isSome = true) :
    slabsOcc (setSlot slabs p e) = slabsOcc slabs := by
  cases p with
  | null => rfl
  | internalPointer i j =>
    simp only [slotGet?] at h
    cases hseg : slabs.get? i with
    | none => rw [hseg] at h; simp at h
    | some o =>
      cases o with
      | none => rw [hseg] at h; simp at h
      | some seg =>
        rw [hseg] at h
        simp only at h
        cases hj : seg.get? j with
        | none => rw [hj] at h; simp at h
        | some o2 =>
          cases o2 with
          | none => rw [hj] at h; simp at h
          | some e0 =>
            simp only [setSlot, hseg, slabsOcc]
            have hsum := map_sum_set (fun o => segOccupied (o.getD []))
              slabs i (some (seg.set j (some e))) (some seg) hseg
            have hocc : segOccupied (seg.set j (some e)) = segOccupied seg := by
              apply countP_set_of_eq _ seg j _ _ hj
              rfl
            simp only [Option.getD_some] at hsum
            rw [hocc] at hsum
            omega

theorem slotGet?_freeSlot_self (slabs : List (Option (Seg K V))) (p : Pointer) :
    slotGet? (freeSlot slabs p) p = none := by
  cases p with
  | null => rfl
  | internalPointer i j =>
    simp only [freeSlot]
    cases hseg : slabs.get? i with
    | none => simp only [slotGet?]; rw [hseg]
    | some o =>
      cases o with
      | none => simp only [slotGet?]; rw [hseg]
      | some seg =>
        simp only [slotGet?]
        rw [List.get?_set_eq_of_lt _ (get?_some_lt hseg)]
        simp only
        by_cases hj : j < seg.length
        · rw [List.get?_set_eq_of_lt _ hj]
          rfl
        · rw [List.get?_eq_none.mpr (by simpa using Nat.le_of_not_lt hj)]
          rfl

theorem slotGet?_freeSlot_ne {slabs : List (Option (Seg K V))} {p q : Pointer}
    (h : q ≠ p) : slotGet? (freeSlot slabs p) q = slotGet? slabs q := by
  cases p with
  | null => rfl
  | internalPointer i j =>
    simp only [freeSlot]
    cases hseg : slabs.get? i with
    | none => rfl
    | some o =>
      cases o with
      | none => rfl
      | some seg =>
        cases q with
        | null => rfl
        | internalPointer i2 j2 =>
          simp only [slotGet?]
          by_cases hi : i2 = i
          · subst hi
            have hj : j2 ≠ j := fun hj => h (by rw [hj])
            rw [List.get?_set_eq_of_lt _ (get?_some_lt hseg), hseg]
            simp only
            rw [List.get?_set_ne _ _ (Ne.symm hj)]
          · rw [List.get?_set_ne _ _ (Ne.symm hi)]

theorem slabsShape_freeSlot (slabs : List (Option (Seg K V))) (p : Pointer) :
    slabsShape (freeSlot slabs p) = slabsShape slabs := by
  cases p with
  | null => rfl
  | internalPointer i j =>
    simp only [freeSlot]
    cases hseg : slabs.get? i with
    | none => rfl
    | some o =>
      cases o with
      | none => rfl
      | some seg =>
        simp only [slabsShape]
        have hlt := get?_some_lt hseg
        apply List.ext_get?
        intro n
        rw [List.get?_map, List.get?_map]
        by_cases hn : n = i
        · subst hn
          rw [List.get?_set_eq_of_lt _ hlt, hseg]
          simp
        · rw [List.get?_set_ne _ _ (Ne.symm hn)]

theorem slabsOcc_freeSlot {slabs : List (Option (Seg K V))} {p : Pointer}
    (h : (slotGet? slabs p).isSome = true) :
    slabsOcc (freeSlot slabs p) + 1 = slabsOcc slabs := by
  cases p with
  | null => simp [slotGet?] at h
  | internalPointer i j =>
    simp only [slotGet?] at h
    cases hseg : slabs.get? i with
    | none => rw [hseg] at h; simp at h
    | some o =>
      cases o with
      | none => rw [hseg] at h; simp at h
      | some seg =>
        rw [hseg] at h
        simp only at h
        cases hj : seg.get? j with
        | none => rw [hj] at h; simp at h
        | some o2 =>
          cases o2 with
          | none => rw [hj] at h; simp at h
          | some e0 =>
            simp only [freeSlot, hseg, slabsOcc]
            have hsum := map_sum_set (fun o => segOccupied (o.getD []))
              slabs i (some (seg.set j none)) (some seg) hseg
            simp only [Option.getD_some] at hsum
            have hocc : segOccupied (seg.set j none) + 1 = segOccupied seg := by
              clear hsum hseg h
              induction seg generalizing j with
              | nil => simp at hj
              | cons a l ih =>
                cases j with
                | zero =>
                  simp only [List.get?] at hj
                  cases hj
                  simp [List.set, segOccupied, List.countP_cons]
                | succ n =>
                  simp only [List.get?] at hj
                  have := ih n hj
                  simp only [List.set, segOccupied, List.countP_cons] at this ⊢
                  omega
            omega

theorem slotGet?_dropEmptySegs (slabs : List (Option (Seg K V))) (p : Pointer) :
    slotGet? (dropEmptySegs slabs) p = slotGet? slabs p := by
  cases p with
  | null => rfl
  | internalPointer i j =>
    simp only [slotGet?, dropEmptySegs]
    rw [List.get?_map]
    cases hseg : slabs.get? i with
    | none => rfl
    | some o =>
      cases o with
      | none => rfl
      | some seg =>
        simp only [Option.map_some']
        by_cases hocc : segOccupied seg = 0
        · rw [if_pos hocc]
          cases hj : seg.get? j with
          | none => rfl
          | some o2 =>
            cases o2 with
            | none => rfl
            | some e0 =>
              exfalso
              have hmem : some e0 ∈ seg := List.get?_mem hj
              have := (List.countP_eq_zero.mp hocc) _ hmem
              simp at this
        · rw [if_neg hocc]

theorem slabsOcc_dropEmptySegs (slabs : List (Option (Seg K V))) :
    slabsOcc (dropEmptySegs slabs) = slabsOcc slabs := by
  simp only [slabsOcc, dropEmptySegs, List.map_map]
  congr 1
  apply List.map_congr_left
  intro o _
  cases o with
  | none => rfl
  | some seg =>
    simp only [Function.comp_apply]
    by_cases hocc : segOccupied seg = 0
    · rw [if_pos hocc]
      simp only [Option.getD_none, Option.getD_some]
      rw [show segOccupied ([] : Seg K V) = 0 from rfl]
      exact hocc.symm
    · rw [if_neg hocc]

theorem shape_dropEmptySegs_mem {slabs : List (Option (Seg K V))} {o : Option Nat}
    (h : o ∈ slabsShape (dropEmptySegs slabs)) :
    o = none ∨ o ∈ slabsShape slabs := by
  simp only [slabsShape, dropEmptySegs, List.map_map, List.mem_map] at h
  obtain ⟨x, hx, rfl⟩ := h
  cases x with
  | none => left; rfl
  | some seg =>
    simp only [Function.comp]
    by_cases hocc : segOccupied seg = 0
    · left; simp [hocc]
    · right
      simp only [slabsShape, List.mem_map]
      exact ⟨some seg, hx, by simp [hocc]⟩

theorem capacity_dropEmptySegs_of_occ_zero {slabs : List (Option (Seg K V))}
    (h : slabsOcc slabs = 0) :
    ((dropEmptySegs slabs).map segCap).sum = 0 := by
  simp only [slabsOcc, List.sum_eq_zero_iff] at h
  simp only [dropEmptySegs, List.map_map, List.sum_eq_zero_iff]
  intro n hn
  simp only [List.mem_map] at hn
  obtain ⟨x, hx, rfl⟩ := hn
  cases x with
  | none => rfl
  | some seg =>
    have : segOccupied seg = 0 := by
      have := h (segOccupied ((some seg).getD []))
        (List.mem_map.mpr ⟨some seg, hx, rfl⟩)
      simpa using this
    simp [Function.comp, this, segCap]

/-! Lemmas about the doubly-linked-list predicate. -/

theorem dll_nil (s : Storage K V) (pv nx : Pointer) : dll s pv [] nx := trivial

theorem dll_cons {s : Storage K V} {pv nx p : Pointer} {l : List Pointer} :
    dll s pv (p :: l) nx ↔
      ((s.entry? p).map Entry.prev = some pv ∧
       (s.entry? p).map Entry.next = some (l.headD nx) ∧
       dll s p l nx) :=
  Iff.rfl

theorem headD_append {α : Type} (l₁ l₂ : List α) (d : α) :
    (l₁ ++ l₂).headD d = l₁.headD (l₂.headD d) := by
  cases l₁ <;> rfl

theorem dll_append {s : Storage K V} {pv nx : Pointer} {l₁ l₂ : List Pointer} :
    dll s pv (l₁ ++ l₂) nx ↔
      dll s pv l₁ (l₂.headD nx) ∧ dll s (l₁.getLastD pv) l₂ nx := by
  induction l₁ generalizing pv with
  | nil => simp [dll_nil, List.getLastD]
  | cons a l ih =>
    simp only [List.cons_append, dll_cons, headD_append, List.getLastD_cons, ih,
      and_assoc]

theorem dll_frame {s s2 : Storage K V} {pv nx : Pointer} {l : List Pointer}
    (h : ∀ p ∈ l, s2.entry? p = s.entry? p) (hd : dll s pv l nx) :
    dll s2 pv l nx := by
  induction l generalizing pv with
  | nil => exact dll_nil ..
  | cons a l ih =>
    rw [dll_cons] at hd ⊢
    rw [h a (by simp)]
    exact ⟨hd.1, hd.2.1, ih (fun p hp => h p (by simp [hp])) hd.2.2⟩

theorem dll_mem_isSome {s : Storage K V} {pv nx p : Pointer} {l : List Pointer}
    (hd : dll s pv l nx) (hp : p ∈ l) : (s.entry? p).isSome = true := by
  induction l generalizing pv with
  | nil => simp at hp
  | cons a l ih =>
    rw [dll_cons] at hd
    rcases List.mem_cons.mp hp with rfl | hp2
    · cases he : s.entry? p
      · rw [he] at hd; simp at hd
      · rfl
    · exact ih hd.2.2 hp2

theorem dll_mem_ne_null {s : Storage K V} {pv nx p : Pointer} {l : List Pointer}
    (hd : dll s pv l nx) (hp : p ∈ l) : p ≠ Pointer.null := by
  intro hnull
  subst hnull
  have := dll_mem_isSome hd hp
  simp [Storage.entry?, slotGet?] at this

theorem walkNext_of_dll {s : Storage K V} {pv : Pointer} {l : List Pointer}
    (hd : dll s pv l Pointer.null) :
    walkNext s l.length (l.headD Pointer.null) = l := by
  induction l generalizing pv with
  | nil => rfl
  | cons a l ih =>
    rw [dll_cons] at hd
    cases he : s.entry? a with
    | none => rw [he] at hd; simp at hd
    | some e =>
      rw [he] at hd
      simp only [Option.map_some', Option.some_inj] at hd
      show walkNext s (l.length + 1) a = a :: l
      simp only [walkNext, he]
      rw [hd.2.1]
      exact congrArg (List.cons a) (ih hd.2.2)

theorem getLastD_append_cons {α : Type} (l₁ l₂ : List α) (a d : α) :
    (l₁ ++ a :: l₂).getLastD d = (a :: l₂).getLastD d := by
  induction l₁ generalizing d with
  | nil => rfl
  | cons b l ih =>
    rw [List.cons_append, List.getLastD_cons, ih, List.getLastD_cons,
      List.getLastD_cons]

theorem walkPrev_of_dll {s : Storage K V} {nx : Pointer} {l : List Pointer}
    (hd : dll s Pointer.null l nx) :
    walkPrev s l.length (l.getLastD Pointer.null) = l.reverse := by
  induction l using List.reverseRecOn generalizing nx with
  | nil => rfl
  | append_singleton l p ih =>
    rw [dll_append] at hd
    obtain ⟨hd1, hd2⟩ := hd
    rw [dll_cons] at hd2
    cases he : s.entry? p with
    | none => rw [he] at hd2; simp at hd2
    | some e =>
      rw [he] at hd2
      simp only [Option.map_some', Option.some_inj] at hd2
      have hlast : (l ++ [p]).getLastD Pointer.null = p := by
        rw [getLastD_append_cons]; rfl
      have hlen : (l ++ [p]).length = l.length + 1 := by simp
      rw [hlast, hlen]
      simp only [walkPrev, he]
      rw [hd2.1, ih hd1, List.reverse_append, List.reverse_cons,
        List.reverse_nil, List.nil_append, List.singleton_append]

/-! Lemmas about the association-list key map. -/

theorem lookupKey_eq_none {m : List (K × Pointer)} {k : K} :
    lookupKey m k = none ↔ ∀ kv ∈ m, kv.1 ≠ k := by
  induction m with
  | nil => simp [lookupKey]
  | cons kv m ih =>
    simp only [lookupKey]
    by_cases h : kv.1 = k
    · simp [h]
    · simp [h, ih]

theorem mem_eraseKey {m : List (K × Pointer)} {k : K} {kv : K × Pointer} :
    kv ∈ eraseKey m k ↔ kv ∈ m ∧ kv.1 ≠ k := by
  induction m with
  | nil => simp [eraseKey]
  | cons kv2 m ih =>
    simp only [eraseKey]
    by_cases h : kv2.1 = k
    · rw [if_pos h, ih]
      constructor
      · rintro ⟨h1, h2⟩
        exact ⟨List.mem_cons_of_mem _ h1, h2⟩
      · rintro ⟨h1, h2⟩
        rcases List.mem_cons.mp h1 with rfl | h3
        · exact absurd h h2
        · exact ⟨h3, h2⟩
    · rw [if_neg h]
      simp only [List.mem_cons, ih]
      constructor
      · rintro (rfl | ⟨h1, h2⟩)
        · exact ⟨Or.inl rfl, h⟩
        · exact ⟨Or.inr h1, h2⟩
      · rintro ⟨rfl | h1, h2⟩
        · exact Or.inl rfl
        · exact Or.inr ⟨h1, h2⟩

theorem eraseKey_sublist (m : List (K × Pointer)) (k : K) :
    (eraseKey m k).Sublist m := by
  induction m with
  | nil => simp [eraseKey]
  | cons kv m ih =>
    simp only [eraseKey]
    by_cases h : kv.1 = k
    · rw [if_pos h]
      exact ih.cons _
    · rw [if_neg h]
      exact ih.cons₂ _

theorem lookupKey_eraseKey_self (m : List (K × Pointer)) (k : K) :
    lookupKey (eraseKey m k) k = none := by
  rw [lookupKey_eq_none]
  intro kv hkv
  exact (mem_eraseKey.mp hkv).2

theorem lookupKey_eraseKey_ne {m : List (K × Pointer)} {k k2 : K} (h : k2 ≠ k) :
    lookupKey (eraseKey m k) k2 = lookupKey m k2 := by
  induction m with
  | nil => rfl
  | cons kv m ih =>
    by_cases hk : kv.1 = k
    · have hne : kv.1 ≠ k2 := by rw [hk]; exact Ne.symm h
      simp only [eraseKey, if_pos hk, lookupKey, if_neg hne]
      exact ih
    · simp only [eraseKey, if_neg hk, lookupKey]
      by_cases hk2 : kv.1 = k2
      · rw [if_pos hk2, if_pos hk2]
      · rw [if_neg hk2, if_neg hk2]
        exact ih

theorem eraseKey_of_lookup_none {m : List (K × Pointer)} {k : K}
    (h : lookupKey m k = none) : eraseKey m k = m := by
  induction m with
  | nil => rfl
  | cons kv m ih =>
    simp only [lookupKey] at h
    by_cases hk : kv.1 = k
    · rw [if_pos hk] at h
      exact absurd h (by simp)
    · rw [if_neg hk] at h
      simp only [eraseKey, if_neg hk]
      rw [ih h]

theorem lookupKey_mem {m : List (K × Pointer)} {k : K} {p : Pointer}
    (h : lookupKey m k = some p) : (k, p) ∈ m := by
  induction m with
  | nil => simp [lookupKey] at h
  | cons kv m ih =>
    simp only [lookupKey] at h
    by_cases hk : kv.1 = k
    · rw [if_pos hk] at h
      cases h
      have : (k, kv.2) = kv := by rw [← hk]
      rw [this]
      exact List.mem_cons_self _ _
    · rw [if_neg hk] at h
      exact List.mem_cons_of_mem _ (ih h)

theorem lookupKey_isSome_of_mem {m : List (K × Pointer)} {kv : K × Pointer}
    (h : kv ∈ m) : (lookupKey m kv.1).isSome = true := by
  induction m with
  | nil => simp at h
  | cons kv2 m ih =>
    simp only [lookupKey]
    by_cases hk : kv2.1 = kv.1
    · simp [hk]
    · rcases List.mem_cons.mp h with rfl | h2
      · simp at hk
      · rw [if_neg hk]
        exact ih h2

theorem lookupKey_of_keys_nodup {m : List (K × Pointer)} {kv : K × Pointer}
    (hnodup : (m.map Prod.fst).Nodup) (h : kv ∈ m) :
    lookupKey m kv.1 = some kv.2 := by
  induction m with
  | nil => simp at h
  | cons kv2 m ih =>
    simp only [List.map_cons, List.nodup_cons] at hnodup
    rcases List.mem_cons.mp h with rfl | h2
    · simp [lookupKey]
    · simp only [lookupKey]
      have hne : kv2.1 ≠ kv.1 := by
        intro he
        exact hnodup.1 (he ▸ List.mem_map.mpr ⟨kv, h2, rfl⟩)
      rw [if_neg hne]
      exact ih hnodup.2 h2

theorem length_eraseKey_of_mem {m : List (K × Pointer)} {k : K} {p : Pointer}
    (hnodup : (m.map Prod.fst).Nodup) (h : (k, p) ∈ m) :
    (eraseKey m k).length + 1 = m.length := by
  induction m with
  | nil => simp at h
  | cons kv m ih =>
    simp only [List.map_cons, List.nodup_cons] at hnodup
    rcases List.mem_cons.mp h with he | h2
    · have hk : kv.1 = k := by rw [← he]
      simp only [eraseKey, if_pos hk]
      have herase : eraseKey m k = m := by
        apply eraseKey_of_lookup_none
        rw [lookupKey_eq_none]
        intro kv2 hkv2 he2
        have hmem : kv2.1 ∈ m.map Prod.fst := List.mem_map.mpr ⟨kv2, hkv2, rfl⟩
        rw [he2, ← hk] at hmem
        exact hnodup.1 hmem
      rw [herase, List.length_cons]
    · have hne : kv.1 ≠ k := by
        intro he
        exact hnodup.1 (he ▸ List.mem_map.mpr ⟨(k, p), h2, rfl⟩)
      simp only [eraseKey, if_neg hne, List.length_cons]
      have := ih hnodup.2 h2
      omega

theorem keys_nodup_eraseKey {m : List (K × Pointer)} {k : K}
    (hnodup : (m.map Prod.fst).Nodup) :
    ((eraseKey m k).map Prod.fst).Nodup :=
  ((eraseKey_sublist m k).map Prod.fst).nodup hnodup

theorem lookupKey_insertKey_self (m : List (K × Pointer)) (k : K) (p : Pointer) :
    lookupKey (insertKey m k p) k = some p := by
  simp [insertKey, lookupKey]

theorem lookupKey_insertKey_ne {m : List (K × Pointer)} {k k2 : K} {p : Pointer}
    (h : k2 ≠ k) : lookupKey (insertKey m k p) k2 = lookupKey m k2 := by
  simp only [insertKey, lookupKey]
  rw [if_neg (fun hh : k = k2 => h hh.symm)]
  exact lookupKey_eraseKey_ne h

theorem mem_insertKey {m : List (K × Pointer)} {k : K} {p : Pointer}
    {kv : K × Pointer} :
    kv ∈ insertKey m k p ↔ kv = (k, p) ∨ (kv ∈ m ∧ kv.1 ≠ k) := by
  simp [insertKey, mem_eraseKey]

theorem keys_nodup_insertKey {m : List (K × Pointer)} {k : K} {p : Pointer}
    (hnodup : (m.map Prod.fst).Nodup) :
    ((insertKey m k p).map Prod.fst).Nodup := by
  simp only [insertKey, List.map_cons, List.nodup_cons]
  constructor
  · intro hmem
    obtain ⟨kv, hkv, he⟩ := List.mem_map.mp hmem
    exact (mem_eraseKey.mp hkv).2 he
  · exact keys_nodup_eraseKey hnodup

theorem length_insertKey_of_none {m : List (K × Pointer)} {k : K} {p : Pointer}
    (h : lookupKey m k = none) : (insertKey m k p).length = m.length + 1 := by
  simp [insertKey, eraseKey_of_lookup_none h]

/-! Storage-level wrappers of the slot lemmas. -/

theorem entry?_withTail (s : Storage K V) (x : Pointer) (p : Pointer) :
    ({ s with tail := x } : Storage K V).entry? p = s.entry? p := rfl

theorem entry?_withHead (s : Storage K V) (x : Pointer) (p : Pointer) :
    ({ s with head := x } : Storage K V).entry? p = s.entry? p := rfl

theorem setEntry_head (s : Storage K V) (p : Pointer) (e : Entry K V) :
    (s.setEntry p e).head = s.head := rfl

theorem setEntry_tail (s : Storage K V) (p : Pointer) (e : Entry K V) :
    (s.setEntry p e).tail = s.tail := rfl

theorem setEntry_len (s : Storage K V) (p : Pointer) (e : Entry K V) :
    (s.setEntry p e).len = s.len := rfl

theorem setEntry_cap (s : Storage K V) (p : Pointer) (e : Entry K V) :
    (s.setEntry p e).cap = s.cap := rfl

theorem setEntry_timeout (s : Storage K V) (p : Pointer) (e : Entry K V) :
    (s.setEntry p e).timeout_secs = s.timeout_secs := rfl

theorem entry?_setEntry_self {s : Storage K V} {p : Pointer} (e : Entry K V)
    (h : (s.entry? p).isSome = true) : (s.setEntry p e).entry? p = some e :=
  slotGet?_setSlot_self e h

theorem entry?_setEntry_ne {s : Storage K V} {p q : Pointer} (e : Entry K V)
    (h : q ≠ p) : (s.setEntry p e).entry? q = s.entry? q :=
  slotGet?_setSlot_ne e h

theorem segShape_setEntry (s : Storage K V) (p : Pointer) (e : Entry K V) :
    segShape (s.setEntry p e) = segShape s :=
  slabsShape_setSlot s.slabs p e

theorem totalOcc_setEntry {s : Storage K V} {p : Pointer} (e : Entry K V)
    (h : (s.entry? p).isSome = true) : totalOcc (s.setEntry p e) = totalOcc s :=
  slabsOcc_setSlot e h

theorem modifyEntry?_eq_some {s : Storage K V} {p : Pointer} {e : Entry K V}
    (f : Entry K V → Entry K V) (h : s.entry? p = some e) :
    s.modifyEntry? p f = some (s.setEntry p (f e)) := by
  simp [Storage.modifyEntry?, h]

theorem capacity_eq_shape (s : Storage K V) :
    s.capacity = ((segShape s).map (fun o => o.getD 0)).sum := by
  simp only [Storage.capacity, segShape, slabsShape, List.map_map]
  congr 1
  apply List.map_congr_left
  intro o _
  cases o <;> rfl

/-! Small list helpers. -/

theorem getLastD_cons_indep {α : Type} (a : α) (l : List α) (d d2 : α) :
    (a :: l).getLastD d = (a :: l).getLastD d2 := by
  rw [List.getLastD_cons, List.getLastD_cons]

theorem getLastD_cons_mem {α : Type} (a : α) (l : List α) (d : α) :
    (a :: l).getLastD d ∈ a :: l := by
  induction l generalizing a with
  | nil => simp [List.getLastD]
  | cons b l ih =>
    rw [List.getLastD_cons]
    exact List.mem_cons_of_mem _ (ih b)

theorem is_null_iff (q : Pointer) : q.is_null = true ↔ q = Pointer.null := by
  cases q <;> simp [Pointer.is_null]

theorem is_null_false {q : Pointer} (h : q ≠ Pointer.null) : q.is_null = false := by
  cases q with
  | null => exact absurd rfl h
  | internalPointer i j => rfl

theorem getLastD_concat {α : Type} (l : List α) (w d : α) :
    (l ++ [w]).getLastD d = w := by
  rw [getLastD_append_cons]
  rfl

theorem eq_nil_or_append_singleton {α : Type} (l : List α) :
    l = [] ∨ ∃ l2 w, l = l2 ++ [w] := by
  rcases List.eq_nil_or_concat l with h | ⟨l2, w, h⟩
  · exact Or.inl h
  · exact Or.inr ⟨l2, w, by rw [h, List.concat_eq_append]⟩

/-- Computation shape of `Storage::move_to_top` once the target entry and
the first relink step are known. -/
theorem move_to_top_via (s s1 : Storage K V) (p : Pointer) (ep : Entry K V)
    (hep : s.entry? p = some ep)
    (hs1 : (if ep.next.is_null = true then some ({ s with tail := ep.prev } : Storage K V)
            else s.modifyEntry? ep.next fun e => { e with prev := ep.prev }) = some s1) :
    s.move_to_top p =
      ((s1.modifyEntry? ep.prev fun e => { e with next := ep.next }).bind fun s2 =>
        ((s2.modifyEntry? s.head fun e => { e with prev := p }).bind fun s3 =>
          ({ s3 with head := p } : Storage K V).modifyEntry? p fun e =>
            { e with next := s.head, prev := Pointer.null })) := by
  simp only [Storage.move_to_top, hep, Option.bind_eq_bind, Option.some_bind,
    Option.pure_def]
  by_cases hb : ep.next.is_null = true
  · rw [if_pos hb] at hs1 ⊢
    cases Option.some_inj.mp hs1
    rfl
  · rw [if_neg hb] at hs1 ⊢
    rw [hs1, Option.some_bind]

/-- Writing an entry that keeps the payload of the slot's current entry
preserves the payload view of every slot. -/
theorem payload_setEntry {s : Storage K V} {p : Pointer} {e0 e : Entry K V}
    (he : s.entry? p = some e0) (hk : e.key = e0.key)
    (ht : e.timestamp = e0.timestamp) (hd : e.data = e0.data) (q : Pointer) :
    (((s.setEntry p e).entry? q).map fun x => (x.key, x.timestamp, x.data)) =
    ((s.entry? q).map fun x => (x.key, x.timestamp, x.data)) := by
  by_cases hq : q = p
  · subst hq
    rw [entry?_setEntry_self e (by rw [he]; rfl), he]
    simp [hk, ht, hd]
  · rw [entry?_setEntry_ne e hq]

theorem headD_indep {α : Type} {l : List α} (h : l ≠ []) (d d2 : α) :
    l.headD d = l.headD d2 := by
  cases l with
  | nil => exact absurd rfl h
  | cons a l => rfl

/-- Stages two to four of `Storage::move_to_top`, shared by the tail and
non-tail cases of the first stage. -/
theorem move_to_top_assembled (s s1 : Storage K V) (a p : Pointer)
    (u v : List Pointer) (ep : Entry K V)
    (hnodup : (a :: (u ++ p :: v)).Nodup)
    (hhead : s.head = a)
    (hep : s.entry? p = some ep)
    (hprev : ep.prev = u.getLastD a)
    (hnext : ep.next = v.headD Pointer.null)
    (hdllLa : dll s Pointer.null (a :: u) p)
    (hs1comp : (if ep.next.is_null = true
                then some ({ s with tail := ep.prev } : Storage K V)
                else s.modifyEntry? ep.next fun e => { e with prev := ep.prev }) = some s1)
    (hs1head : s1.head = s.head)
    (hs1tail : s1.tail = (p :: a :: (u ++ v)).getLastD Pointer.null)
    (hs1frame : ∀ r, r ∉ v → s1.entry? r = s.entry? r)
    (hs1dllv : dll s1 (u.getLastD a) v Pointer.null)
    (hs1shape : segShape s1 = segShape s)
    (hs1occ : totalOcc s1 = totalOcc s)
    (hs1cap : s1.cap = s.cap) (hs1len : s1.len = s.len)
    (hs1timeout : s1.timeout_secs = s.timeout_secs)
    (hs1payload : ∀ q0 : Pointer,
      ((s1.entry? q0).map fun e => (e.key, e.timestamp, e.data)) =
      ((s.entry? q0).map fun e => (e.key, e.timestamp, e.data))) :
    ∃ s2 : Storage K V, s.move_to_top p = some s2 ∧
      s2.head = p ∧
      s2.tail = (p :: a :: (u ++ v)).getLastD Pointer.null ∧
      dll s2 Pointer.null (p :: a :: (u ++ v)) Pointer.null ∧
      s2.cap = s.cap ∧ s2.len = s.len ∧ s2.timeout_secs = s.timeout_secs ∧
      segShape s2 = segShape s ∧ totalOcc s2 = totalOcc s ∧
      (∀ q : Pointer, ((s2.entry? q).map fun e => (e.key, e.timestamp, e.data)) =
        ((s.entry? q).map fun e => (e.key, e.timestamp, e.data))) := by
  -- distinctness
  rw [List.nodup_cons] at hnodup
  obtain ⟨hamem, hnd⟩ := hnodup
  rw [List.nodup_append] at hnd
  obtain ⟨hndu, hndpv, hdisj⟩ := hnd
  rw [List.nodup_cons] at hndpv
  obtain ⟨hpnv, hndv⟩ := hndpv
  have hau : a ∉ u := fun h => hamem (List.mem_append.mpr (Or.inl h))
  have hap : a ≠ p := fun h =>
    hamem (List.mem_append.mpr (Or.inr (List.mem_cons.mpr (Or.inl h))))
  have hav : a ∉ v := fun h =>
    hamem (List.mem_append.mpr (Or.inr (List.mem_cons.mpr (Or.inr h))))
  have hpu : p ∉ u := fun h => hdisj h (List.mem_cons_self _ _)
  -- the previous neighbour of p and its entry
  have hpvp_mem : u.getLastD a ∈ a :: u := by
    rw [← List.getLastD_cons]
    exact getLastD_cons_mem a u Pointer.null
  have hpvp_ne_p : u.getLastD a ≠ p := by
    intro he
    rcases List.mem_cons.mp hpvp_mem with h1 | h1
    · exact hap (h1 ▸ he).symm.symm
    · exact hpu (he ▸ h1)
  have hpvp_nv : u.getLastD a ∉ v := by
    intro hmem
    rcases List.mem_cons.mp hpvp_mem with h1 | h1
    · exact hav (h1 ▸ hmem)
    · exact hdisj h1 (List.mem_cons.mpr (Or.inr hmem))
  have hepv0 : (s.entry? (u.getLastD a)).isSome = true := by
    rw [dll_cons] at hdllLa
    rcases List.mem_cons.mp hpvp_mem with h1 | h1
    · rw [h1]
      cases hx : s.entry? a with
      | none => rw [hx] at hdllLa; simp at hdllLa
      | some _ => rfl
    · exact dll_mem_isSome (show dll s a u p from hdllLa.2.2) h1
  cases hepv : s.entry? (u.getLastD a) with
  | none => rw [hepv] at hepv0; simp at hepv0
  | some epv =>
  -- entry for a in the original state
  have hdllLa2 := hdllLa
  rw [dll_cons] at hdllLa2
  obtain ⟨hAprev, hAnext, hdllu⟩ := hdllLa2
  cases hea : s.entry? a with
  | none => rw [hea] at hAprev; simp at hAprev
  | some ea =>
  rw [hea, Option.map_some', Option.some_inj] at hAprev hAnext
  -- stage 2: rewrite the last link of the prefix to skip over p
  have hs1pvp : s1.entry? (u.getLastD a) = some epv := by
    rw [hs1frame _ hpvp_nv, hepv]
  have hstage2 : s1.modifyEntry? ep.prev (fun e => { e with next := ep.next }) =
      some (s1.setEntry (u.getLastD a) { epv with next := ep.next }) := by
    rw [hprev]
    exact modifyEntry?_eq_some _ hs1pvp
  set sB := s1.setEntry (u.getLastD a) { epv with next := ep.next } with hsBdef
  -- entry for a after stage 2
  have hsBa : ∃ ea2 : Entry K V, sB.entry? a = some ea2 ∧
      ea2.next = (u ++ v).headD Pointer.null ∧
      ea2.key = ea.key ∧ ea2.timestamp = ea.timestamp ∧ ea2.data = ea.data := by
    rcases eq_nil_or_append_singleton u with rfl | ⟨u2, w, rfl⟩
    · have hpa : (List.getLastD [] a) = a := rfl
      have : epv = ea := by
        rw [hpa, hea] at hepv
        exact (Option.some_inj.mp hepv).symm
      refine ⟨{ epv with next := ep.next }, ?_, ?_, ?_, ?_, ?_⟩
      · rw [hsBdef, hpa]
        exact entry?_setEntry_self _ (by rw [hs1frame _ hav, hea]; rfl)
      · rw [hnext]
        rfl
      · rw [this]
      · rw [this]
      · rw [this]
    · have hw : (u2 ++ [w]).getLastD a = w := getLastD_concat u2 w a
      have hwa : a ≠ w := by
        intro he
        exact hau (he ▸ List.mem_append.mpr (Or.inr (List.mem_cons_self _ _)))
      refine ⟨ea, ?_, ?_, rfl, rfl, rfl⟩
      · rw [hsBdef, hw]
        rw [entry?_setEntry_ne _ hwa]
        rw [hs1frame _ hav, hea]
      · rw [hAnext]
        rw [List.append_assoc, headD_append, headD_append]
        rfl
  obtain ⟨ea2, hsBa2, hea2next, hea2key, hea2ts, hea2data⟩ := hsBa
  -- stage 3: the old head gets p as its predecessor
  have hstage3 : sB.modifyEntry? s.head (fun e => { e with prev := p }) =
      some (sB.setEntry a { ea2 with prev := p }) := by
    rw [hhead]
    exact modifyEntry?_eq_some _ hsBa2
  set sC := sB.setEntry a { ea2 with prev := p } with hsCdef
  -- stage 4: p itself is rewritten and becomes the head
  have hsCp : sC.entry? p = some ep := by
    rw [hsCdef, entry?_setEntry_ne _ (Ne.symm hap), hsBdef,
      entry?_setEntry_ne _ (Ne.symm hpvp_ne_p)]
    exact (hs1frame _ hpnv).trans hep
  have hsFp : ({ sC with head := p } : Storage K V).entry? p = some ep := hsCp
  have hstage4 : ({ sC with head := p } : Storage K V).modifyEntry? p
      (fun e => { e with next := s.head, prev := Pointer.null }) =
      some (({ sC with head := p } : Storage K V).setEntry p
        { ep with next := s.head, prev := Pointer.null }) :=
    modifyEntry?_eq_some _ hsFp
  set sD := ({ sC with head := p } : Storage K V).setEntry p
    { ep with next := s.head, prev := Pointer.null } with hsDdef
  -- the computation
  have hcomp : s.move_to_top p = some sD := by
    rw [move_to_top_via s s1 p ep hep hs1comp, hstage2, Option.some_bind,
      hstage3, Option.some_bind, hstage4]
  -- entry table of the final state
  have hTp : sD.entry? p = some { ep with next := a, prev := Pointer.null } := by
    rw [hsDdef, hhead]
    exact entry?_setEntry_self _ (by rw [hsFp]; rfl)
  have hTa : sD.entry? a = some { ea2 with prev := p } := by
    rw [hsDdef, entry?_setEntry_ne _ hap]
    show sC.entry? a = _
    rw [hsCdef]
    exact entry?_setEntry_self _ (by rw [hsBa2]; rfl)
  have hTother : ∀ r, r ≠ p → r ≠ a → r ≠ u.getLastD a → r ∉ v →
      sD.entry? r = s.entry? r := by
    intro r hrp hra hrpvp hrv
    rw [hsDdef, entry?_setEntry_ne _ hrp]
    show sC.entry? r = _
    rw [hsCdef, entry?_setEntry_ne _ hra, hsBdef, entry?_setEntry_ne _ hrpvp]
    exact hs1frame _ hrv
  have hTv : ∀ r, r ≠ p → r ≠ a → r ≠ u.getLastD a →
      sD.entry? r = s1.entry? r := by
    intro r hrp hra hrpvp
    rw [hsDdef, entry?_setEntry_ne _ hrp]
    show sC.entry? r = _
    rw [hsCdef, entry?_setEntry_ne _ hra, hsBdef, entry?_setEntry_ne _ hrpvp]
  have hTpvp : u.getLastD a ≠ a → sD.entry? (u.getLastD a) =
      some { epv with next := ep.next } := by
    intro hne
    rw [hsDdef, entry?_setEntry_ne _ hpvp_ne_p]
    show sC.entry? (u.getLastD a) = _
    rw [hsCdef, entry?_setEntry_ne _ hne, hsBdef]
    exact entry?_setEntry_self _ (by rw [hs1pvp]; rfl)
  refine ⟨sD, hcomp, ?_, ?_, ?_, ?_, ?_, ?_, ?_, ?_, ?_⟩
  · rw [hsDdef, setEntry_head]
  · rw [hsDdef, setEntry_tail]
    show sC.tail = _
    rw [hsCdef, setEntry_tail, hsBdef, setEntry_tail]
    exact hs1tail
  · -- the rebuilt doubly-linked list
    rw [dll_cons]
    refine ⟨by rw [hTp]; rfl, by rw [hTp]; rfl, ?_⟩
    rw [dll_cons]
    refine ⟨by rw [hTa]; rfl, ?_, ?_⟩
    · rw [hTa]
      simp only [Option.map_some', Option.some_inj]
      exact hea2next
    rw [dll_append]
    constructor
    · -- the untouched middle chain u, ending at the first node of v
      rcases eq_nil_or_append_singleton u with rfl | ⟨u2, w, rfl⟩
      · exact dll_nil ..
      · have hw : (u2 ++ [w]).getLastD a = w := getLastD_concat u2 w a
        have hsplit : dll s a (u2 ++ [w]) p := hdllu
        rw [dll_append, dll_cons] at hsplit
        obtain ⟨hdllu2, hwprev, hwnext, _⟩ := hsplit
        rw [dll_append]
        constructor
        · -- u2 is untouched
          have hdllu2w : dll s a u2 w := by simpa using hdllu2
          refine dll_frame ?_ hdllu2w
          intro r hr
          have hrnodup : r ≠ w := by
            intro he
            rw [List.nodup_append] at hndu
            exact hndu.2.2 hr (he ▸ List.mem_cons_self _ _)
          apply hTother
          · exact fun he => hpu (he ▸ List.mem_append.mpr (Or.inl hr))
          · exact fun he => hau (he ▸ List.mem_append.mpr (Or.inl hr))
          · rw [hw]; exact hrnodup
          · exact fun he => hdisj (List.mem_append.mpr (Or.inl hr)) (List.mem_cons.mpr (Or.inr he))
        · -- w now points past p into v
          have hwa : w ≠ a := by
            intro he
            exact hau (he ▸ List.mem_append.mpr (Or.inr (List.mem_cons_self _ _)))
          have hTw := hTpvp (by rw [hw]; exact hwa)
          rw [hw] at hTw
          simp only [List.headD]
          rw [dll_cons]
          refine ⟨?_, ?_, dll_nil ..⟩
          · rw [hTw]
            simp only [Option.map_some', Option.some_inj]
            cases hex : s.entry? w with
            | none => rw [hw, hex] at hepv; simp at hepv
            | some ew =>
              rw [hex, Option.map_some', Option.some_inj] at hwprev
              have : ew = epv := by
                rw [hw, hex] at hepv
                exact Option.some_inj.mp hepv
              rw [← this, hwprev]
          · rw [hTw]
            simp only [Option.map_some', Option.some_inj]
            rw [hnext]
            rfl
    · -- the suffix v hangs off the new last node of the prefix
      refine dll_frame ?_ hs1dllv
      intro r hr
      apply hTv
      · exact fun he => hpnv (he ▸ hr)
      · exact fun he => hav (he ▸ hr)
      · exact fun he => hpvp_nv (he ▸ hr)
  · rw [hsDdef, setEntry_cap]
    show sC.cap = s.cap
    rw [hsCdef, setEntry_cap, hsBdef, setEntry_cap]
    exact hs1cap
  · rw [hsDdef, setEntry_len]
    show sC.len = s.len
    rw [hsCdef, setEntry_len, hsBdef, setEntry_len]
    exact hs1len
  · rw [hsDdef, setEntry_timeout]
    show sC.timeout_secs = s.timeout_secs
    rw [hsCdef, setEntry_timeout, hsBdef, setEntry_timeout]
    exact hs1timeout
  · rw [hsDdef, segShape_setEntry]
    show segShape sC = segShape s
    rw [hsCdef, segShape_setEntry, hsBdef, segShape_setEntry]
    exact hs1shape
  · rw [hsDdef, totalOcc_setEntry _ (by rw [hsFp]; rfl)]
    show totalOcc sC = totalOcc s
    rw [hsCdef, totalOcc_setEntry _ (by rw [hsBa2]; rfl),
      hsBdef, totalOcc_setEntry _ (by rw [hs1pvp]; rfl)]
    exact hs1occ
  · intro q0
    have h4 : ((sD.entry? q0).map fun x => (x.key, x.timestamp, x.data)) =
        ((sC.entry? q0).map fun x => (x.key, x.timestamp, x.data)) := by
      rw [hsDdef]
      exact payload_setEntry
        (e := { ep with next := s.head, prev := Pointer.null }) hsFp rfl rfl rfl q0
    have h3 : ((sC.entry? q0).map fun x => (x.key, x.timestamp, x.data)) =
        ((sB.entry? q0).map fun x => (x.key, x.timestamp, x.data)) := by
      rw [hsCdef]
      exact payload_setEntry (e := { ea2 with prev := p }) hsBa2 rfl rfl rfl q0
    have h2 : ((sB.entry? q0).map fun x => (x.key, x.timestamp, x.data)) =
        ((s1.entry? q0).map fun x => (x.key, x.timestamp, x.data)) := by
      rw [hsBdef]
      exact payload_setEntry (e := { epv with next := ep.next }) hs1pvp rfl rfl rfl q0
    exact ((h4.trans h3).trans h2).trans (hs1payload q0)

/-- Full specification of `Storage::move_to_top` on a well-formed recency
list `a :: (u ++ p :: v)` (head `a`, target `p` not the head): the target
moves to the front, the rest keeps its order, and every slot payload (key,
timestamp, value) is unchanged. -/
theorem move_to_top_spec (s : Storage K V) (a p : Pointer) (u v : List Pointer)
    (hdll : dll s Pointer.null (a :: (u ++ p :: v)) Pointer.null)
    (hnodup : (a :: (u ++ p :: v)).Nodup)
    (hhead : s.head = a)
    (htail : s.tail = (a :: (u ++ p :: v)).getLastD Pointer.null) :
    ∃ s2 : Storage K V, s.move_to_top p = some s2 ∧
      s2.head = p ∧
      s2.tail = (p :: a :: (u ++ v)).getLastD Pointer.null ∧
      dll s2 Pointer.null (p :: a :: (u ++ v)) Pointer.null ∧
      s2.cap = s.cap ∧ s2.len = s.len ∧ s2.timeout_secs = s.timeout_secs ∧
      segShape s2 = segShape s ∧ totalOcc s2 = totalOcc s ∧
      (∀ q : Pointer, ((s2.entry? q).map fun e => (e.key, e.timestamp, e.data)) =
        ((s.entry? q).map fun e => (e.key, e.timestamp, e.data))) := by
  -- extract the entry of p and of the first node of v
  have hdll2 : dll s Pointer.null ((a :: u) ++ p :: v) Pointer.null := by
    simpa using hdll
  rw [dll_append] at hdll2
  obtain ⟨hL, hR⟩ := hdll2
  have hLp : dll s Pointer.null (a :: u) p := by simpa using hL
  rw [dll_cons] at hR
  obtain ⟨hRprev, hRnext, hdllv⟩ := hR
  cases hep : s.entry? p with
  | none => rw [hep] at hRprev; simp at hRprev
  | some ep =>
  rw [hep, Option.map_some', Option.some_inj] at hRprev hRnext
  rw [List.getLastD_cons] at hRprev
  cases v with
  | nil =>
    -- p is the tail: the first stage only moves the tail pointer
    have hnxp : ep.next = Pointer.null := by rw [hRnext]; rfl
    have hs1comp : (if ep.next.is_null = true
        then some ({ s with tail := ep.prev } : Storage K V)
        else s.modifyEntry? ep.next fun e => { e with prev := ep.prev })
        = some ({ s with tail := ep.prev } : Storage K V) := by
      rw [hnxp]
      rfl
    refine move_to_top_assembled s ({ s with tail := ep.prev } : Storage K V)
      a p u [] ep hnodup hhead hep hRprev (by rw [hnxp]; rfl) hLp hs1comp rfl ?_
      (fun r _ => rfl) (dll_nil ..) rfl rfl rfl rfl rfl (fun q0 => rfl)
    show ep.prev = (p :: a :: (u ++ [])).getLastD Pointer.null
    rw [hRprev, List.getLastD_cons, List.getLastD_cons, List.append_nil]
  | cons q v2 =>
    -- p has a successor q: the first stage relinks q to the predecessor of p
    have hnxp : ep.next = q := by rw [hRnext]; rfl
    have hqmem : q ∈ a :: (u ++ p :: q :: v2) := by
      refine List.mem_cons.mpr (Or.inr (List.mem_append.mpr (Or.inr ?_)))
      exact List.mem_cons.mpr (Or.inr (List.mem_cons_self _ _))
    have hqnn : q ≠ Pointer.null := dll_mem_ne_null hdll hqmem
    cases heq : s.entry? q with
    | none =>
      have := dll_mem_isSome hdll hqmem
      rw [heq] at this
      simp at this
    | some eq0 =>
    rw [dll_cons] at hdllv
    obtain ⟨hqprev, hqnext, hdllv2⟩ := hdllv
    rw [heq, Option.map_some', Option.some_inj] at hqprev hqnext
    -- distinctness facts needed for the first stage
    have hnd := hnodup
    rw [List.nodup_cons] at hnd
    obtain ⟨hamem, hnd⟩ := hnd
    rw [List.nodup_append] at hnd
    obtain ⟨hndu, hndpv, hdisj⟩ := hnd
    rw [List.nodup_cons] at hndpv
    obtain ⟨hpnv, hndv⟩ := hndpv
    rw [List.nodup_cons] at hndv
    obtain ⟨hqnv2, hndv2⟩ := hndv
    have hs1comp : (if ep.next.is_null = true
        then some ({ s with tail := ep.prev } : Storage K V)
        else s.modifyEntry? ep.next fun e => { e with prev := ep.prev })
        = some (s.setEntry q { eq0 with prev := ep.prev }) := by
      rw [hnxp, is_null_false hqnn]
      simp only [Bool.false_eq_true, if_false]
      exact modifyEntry?_eq_some _ heq
    refine move_to_top_assembled s (s.setEntry q { eq0 with prev := ep.prev })
      a p u (q :: v2) ep hnodup hhead hep hRprev (by rw [hnxp]; rfl) hLp hs1comp
      (setEntry_head ..) ?_ ?_ ?_ (segShape_setEntry ..)
      (totalOcc_setEntry _ (by rw [heq]; rfl)) (setEntry_cap ..) (setEntry_len ..)
      (setEntry_timeout ..) (fun q0 => payload_setEntry (e := { eq0 with prev := ep.prev }) heq rfl rfl rfl q0)
    · -- the tail is the last node of v and is untouched
      rw [setEntry_tail, htail]
      simp only [List.getLastD_cons, getLastD_append_cons]
    · -- frame for the nodes outside v
      intro r hrv
      have hrq : r ≠ q := fun he => hrv (he ▸ List.mem_cons_self _ _)
      exact entry?_setEntry_ne _ hrq
    · -- the chain of v now hangs off the predecessor of p
      rw [dll_cons]
      have hqself : (s.setEntry q { eq0 with prev := ep.prev }).entry? q =
          some { eq0 with prev := ep.prev } :=
        entry?_setEntry_self _ (by rw [heq]; rfl)
      refine ⟨?_, ?_, ?_⟩
      · rw [hqself, Option.map_some', Option.some_inj]
        rw [hRprev]
      · rw [hqself, Option.map_some', Option.some_inj]
        exact hqnext
      · refine dll_frame ?_ hdllv2
        intro r hr
        exact entry?_setEntry_ne _ (fun he => hqnv2 (he ▸ hr))

/-- Transfer of the list predicate along a state change that preserves the
link fields of every node of the list. -/
theorem dll_frame_links {s s2 : Storage K V} {pv nx : Pointer} {l : List Pointer}
    (h : ∀ r ∈ l, (s2.entry? r).map Entry.prev = (s.entry? r).map Entry.prev ∧
      (s2.entry? r).map Entry.next = (s.entry? r).map Entry.next)
    (hd : dll s pv l nx) : dll s2 pv l nx := by
  induction l generalizing pv with
  | nil => exact dll_nil ..
  | cons a l ih =>
    rw [dll_cons] at hd ⊢
    obtain ⟨h1, h2⟩ := h a (by simp)
    rw [h1, h2]
    exact ⟨hd.1, hd.2.1, ih (fun r hr => h r (by simp [hr])) hd.2.2⟩

/-- Promotion step shared by `Storage::get`, `Storage::update` and the
expired-tail branch of `Storage::put`: the node at `p` is moved to the head
(or left alone when it already is the head); its payload is unchanged. -/
theorem promote_spec (s : Storage K V) (ord : List Pointer) (p : Pointer)
    (hdll : dll s Pointer.null ord Pointer.null) (hnodup : ord.Nodup)
    (hhead : s.head = ord.headD Pointer.null)
    (htail : s.tail = ord.getLastD Pointer.null)
    (hp : p ∈ ord) :
    ∃ (s2 : Storage K V) (ord2 : List Pointer) (e2 : Entry K V),
      (if s.head = p then (some s : Option (Storage K V)) else s.move_to_top p)
        = some s2 ∧
      ord2.Perm ord ∧ ord2.headD Pointer.null = p ∧
      dll s2 Pointer.null ord2 Pointer.null ∧ ord2.Nodup ∧
      s2.head = p ∧ s2.tail = ord2.getLastD Pointer.null ∧
      s2.entry? p = some e2 ∧
      ((s.entry? p).map fun e => (e.key, e.timestamp, e.data)) =
        some (e2.key, e2.timestamp, e2.data) ∧
      s2.cap = s.cap ∧ s2.len = s.len ∧ s2.timeout_secs = s.timeout_secs ∧
      segShape s2 = segShape s ∧ totalOcc s2 = totalOcc s ∧
      (∀ q : Pointer, ((s2.entry? q).map fun e => (e.key, e.timestamp, e.data)) =
        ((s.entry? q).map fun e => (e.key, e.timestamp, e.data))) := by
  have hpe : (s.entry? p).isSome = true := dll_mem_isSome hdll hp
  cases hep : s.entry? p with
  | none => rw [hep] at hpe; simp at hpe
  | some e =>
  by_cases hph : s.head = p
  · -- p is already the head
    refine ⟨s, ord, e, by rw [if_pos hph], List.Perm.refl _, ?_, hdll, hnodup,
      hph, htail, hep, rfl, rfl, rfl, rfl, rfl, rfl, fun q => rfl⟩
    rw [← hhead, hph]
  · -- p sits strictly below the head
    cases hord : ord with
    | nil => rw [hord] at hp; simp at hp
    | cons a rest =>
    have hha : s.head = a := by rw [hhead, hord]; rfl
    have hpa : p ≠ a := fun he => hph (by rw [hha, he])
    have hprest : p ∈ rest := by
      rw [hord] at hp
      rcases List.mem_cons.mp hp with he | he
      · exact absurd he hpa
      · exact he
    obtain ⟨u, v, huv⟩ := List.append_of_mem hprest
    subst huv
    rw [hord] at hdll hnodup htail
    obtain ⟨s2, hcomp, hhead2, htail2, hdll2, hcap2, hlen2, htimeout2, hshape2,
      hocc2, hpayload2⟩ := move_to_top_spec s a p u v hdll hnodup hha htail
    have hperm : (p :: a :: (u ++ v)).Perm (a :: (u ++ p :: v)) := by
      refine List.Perm.trans (List.Perm.swap a p _) ?_
      exact List.Perm.cons a (List.perm_middle).symm
    have he2 : (s2.entry? p).isSome = true := by
      have := hpayload2 p
      rw [hep] at this
      cases hx : s2.entry? p with
      | none => rw [hx] at this; simp at this
      | some _ => rfl
    cases he2x : s2.entry? p with
    | none => rw [he2x] at he2; simp at he2
    | some e2 =>
    refine ⟨s2, p :: a :: (u ++ v), e2, by rw [if_neg hph]; exact hcomp,
      hperm, rfl, hdll2, hperm.nodup_iff.mpr hnodup, hhead2, htail2, he2x,
      ?_, hcap2, hlen2, htimeout2, hshape2, hocc2, hpayload2⟩
    have := hpayload2 p
    rw [he2x, hep] at this
    exact this.symm

/-- Specification of `Storage::get` on a member of the recency list:
returns `some` of the stored value, refreshes the node's timestamp, and
promotes the node to the head; every other slot is unchanged. -/
theorem storage_get_spec (now : Nat) (s : Storage K V) (ord : List Pointer)
    (p : Pointer)
    (hdll : dll s Pointer.null ord Pointer.null) (hnodup : ord.Nodup)
    (hhead : s.head = ord.headD Pointer.null)
    (htail : s.tail = ord.getLastD Pointer.null)
    (hp : p ∈ ord) :
    ∃ (e : Entry K V) (s3 : Storage K V) (ord2 : List Pointer),
      s.entry? p = some e ∧
      s.get now p = some (some e.data, s3) ∧
      ord2.Perm ord ∧ ord2.headD Pointer.null = p ∧
      dll s3 Pointer.null ord2 Pointer.null ∧ ord2.Nodup ∧
      s3.head = p ∧ s3.tail = ord2.getLastD Pointer.null ∧
      (∃ e3 : Entry K V, s3.entry? p = some e3 ∧ e3.key = e.key ∧
        e3.data = e.data ∧ e3.timestamp = now) ∧
      (∀ q : Pointer, q ≠ p →
        ((s3.entry? q).map fun x => (x.key, x.timestamp, x.data)) =
        ((s.entry? q).map fun x => (x.key, x.timestamp, x.data))) ∧
      (∀ q : Pointer, ((s3.entry? q).map Entry.key) = ((s.entry? q).map Entry.key)) ∧
      s3.cap = s.cap ∧ s3.len = s.len ∧ s3.timeout_secs = s.timeout_secs ∧
      segShape s3 = segShape s ∧ totalOcc s3 = totalOcc s := by
  obtain ⟨s2, ord2, e2, hcomp, hperm, hh2, hdll2, hnodup2, hhead2, htail2,
    he2, hpay2, hcap2, hlen2, htimeout2, hshape2, hocc2, hpayall2⟩ :=
    promote_spec s ord p hdll hnodup hhead htail hp
  have hpe : (s.entry? p).isSome = true := dll_mem_isSome hdll hp
  cases hep : s.entry? p with
  | none => rw [hep] at hpe; simp at hpe
  | some e =>
  rw [hep, Option.map_some', Option.some_inj] at hpay2
  simp only [Prod.mk.injEq] at hpay2
  set s3 := s2.setEntry p { e2 with timestamp := now } with hs3def
  have hs3p : s3.entry? p = some { e2 with timestamp := now } :=
    entry?_setEntry_self _ (by rw [he2]; rfl)
  have hcompget : s.get now p = some (some e2.data, s3) := by
    by_cases hph : p = s.head
    · have hseq : s2 = s := by
        rw [if_pos hph.symm] at hcomp
        exact (Option.some_inj.mp hcomp).symm
      simp only [Storage.get, Option.bind_eq_bind, Option.pure_def]
      rw [if_pos hph]
      have hmod : s.modifyEntry? p (fun x => { x with timestamp := now }) =
          some s3 := by
        have : s.entry? p = some e2 := by rw [← hseq]; exact he2
        rw [modifyEntry?_eq_some _ this, hs3def, hseq]
      rw [hmod, Option.some_bind, hs3p, Option.some_bind]
    · have hmove : s.move_to_top p = some s2 := by
        rw [if_neg (fun he => hph he.symm)] at hcomp
        exact hcomp
      simp only [Storage.get, Option.bind_eq_bind, Option.pure_def]
      rw [if_neg hph, hmove, Option.some_bind,
        modifyEntry?_eq_some _ he2, Option.some_bind, ← hs3def, hs3p,
        Option.some_bind]
  refine ⟨e, s3, ord2, rfl, ?_, hperm, hh2, ?_, hnodup2, ?_, ?_, ?_, ?_, ?_,
    ?_, ?_, ?_, ?_, ?_⟩
  · rw [hcompget, hpay2.2.2]
  · -- the final timestamp write keeps all links
    refine dll_frame_links ?_ hdll2
    intro r hr
    by_cases hrp : r = p
    · subst hrp
      rw [hs3p, he2]
      exact ⟨rfl, rfl⟩
    · rw [hs3def, entry?_setEntry_ne _ hrp]
      exact ⟨rfl, rfl⟩
  · rw [hs3def, setEntry_head]; exact hhead2
  · rw [hs3def, setEntry_tail]; exact htail2
  · exact ⟨{ e2 with timestamp := now }, hs3p, hpay2.1.symm, hpay2.2.2.symm, rfl⟩
  · intro q hq
    rw [hs3def, entry?_setEntry_ne _ hq]
    exact hpayall2 q
  · intro q
    by_cases hq : q = p
    · subst hq
      rw [hs3p, hep]
      simp only [Option.map_some', Option.some_inj]
      exact hpay2.1.symm
    · rw [hs3def, entry?_setEntry_ne _ hq]
      have := hpayall2 q
      cases hx : s2.entry? q with
      | none =>
        rw [hx] at this
        cases hy : s.entry? q with
        | none => rfl
        | some _ => rw [hy] at this; simp at this
      | some w =>
        rw [hx] at this
        cases hy : s.entry? q with
        | none => rw [hy] at this; simp at this
        | some w2 =>
          rw [hy] at this
          simp only [Option.map_some', Option.some_inj, Prod.mk.injEq] at this
          simp only [Option.map_some', Option.some_inj]
          exact this.1
  · rw [hs3def, setEntry_cap]; exact hcap2
  · rw [hs3def, setEntry_len]; exact hlen2
  · rw [hs3def, setEntry_timeout]; exact htimeout2
  · rw [hs3def, segShape_setEntry]; exact hshape2
  · rw [hs3def, totalOcc_setEntry _ (by rw [he2]; rfl)]; exact hocc2

/-- Specification of `Storage::update` on a member of the recency list:
returns the previous value, overwrites the value, refreshes the timestamp
and promotes the node to the head; every other slot is unchanged. -/
theorem storage_update_spec (now : Nat) (s : Storage K V) (ord : List Pointer)
    (p : Pointer) (v0 : V)
    (hdll : dll s Pointer.null ord Pointer.null) (hnodup : ord.Nodup)
    (hhead : s.head = ord.headD Pointer.null)
    (htail : s.tail = ord.getLastD Pointer.null)
    (hp : p ∈ ord) :
    ∃ (e : Entry K V) (s3 : Storage K V) (ord2 : List Pointer),
      s.entry? p = some e ∧
      s.update now p v0 = some (e.data, s3) ∧
      ord2.Perm ord ∧ ord2.headD Pointer.null = p ∧
      dll s3 Pointer.null ord2 Pointer.null ∧ ord2.Nodup ∧
      s3.head = p ∧ s3.tail = ord2.getLastD Pointer.null ∧
      (∃ e3 : Entry K V, s3.entry? p = some e3 ∧ e3.key = e.key ∧
        e3.data = v0 ∧ e3.timestamp = now) ∧
      (∀ q : Pointer, q ≠ p →
        ((s3.entry? q).map fun x => (x.key, x.timestamp, x.data)) =
        ((s.entry? q).map fun x => (x.key, x.timestamp, x.data))) ∧
      (∀ q : Pointer, ((s3.entry? q).map Entry.key) = ((s.entry? q).map Entry.key)) ∧
      s3.cap = s.cap ∧ s3.len = s.len ∧ s3.timeout_secs = s.timeout_secs ∧
      segShape s3 = segShape s ∧ totalOcc s3 = totalOcc s := by
  obtain ⟨s2, ord2, e2, hcomp, hperm, hh2, hdll2, hnodup2, hhead2, htail2,
    he2, hpay2, hcap2, hlen2, htimeout2, hshape2, hocc2, hpayall2⟩ :=
    promote_spec s ord p hdll hnodup hhead htail hp
  have hpe : (s.entry? p).isSome = true := dll_mem_isSome hdll hp
  cases hep : s.entry? p with
  | none => rw [hep] at hpe; simp at hpe
  | some e =>
  rw [hep, Option.map_some', Option.some_inj] at hpay2
  simp only [Prod.mk.injEq] at hpay2
  set s3 := s2.setEntry p { e2 with timestamp := now, data := v0 } with hs3def
  have hs3p : s3.entry? p = some { e2 with timestamp := now, data := v0 } :=
    entry?_setEntry_self _ (by rw [he2]; rfl)
  have hcompupd : s.update now p v0 = some (e2.data, s3) := by
    by_cases hph : s.head = p
    · have hseq : s2 = s := by
        rw [if_pos hph] at hcomp
        exact (Option.some_inj.mp hcomp).symm
      simp only [Storage.update, Option.bind_eq_bind, Option.pure_def]
      rw [if_pos hph, Option.some_bind]
      have he2s : s.entry? p = some e2 := by rw [← hseq]; exact he2
      rw [he2s, Option.some_bind, hs3def, hseq]
    · have hmove : s.move_to_top p = some s2 := by
        rw [if_neg hph] at hcomp
        exact hcomp
      simp only [Storage.update, Option.bind_eq_bind, Option.pure_def]
      rw [if_neg hph, hmove, Option.some_bind, he2, Option.some_bind, hs3def]
  refine ⟨e, s3, ord2, rfl, ?_, hperm, hh2, ?_, hnodup2, ?_, ?_, ?_, ?_, ?_,
    ?_, ?_, ?_, ?_, ?_⟩
  · rw [hcompupd, hpay2.2.2]
  · refine dll_frame_links ?_ hdll2
    intro r hr
    by_cases hrp : r = p
    · subst hrp
      rw [hs3p, he2]
      exact ⟨rfl, rfl⟩
    · rw [hs3def, entry?_setEntry_ne _ hrp]
      exact ⟨rfl, rfl⟩
  · rw [hs3def, setEntry_head]; exact hhead2
  · rw [hs3def, setEntry_tail]; exact htail2
  · exact ⟨{ e2 with timestamp := now, data := v0 }, hs3p, hpay2.1.symm, rfl, rfl⟩
  · intro q hq
    rw [hs3def, entry?_setEntry_ne _ hq]
    exact hpayall2 q
  · intro q
    by_cases hq : q = p
    · subst hq
      rw [hs3p, hep]
      simp only [Option.map_some', Option.some_inj]
      exact hpay2.1.symm
    · rw [hs3def, entry?_setEntry_ne _ hq]
      have := hpayall2 q
      cases hx : s2.entry? q with
      | none =>
        rw [hx] at this
        cases hy : s.entry? q with
        | none => rfl
        | some _ => rw [hy] at this; simp at this
      | some w =>
        rw [hx] at this
        cases hy : s.entry? q with
        | none => rw [hy] at this; simp at this
        | some w2 =>
          rw [hy] at this
          simp only [Option.map_some', Option.some_inj, Prod.mk.injEq] at this
          simp only [Option.map_some', Option.some_inj]
          exact this.1
  · rw [hs3def, setEntry_cap]; exact hcap2
  · rw [hs3def, setEntry_len]; exact hlen2
  · rw [hs3def, setEntry_timeout]; exact htimeout2
  · rw [hs3def, segShape_setEntry]; exact hshape2
  · rw [hs3def, totalOcc_setEntry _ (by rw [he2]; rfl)]; exact hocc2

/-! Lemmas about slot and segment allocation. -/

theorem slabVacant_spec {α : Type} :
    ∀ (l : List (Option α)) (i : Nat), slabVacant l = some i →
      l.get? i = some none := by
  intro l
  induction l with
  | nil => intro i h; simp [slabVacant] at h
  | cons o rest ih =>
    intro i h
    cases o with
    | none =>
      simp only [slabVacant, Option.some_inj] at h
      rw [← h]
      rfl
    | some a =>
      simp only [slabVacant] at h
      cases hv : slabVacant rest with
      | none => rw [hv] at h; simp at h
      | some i2 =>
        rw [hv] at h
        simp only [Option.map_some', Option.some_inj] at h
        rw [← h]
        exact ih i2 hv

theorem slabVacant_of_occ_lt {α : Type} :
    ∀ l : List (Option α), l.countP (fun o => o.isSome) < l.length →
      (slabVacant l).isSome = true := by
  intro l
  induction l with
  | nil => intro h; simp at h
  | cons o rest ih =>
    intro h
    cases o with
    | none => rfl
    | some a =>
      have hlt : rest.countP (fun o => o.isSome) < rest.length := by
        simp [List.countP_cons] at h
        omega
      have := ih hlt
      simp only [slabVacant]
      cases hv : slabVacant rest with
      | none => rw [hv] at this; simp at this
      | some i2 => rfl

theorem findFreeSlab_some_spec :
    ∀ (slabs : List (Option (Seg K V))) (n i : Nat),
      findFreeSlab n slabs = some i →
      n ≤ i ∧ ∃ seg, slabs.get? (i - n) = some (some seg) ∧
        segOccupied seg < seg.length := by
  intro slabs
  induction slabs with
  | nil => intro n i h; simp [findFreeSlab] at h
  | cons o rest ih =>
    intro n i h
    cases o with
    | none =>
      simp only [findFreeSlab] at h
      obtain ⟨hni, seg, hseg, hocc⟩ := ih (n + 1) i h
      refine ⟨by omega, seg, ?_, hocc⟩
      have : i - n = (i - (n + 1)) + 1 := by omega
      rw [this]
      exact hseg
    | some seg0 =>
      simp only [findFreeSlab] at h
      by_cases hfree : segOccupied seg0 < seg0.length
      · rw [if_pos hfree, Option.some_inj] at h
        subst h
        exact ⟨Nat.le_refl _, seg0, by simp, hfree⟩
      · rw [if_neg hfree] at h
        obtain ⟨hni, seg, hseg, hocc⟩ := ih (n + 1) i h
        refine ⟨by omega, seg, ?_, hocc⟩
        have : i - n = (i - (n + 1)) + 1 := by omega
        rw [this]
        exact hseg

theorem findFreeSlab_none_spec :
    ∀ (slabs : List (Option (Seg K V))) (n : Nat),
      findFreeSlab n slabs = none →
      ∀ j seg, slabs.get? j = some (some seg) → ¬ segOccupied seg < seg.length := by
  intro slabs
  induction slabs with
  | nil => intro n h j seg hj; simp at hj
  | cons o rest ih =>
    intro n h j seg hj
    cases o with
    | none =>
      simp only [findFreeSlab] at h
      cases j with
      | zero => simp at hj
      | succ j2 => exact ih (n + 1) h j2 seg hj
    | some seg0 =>
      simp only [findFreeSlab] at h
      by_cases hfree : segOccupied seg0 < seg0.length
      · rw [if_pos hfree] at h; simp at h
      · rw [if_neg hfree] at h
        cases j with
        | zero =>
          simp only [List.get?] at hj
          cases hj
          exact hfree
        | succ j2 => exact ih (n + 1) h j2 seg hj

theorem segOccupied_replicate (n : Nat) :
    segOccupied (List.replicate n (none : Option (Entry K V))) = 0 := by
  apply List.countP_eq_zero.mpr
  intro a ha
  rw [List.eq_of_mem_replicate ha]
  simp

theorem map_segCap_eq_shape (l : List (Option (Seg K V))) :
    l.map segCap = (slabsShape l).map (fun o => o.getD 0) := by
  rw [slabsShape, List.map_map]
  apply List.map_congr_left
  intro o _
  cases o <;> rfl

theorem slabsCap_eq_of_shape {l1 l2 : List (Option (Seg K V))}
    (h : slabsShape l1 = slabsShape l2) :
    (l1.map segCap).sum = (l2.map segCap).sum := by
  rw [map_segCap_eq_shape, map_segCap_eq_shape, h]

theorem slotGet?_setSlot_vacant {slabs : List (Option (Seg K V))} {i j : Nat}
    {seg : Seg K V} (e : Entry K V) (hseg : slabs.get? i = some (some seg))
    (hj : seg.get? j = some none) :
    slotGet? (setSlot slabs (Pointer.internalPointer i j) e)
      (Pointer.internalPointer i j) = some e := by
  simp only [setSlot, hseg, slotGet?]
  rw [List.get?_set_eq_of_lt _ (get?_some_lt hseg)]
  simp only
  rw [List.get?_set_eq_of_lt _ (get?_some_lt hj)]
  rfl

theorem slabsOcc_setSlot_vacant {slabs : List (Option (Seg K V))} {i j : Nat}
    {seg : Seg K V} (e : Entry K V) (hseg : slabs.get? i = some (some seg))
    (hj : seg.get? j = some none) :
    slabsOcc (setSlot slabs (Pointer.internalPointer i j) e) =
      slabsOcc slabs + 1 := by
  simp only [setSlot, hseg, slabsOcc]
  have hsum := map_sum_set (fun o => segOccupied (o.getD []))
    slabs i (some (seg.set j (some e))) (some seg) hseg
  simp only [Option.getD_some] at hsum
  have hocc : segOccupied (seg.set j (some e)) = segOccupied seg + 1 := by
    clear hsum hseg
    induction seg generalizing j with
    | nil => simp at hj
    | cons a l ih =>
      cases j with
      | zero =>
        simp only [List.get?] at hj
        cases hj
        simp [List.set, segOccupied, List.countP_cons]
      | succ n =>
        simp only [List.get?] at hj
        have := ih hj
        simp only [List.set, segOccupied, List.countP_cons] at this ⊢
        omega
  omega

/-- Specification of the allocation path of `Storage::put`
(`Storage.insertNew`): a vacant slot is found or created, the node is
initialized from the clock and pushed to the front of the recency list. -/
theorem insertNew_spec (now : Nat) (s : Storage K V) (ord : List Pointer)
    (k : K) (v0 : V)
    (hdll : dll s Pointer.null ord Pointer.null) (hnodup : ord.Nodup)
    (hhead : s.head = ord.headD Pointer.null)
    (htail : s.tail = ord.getLastD Pointer.null)
    (hshape : ∀ o ∈ segShape s, o = none ∨ o = some s.cap)
    (hcap : 0 < s.cap) :
    ∃ (id : Pointer) (s3 : Storage K V),
      s.insertNew now k v0 = some ((id, none), s3) ∧
      s.entry? id = none ∧ id ≠ Pointer.null ∧
      s3.entry? id = some (Entry.new now k v0 s.head Pointer.null) ∧
      dll s3 Pointer.null (id :: ord) Pointer.null ∧
      (id :: ord).Nodup ∧
      s3.head = id ∧ s3.tail = (id :: ord).getLastD Pointer.null ∧
      s3.cap = s.cap ∧ s3.len = s.len + 1 ∧ s3.timeout_secs = s.timeout_secs ∧
      totalOcc s3 = totalOcc s + 1 ∧
      (∀ o ∈ segShape s3, o = none ∨ o = some s.cap) ∧
      (s3.capacity = s.capacity ∨ s3.capacity = s.capacity + s.cap) ∧
      (∀ q : Pointer, q ≠ id →
        ((s3.entry? q).map fun x => (x.key, x.timestamp, x.data)) =
        ((s.entry? q).map fun x => (x.key, x.timestamp, x.data))) ∧
      (∀ q : Pointer, q ≠ id →
        ((s3.entry? q).map Entry.key) = ((s.entry? q).map Entry.key)) := by
  -- stage one: choose the segment (possibly creating a fresh one)
  have hallocB : ∃ (i : Nat) (slabs1 : List (Option (Seg K V))),
      (match findFreeSlab 0 s.slabs with
       | some i2 => (i2, s.slabs)
       | none => slabInsert s.slabs (List.replicate s.cap none)) = (i, slabs1) ∧
      (∀ p : Pointer, slotGet? slabs1 p = slotGet? s.slabs p) ∧
      (∃ seg1, slabs1.get? i = some (some seg1) ∧
        segOccupied seg1 < seg1.length) ∧
      slabsOcc slabs1 = slabsOcc s.slabs ∧
      (∀ o ∈ slabsShape slabs1, o = none ∨ o = some s.cap) ∧
      ((slabs1.map segCap).sum = (s.slabs.map segCap).sum ∨
       (slabs1.map segCap).sum = (s.slabs.map segCap).sum + s.cap) := by
    cases hffs : findFreeSlab 0 s.slabs with
    | some i =>
      obtain ⟨_, seg1, hseg1, hfree1⟩ := findFreeSlab_some_spec s.slabs 0 i hffs
      rw [Nat.sub_zero] at hseg1
      exact ⟨i, s.slabs, rfl, fun p => rfl, ⟨seg1, hseg1, hfree1⟩, rfl,
        hshape, Or.inl rfl⟩
    | none =>
      cases hsv : slabVacant s.slabs with
      | some iv =>
        have hvs := slabVacant_spec s.slabs iv hsv
        have hivlt := get?_some_lt hvs
        refine ⟨iv, s.slabs.set iv (some (List.replicate s.cap none)),
          by simp only [slabInsert, hsv], ?_, ?_, ?_, ?_, ?_⟩
        · intro p
          cases p with
          | null => rfl
          | internalPointer i2 j2 =>
            simp only [slotGet?]
            by_cases hi : i2 = iv
            · subst hi
              rw [List.get?_set_eq_of_lt _ hivlt, hvs]
              simp only
              rw [List.get?_eq_getElem?, List.getElem?_replicate]
              by_cases hj : j2 < s.cap
              · rw [if_pos hj]
                rfl
              · rw [if_neg hj]
                rfl
            · rw [List.get?_set_ne _ _ (Ne.symm hi)]
        · refine ⟨List.replicate s.cap none, ?_, ?_⟩
          · rw [List.get?_set_eq_of_lt _ hivlt]
          · rw [segOccupied_replicate, List.length_replicate]
            exact hcap
        · have hsum := map_sum_set (fun o => segOccupied (o.getD []))
            s.slabs iv (some (List.replicate s.cap none)) none hvs
          simp only [Option.getD_some, Option.getD_none] at hsum
          rw [segOccupied_replicate] at hsum
          simp only [slabsOcc]
          have h0 : segOccupied ([] : Seg K V) = 0 := rfl
          rw [h0] at hsum
          omega
        · intro o ho
          rw [slabsShape, List.map_set] at ho
          rcases List.mem_or_eq_of_mem_set ho with h1 | h1
          · exact hshape o h1
          · right
            rw [h1]
            simp [List.length_replicate]
        · right
          have hsum := map_sum_set segCap
            s.slabs iv (some (List.replicate s.cap none)) none hvs
          have h1 : segCap (none : Option (Seg K V)) = 0 := rfl
          have h2 : segCap (some (List.replicate s.cap
              (none : Option (Entry K V)))) = s.cap := by
            simp [segCap, List.length_replicate]
          rw [h1, h2] at hsum
          omega
      | none =>
        refine ⟨s.slabs.length, s.slabs ++ [some (List.replicate s.cap none)],
          by simp only [slabInsert, hsv], ?_, ?_, ?_, ?_, ?_⟩
        · intro p
          cases p with
          | null => rfl
          | internalPointer i2 j2 =>
            simp only [slotGet?]
            by_cases hi : i2 < s.slabs.length
            · rw [List.get?_append hi]
            · by_cases hieq : i2 = s.slabs.length
              · subst hieq
                rw [List.get?_concat_length]
                simp only
                rw [List.get?_eq_none.mpr (Nat.le_of_not_lt hi)]
                rw [List.get?_eq_getElem?, List.getElem?_replicate]
                by_cases hj : j2 < s.cap
                · rw [if_pos hj]
                  rfl
                · rw [if_neg hj]
                  rfl
              · have hlen2 : s.slabs.length + 1 ≤ i2 := by
                  rcases Nat.lt_or_ge i2 (s.slabs.length + 1) with h1 | h1
                  · exact absurd (by omega) hieq
                  · exact h1
                rw [List.get?_eq_none.mpr (by simpa using hlen2),
                  List.get?_eq_none.mpr (Nat.le_of_not_lt hi)]
        · refine ⟨List.replicate s.cap none, List.get?_concat_length .., ?_⟩
          rw [segOccupied_replicate, List.length_replicate]
          exact hcap
        · simp only [slabsOcc, List.map_append, List.sum_append]
          simp [segOccupied_replicate]
        · intro o ho
          rw [slabsShape, List.map_append] at ho
          rcases List.mem_append.mp ho with h1 | h1
          · exact hshape o h1
          · right
            simp only [List.map_cons, List.map_nil, List.mem_cons,
              List.not_mem_nil, or_false] at h1
            rw [h1]
            simp [List.length_replicate]
        · right
          simp only [List.map_append, List.sum_append]
          have h2 : segCap (some (List.replicate s.cap
              (none : Option (Entry K V)))) = s.cap := by
            simp [segCap, List.length_replicate]
          simp [h2]
  obtain ⟨i, slabs1, halloc, hS1, ⟨seg1, hseg1, hfree1⟩, hocc1, hshape1, hcap1⟩ :=
    hallocB
  -- stage two: pick the vacant slot inside the chosen segment
  have hsvI : (slabVacant seg1).isSome = true := slabVacant_of_occ_lt seg1 hfree1
  cases hsvj : slabVacant seg1 with
  | none => rw [hsvj] at hsvI; simp at hsvI
  | some j =>
  have hj : seg1.get? j = some none := slabVacant_spec seg1 j hsvj
  have hsetform : setSlot slabs1 (Pointer.internalPointer i j)
      (Entry.new now k v0 s.head Pointer.null) =
      slabs1.set i (some (seg1.set j (some (Entry.new now k v0 s.head
        Pointer.null)))) := by
    simp only [setSlot, hseg1]
  have hInsEq : slabInsertEntry slabs1 i (Entry.new now k v0 s.head Pointer.null)
      = some (j, setSlot slabs1 (Pointer.internalPointer i j)
          (Entry.new now k v0 s.head Pointer.null)) := by
    simp only [slabInsertEntry, hseg1, slabInsert, hsvj, hsetform]
  -- facts about the written segment list
  have hid2 : slotGet? (setSlot slabs1 (Pointer.internalPointer i j)
      (Entry.new now k v0 s.head Pointer.null)) (Pointer.internalPointer i j)
      = some (Entry.new now k v0 s.head Pointer.null) :=
    slotGet?_setSlot_vacant _ hseg1 hj
  have hid0 : s.entry? (Pointer.internalPointer i j) = none := by
    show slotGet? s.slabs _ = none
    rw [← hS1]
    simp only [slotGet?, hseg1, hj]
    rfl
  have hS2ne : ∀ q : Pointer, q ≠ Pointer.internalPointer i j →
      slotGet? (setSlot slabs1 (Pointer.internalPointer i j)
        (Entry.new now k v0 s.head Pointer.null)) q = slotGet? s.slabs q := by
    intro q hq
    rw [slotGet?_setSlot_ne _ hq]
    exact hS1 q
  have hocc2 : slabsOcc (setSlot slabs1 (Pointer.internalPointer i j)
      (Entry.new now k v0 s.head Pointer.null)) = slabsOcc s.slabs + 1 := by
    rw [slabsOcc_setSlot_vacant _ hseg1 hj, hocc1]
  have hshape2 : slabsShape (setSlot slabs1 (Pointer.internalPointer i j)
      (Entry.new now k v0 s.head Pointer.null)) = slabsShape slabs1 :=
    slabsShape_setSlot ..
  have hcap2 : ((setSlot slabs1 (Pointer.internalPointer i j)
      (Entry.new now k v0 s.head Pointer.null)).map segCap).sum =
      (slabs1.map segCap).sum := slabsCap_eq_of_shape hshape2
  -- the fresh handle is outside the current list
  have hidord : Pointer.internalPointer i j ∉ ord := by
    intro hmem
    have := dll_mem_isSome hdll hmem
    rw [hid0] at this
    simp at this
  cases hord : ord with
  | nil =>
    have hh0 : s.head = Pointer.null := by rw [hhead, hord]; rfl
    have hcomp : s.insertNew now k v0 = some ((Pointer.internalPointer i j, none),
        { s with slabs := (setSlot slabs1 (Pointer.internalPointer i j) (Entry.new now k v0 s.head Pointer.null)), tail := Pointer.internalPointer i j, head := Pointer.internalPointer i j, len := s.len + 1 }) := by
      simp only [Storage.insertNew, Option.bind_eq_bind, Option.pure_def]
      rw [halloc]
      simp only
      rw [hInsEq, Option.some_bind, hh0]
      rfl
    have hE : ({ s with slabs := (setSlot slabs1 (Pointer.internalPointer i j) (Entry.new now k v0 s.head Pointer.null)), tail := Pointer.internalPointer i j, head := Pointer.internalPointer i j, len := s.len + 1 } : Storage K V).entry? (Pointer.internalPointer i j) = some (Entry.new now k v0 s.head Pointer.null) := hid2
    refine ⟨Pointer.internalPointer i j, _, hcomp, hid0, by simp, hid2, ?_, ?_,
      rfl, rfl, rfl, rfl, rfl, ?_, ?_, ?_, ?_, ?_⟩
    · rw [dll_cons]
      refine ⟨by rw [hE]; rfl, ?_, dll_nil ..⟩
      rw [hE]
      simp only [Option.map_some', Option.some_inj, Entry.new]
      exact hh0
    · simp
    · show slabsOcc (setSlot slabs1 (Pointer.internalPointer i j) (Entry.new now k v0 s.head Pointer.null)) = slabsOcc s.slabs + 1
      exact hocc2
    · intro o ho
      have ho2 : o ∈ slabsShape (setSlot slabs1 (Pointer.internalPointer i j) (Entry.new now k v0 s.head Pointer.null)) := ho
      rw [hshape2] at ho2
      exact hshape1 o ho2
    · show (List.map segCap (setSlot slabs1 (Pointer.internalPointer i j) (Entry.new now k v0 s.head Pointer.null))).sum = (List.map segCap s.slabs).sum ∨ (List.map segCap (setSlot slabs1 (Pointer.internalPointer i j) (Entry.new now k v0 s.head Pointer.null))).sum = (List.map segCap s.slabs).sum + s.cap
      rw [hcap2]
      exact hcap1
    · intro q hq
      have h1 : ({ s with slabs := (setSlot slabs1 (Pointer.internalPointer i j) (Entry.new now k v0 s.head Pointer.null)), tail := Pointer.internalPointer i j, head := Pointer.internalPointer i j, len := s.len + 1 } : Storage K V).entry? q = s.entry? q := hS2ne q hq
      rw [h1]
    · intro q hq
      have h1 : ({ s with slabs := (setSlot slabs1 (Pointer.internalPointer i j) (Entry.new now k v0 s.head Pointer.null)), tail := Pointer.internalPointer i j, head := Pointer.internalPointer i j, len := s.len + 1 } : Storage K V).entry? q = s.entry? q := hS2ne q hq
      rw [h1]
  | cons a rest =>
    have hha : s.head = a := by rw [hhead, hord]; rfl
    subst hha
    rw [hord] at hdll hnodup htail hidord
    rw [dll_cons] at hdll
    obtain ⟨haprev, hanext, hdllrest⟩ := hdll
    have hamem2 : s.head ∈ (s.head :: rest) := List.mem_cons_self _ _
    have hanull : s.head ≠ Pointer.null := by
      intro hn
      have hsome := haprev
      rw [hn] at hsome
      simp [Storage.entry?, slotGet?] at hsome
    have hann : s.head.is_null = false := is_null_false hanull
    have haid : s.head ≠ Pointer.internalPointer i j := by
      intro he
      exact hidord (he ▸ hamem2)
    cases hea : s.entry? s.head with
    | none =>
      rw [hea] at haprev
      simp at haprev
    | some ea =>
    rw [hea, Option.map_some', Option.some_inj] at haprev hanext
    have hea1 : ({ s with slabs := (setSlot slabs1 (Pointer.internalPointer i j) (Entry.new now k v0 s.head Pointer.null)) } : Storage K V).entry? s.head = some ea := by
      show slotGet? (setSlot slabs1 (Pointer.internalPointer i j) (Entry.new now k v0 s.head Pointer.null)) s.head = some ea
      rw [hS2ne s.head haid]
      exact hea
    have hcomp : s.insertNew now k v0 = some ((Pointer.internalPointer i j, none), { (({ s with slabs := (setSlot slabs1 (Pointer.internalPointer i j) (Entry.new now k v0 s.head Pointer.null)) } : Storage K V).setEntry s.head { ea with prev := Pointer.internalPointer i j }) with head := Pointer.internalPointer i j, len := s.len + 1 }) := by
      simp only [Storage.insertNew, Option.bind_eq_bind, Option.pure_def]
      rw [halloc]
      simp only
      rw [hInsEq, Option.some_bind, hann]
      simp only [Bool.false_eq_true, if_false]
      rw [modifyEntry?_eq_some _ hea1, Option.some_bind]
    have hfinal_a : ({ (({ s with slabs := (setSlot slabs1 (Pointer.internalPointer i j) (Entry.new now k v0 s.head Pointer.null)) } : Storage K V).setEntry s.head { ea with prev := Pointer.internalPointer i j }) with head := Pointer.internalPointer i j, len := s.len + 1 } : Storage K V).entry? s.head = some { ea with prev := Pointer.internalPointer i j } :=
      entry?_setEntry_self _ (by rw [hea1]; rfl)
    have hfinal_id : ({ (({ s with slabs := (setSlot slabs1 (Pointer.internalPointer i j) (Entry.new now k v0 s.head Pointer.null)) } : Storage K V).setEntry s.head { ea with prev := Pointer.internalPointer i j }) with head := Pointer.internalPointer i j, len := s.len + 1 } : Storage K V).entry? (Pointer.internalPointer i j) = some (Entry.new now k v0 s.head Pointer.null) := by
      show (({ s with slabs := (setSlot slabs1 (Pointer.internalPointer i j) (Entry.new now k v0 s.head Pointer.null)) } : Storage K V).setEntry s.head { ea with prev := Pointer.internalPointer i j }).entry? (Pointer.internalPointer i j) = some (Entry.new now k v0 s.head Pointer.null)
      rw [entry?_setEntry_ne _ (Ne.symm haid)]
      exact hid2
    have hfinal_other : ∀ q : Pointer, q ≠ s.head → q ≠ Pointer.internalPointer i j →
        ({ (({ s with slabs := (setSlot slabs1 (Pointer.internalPointer i j) (Entry.new now k v0 s.head Pointer.null)) } : Storage K V).setEntry s.head { ea with prev := Pointer.internalPointer i j }) with head := Pointer.internalPointer i j, len := s.len + 1 } : Storage K V).entry? q = s.entry? q := by
      intro q hqa hqid
      show (({ s with slabs := (setSlot slabs1 (Pointer.internalPointer i j) (Entry.new now k v0 s.head Pointer.null)) } : Storage K V).setEntry s.head { ea with prev := Pointer.internalPointer i j }).entry? q = s.entry? q
      rw [entry?_setEntry_ne _ hqa]
      exact hS2ne q hqid
    refine ⟨Pointer.internalPointer i j, _, hcomp, hid0, by simp, hfinal_id, ?_, ?_, rfl, ?_,
      rfl, rfl, rfl, ?_, ?_, ?_, ?_, ?_⟩
    · rw [dll_cons]
      refine ⟨?_, ?_, ?_⟩
      · rw [hfinal_id]
        rfl
      · rw [hfinal_id]
        rfl
      · rw [dll_cons]
        refine ⟨?_, ?_, ?_⟩
        · rw [hfinal_a]
          rfl
        · rw [hfinal_a]
          simp only [Option.map_some', Option.some_inj]
          exact hanext
        · refine dll_frame ?_ hdllrest
          intro r hr
          have hra : r ≠ s.head := by
            rw [List.nodup_cons] at hnodup
            intro he
            exact hnodup.1 (he ▸ hr)
          have hrid : r ≠ Pointer.internalPointer i j := by
            intro he
            exact hidord (he ▸ List.mem_cons_of_mem _ hr)
          exact hfinal_other r hra hrid
    · rw [List.nodup_cons]
      exact ⟨hidord, hnodup⟩
    · show s.tail = (Pointer.internalPointer i j :: s.head :: rest).getLastD Pointer.null
      rw [htail]
      simp only [List.getLastD_cons]
    · show totalOcc (({ s with slabs := (setSlot slabs1 (Pointer.internalPointer i j) (Entry.new now k v0 s.head Pointer.null)) } : Storage K V).setEntry s.head { ea with prev := Pointer.internalPointer i j }) = totalOcc s + 1
      rw [totalOcc_setEntry _ (by rw [hea1]; rfl)]
      exact hocc2
    · intro o ho
      have ho3 : o ∈ segShape (({ s with slabs := (setSlot slabs1 (Pointer.internalPointer i j) (Entry.new now k v0 s.head Pointer.null)) } : Storage K V).setEntry s.head { ea with prev := Pointer.internalPointer i j }) := ho
      rw [segShape_setEntry] at ho3
      have ho2 : o ∈ slabsShape (setSlot slabs1 (Pointer.internalPointer i j) (Entry.new now k v0 s.head Pointer.null)) := ho3
      rw [hshape2] at ho2
      exact hshape1 o ho2
    · have hshEq : slabsShape ((({ s with slabs := (setSlot slabs1 (Pointer.internalPointer i j) (Entry.new now k v0 s.head Pointer.null)) } : Storage K V).setEntry s.head { ea with prev := Pointer.internalPointer i j }).slabs) = slabsShape slabs1 := by
        show slabsShape (setSlot (setSlot slabs1 (Pointer.internalPointer i j) (Entry.new now k v0 s.head Pointer.null)) s.head ({ ea with prev := Pointer.internalPointer i j })) = slabsShape slabs1
        rw [slabsShape_setSlot]
        exact hshape2
      show (List.map segCap ((({ s with slabs := (setSlot slabs1 (Pointer.internalPointer i j) (Entry.new now k v0 s.head Pointer.null)) } : Storage K V).setEntry s.head { ea with prev := Pointer.internalPointer i j }).slabs)).sum = (List.map segCap s.slabs).sum ∨ (List.map segCap ((({ s with slabs := (setSlot slabs1 (Pointer.internalPointer i j) (Entry.new now k v0 s.head Pointer.null)) } : Storage K V).setEntry s.head { ea with prev := Pointer.internalPointer i j }).slabs)).sum = (List.map segCap s.slabs).sum + s.cap
      rw [slabsCap_eq_of_shape hshEq]
      exact hcap1
    · intro q hq
      by_cases hqa : q = s.head
      · subst hqa
        rw [hfinal_a, hea]
        rfl
      · rw [hfinal_other q hqa hq]
    · intro q hq
      by_cases hqa : q = s.head
      · subst hqa
        rw [hfinal_a, hea]
        rfl
      · rw [hfinal_other q hqa hq]

/-- Expired-tail branch of `Storage::put`: when the recency list is
non-empty and the tail's entry has timed out, the tail node is reused in
place: it is promoted to the head, its key, value and timestamp are
replaced, and the old key/value pair is returned. -/
theorem storage_put_reuse_spec (now : Nat) (s : Storage K V) (ord : List Pointer)
    (k : K) (v0 : V) (et : Entry K V)
    (hdll : dll s Pointer.null ord Pointer.null) (hnodup : ord.Nodup)
    (hhead : s.head = ord.headD Pointer.null)
    (htail : s.tail = ord.getLastD Pointer.null)
    (hne : ord ≠ [])
    (het : s.entry? s.tail = some et)
    (hexp : et.timestamp + s.timeout_secs ≤ now) :
    ∃ (s4 : Storage K V) (ord2 : List Pointer),
      s.put now k v0 = some ((s.tail, some (et.key, et.data)), s4) ∧
      ord2.Perm ord ∧ ord2.headD Pointer.null = s.tail ∧
      dll s4 Pointer.null ord2 Pointer.null ∧ ord2.Nodup ∧
      s4.head = s.tail ∧ s4.tail = ord2.getLastD Pointer.null ∧
      (∃ e4 : Entry K V, s4.entry? s.tail = some e4 ∧ e4.key = k ∧
        e4.data = v0 ∧ e4.timestamp = now) ∧
      (∀ q : Pointer, q ≠ s.tail →
        ((s4.entry? q).map fun x => (x.key, x.timestamp, x.data)) =
        ((s.entry? q).map fun x => (x.key, x.timestamp, x.data))) ∧
      (∀ q : Pointer, q ≠ s.tail →
        ((s4.entry? q).map Entry.key) = ((s.entry? q).map Entry.key)) ∧
      s4.cap = s.cap ∧ s4.len = s.len ∧ s4.timeout_secs = s.timeout_secs ∧
      segShape s4 = segShape s ∧ totalOcc s4 = totalOcc s := by
  have hp : s.tail ∈ ord := by
    rw [htail]
    cases ord with
    | nil => exact absurd rfl hne
    | cons o os => exact getLastD_cons_mem o os Pointer.null
  have hnn : s.tail.is_null = false := is_null_false (dll_mem_ne_null hdll hp)
  obtain ⟨s2, ord2, e2, hcomp, hperm, hh2, hdll2, hnodup2, hhead2, htail2,
    he2, hpay2, hcap2, hlen2, htimeout2, hshape2, hocc2, hpayall2⟩ :=
    promote_spec s ord s.tail hdll hnodup hhead htail hp
  rw [het, Option.map_some', Option.some_inj] at hpay2
  simp only [Prod.mk.injEq] at hpay2
  set s4 := s2.setEntry s.tail { e2 with key := k, data := v0, timestamp := now }
    with hs4def
  have hs4p : s4.entry? s.tail = some { e2 with key := k, data := v0, timestamp := now } :=
    entry?_setEntry_self _ (by rw [he2]; rfl)
  have hcompput : s.put now k v0 = some ((s.tail, some (e2.key, e2.data)), s4) := by
    by_cases hph : s.head = s.tail
    · have hseq : s2 = s := by
        rw [if_pos hph] at hcomp
        exact (Option.some_inj.mp hcomp).symm
      simp only [Storage.put, Option.bind_eq_bind, Option.pure_def]
      rw [if_pos hnn]
      simp only [het]
      rw [if_pos hexp, if_pos hph, Option.some_bind]
      have he2s : s.entry? s.tail = some e2 := by rw [hseq] at he2; exact he2
      rw [he2s, Option.some_bind, hs4def, hseq]
    · have hmove : s.move_to_top s.tail = some s2 := by
        rw [if_neg hph] at hcomp
        exact hcomp
      simp only [Storage.put, Option.bind_eq_bind, Option.pure_def]
      rw [if_pos hnn]
      simp only [het]
      rw [if_pos hexp, if_neg hph, hmove, Option.some_bind, he2,
        Option.some_bind, hs4def]
  refine ⟨s4, ord2, ?_, hperm, hh2, ?_, hnodup2, ?_, ?_, ?_, ?_, ?_,
    ?_, ?_, ?_, ?_, ?_⟩
  · rw [hcompput, hpay2.1, hpay2.2.2]
  · refine dll_frame_links ?_ hdll2
    intro r hr
    by_cases hrp : r = s.tail
    · subst hrp
      rw [hs4p, he2]
      exact ⟨rfl, rfl⟩
    · rw [hs4def, entry?_setEntry_ne _ hrp]
      exact ⟨rfl, rfl⟩
  · rw [hs4def, setEntry_head]; exact hhead2
  · rw [hs4def, setEntry_tail]; exact htail2
  · exact ⟨{ e2 with key := k, data := v0, timestamp := now }, hs4p, rfl, rfl, rfl⟩
  · intro q hq
    rw [hs4def, entry?_setEntry_ne _ hq]
    exact hpayall2 q
  · intro q hq
    rw [hs4def, entry?_setEntry_ne _ hq]
    have := hpayall2 q
    cases hx : s2.entry? q with
    | none =>
      rw [hx] at this
      cases hy : s.entry? q with
      | none => rfl
      | some _ => rw [hy] at this; simp at this
    | some w =>
      rw [hx] at this
      cases hy : s.entry? q with
      | none => rw [hy] at this; simp at this
      | some w2 =>
        rw [hy] at this
        simp only [Option.map_some', Option.some_inj, Prod.mk.injEq] at this
        simp only [Option.map_some', Option.some_inj]
        exact this.1
  · rw [hs4def, setEntry_cap]; exact hcap2
  · rw [hs4def, setEntry_len]; exact hlen2
  · rw [hs4def, setEntry_timeout]; exact htimeout2
  · rw [hs4def, segShape_setEntry]; exact hshape2
  · rw [hs4def, totalOcc_setEntry _ (by rw [he2]; rfl)]; exact hocc2

/-- The non-reuse branches of `Storage::put` (null tail, or tail not yet
expired) delegate to the fresh-insertion path. -/
theorem storage_put_fresh_eq (now : Nat) (s : Storage K V) (k : K) (v0 : V)
    (h : s.tail.is_null = true ∨
      ∃ et : Entry K V, s.entry? s.tail = some et ∧
        ¬ (et.timestamp + s.timeout_secs ≤ now)) :
    s.put now k v0 = s.insertNew now k v0 := by
  rcases h with hn | ⟨et, het, hnexp⟩
  · simp only [Storage.put]
    rw [if_neg (by rw [hn]; exact fun he => Bool.true_eq_false.mp he)]
  · by_cases hnn : s.tail.is_null = false
    · simp only [Storage.put]
      rw [if_pos hnn]
      simp only [het]
      rw [if_neg hnexp]
    · simp only [Storage.put]
      rw [if_neg hnn]

/-- Unpacking of the well-formedness record over an explicitly given
storage and map. -/
theorem WF_fields {s : Storage K V} {m : List (K × Pointer)} {ord : List Pointer}
    (W : WF ⟨s, m⟩ ord) :
    dll s Pointer.null ord Pointer.null ∧
    s.head = ord.headD Pointer.null ∧
    s.tail = ord.getLastD Pointer.null ∧
    ord.Nodup ∧
    s.len = ord.length ∧
    totalOcc s = s.len ∧
    m.length = ord.length ∧
    (∀ p ∈ ord, ((s.entry? p).bind fun e => lookupKey m e.key) = some p) ∧
    (∀ kv ∈ m, ((s.entry? kv.2).map Entry.key) = some kv.1 ∧ kv.2 ∈ ord) ∧
    (m.map Prod.fst).Nodup ∧
    (∀ o ∈ segShape s, o = none ∨ o = some s.cap) ∧
    0 < s.cap :=
  ⟨W.hdll, W.hhead, W.htail, W.hnodup, W.hlen, W.hocc, W.hmaplen, W.hkeymap,
   W.hmapsto, W.hkeysnodup, W.hshape, W.hcap⟩

/-- The eviction walk (modelled from the spec, see `Storage.evictLoop`):
from a well-formed state whose recency order splits as `keep ++ drop` with
every node of `drop` expired and the node the walk would meet next (the
last of `keep`) not expired, the loop removes exactly the nodes of `drop`
from the tail towards the head and returns their keys; erasing those keys
from the map leaves a state that is well-formed over `keep`. -/
theorem evictLoop_cache_spec (now : Nat) (drop : List Pointer) :
    ∀ (keep : List Pointer) (s : Storage K V) (m : List (K × Pointer))
      (acc : List K) (fuel : Nat),
      WF ⟨s, m⟩ (keep ++ drop) →
      drop.length ≤ fuel →
      (∀ p ∈ drop, ∃ e : Entry K V, s.entry? p = some e ∧
        e.timestamp + s.timeout_secs ≤ now) →
      (∀ e : Entry K V, s.entry? (keep.getLastD Pointer.null) = some e →
        ¬ e.timestamp + s.timeout_secs ≤ now) →
      ∃ (s2 : Storage K V) (ks : List K),
        Storage.evictLoop now fuel s acc = some (acc.reverse ++ ks, s2) ∧
        WF ⟨s2, ks.foldl (fun m2 k2 => eraseKey m2 k2) m⟩ keep ∧
        ks.length = drop.length ∧
        (∀ q ∈ keep, ((s2.entry? q).map fun x => (x.key, x.timestamp, x.data)) =
          ((s.entry? q).map fun x => (x.key, x.timestamp, x.data))) ∧
        s2.cap = s.cap ∧ s2.timeout_secs = s.timeout_secs ∧
        segShape s2 = segShape s ∧
        (∀ q : Pointer, q ∉ keep ++ drop → s2.entry? q = s.entry? q) ∧
        (∀ p ∈ drop, s2.entry? p = none) := by
  induction drop using List.reverseRecOn with
  | nil =>
    intro keep s m acc fuel W hfuel hexp hstop
    rw [List.append_nil] at W
    refine ⟨s, [], ?_, W, rfl, fun q hq => rfl, rfl, rfl, rfl,
      fun q hq => rfl, fun p hp => absurd hp (List.not_mem_nil p)⟩
    rw [List.append_nil]
    cases fuel with
    | zero => rfl
    | succ f =>
      obtain ⟨hdll, hhead, htail, hnodup, hlen, hocc, hmaplen, hkeymap,
        hmapsto, hkeysnodup, hshape, hcap⟩ := WF_fields W
      cases hk : keep with
      | nil =>
        have ht0 : s.tail = Pointer.null := by rw [htail, hk]; rfl
        simp only [Storage.evictLoop]
        rw [if_pos (by rw [ht0]; rfl)]
      | cons k0 kr =>
        have htmem : s.tail ∈ keep := by
          rw [htail, hk]
          exact getLastD_cons_mem ..
        have htne : s.tail ≠ Pointer.null := dll_mem_ne_null hdll htmem
        have hte : (s.entry? s.tail).isSome = true := dll_mem_isSome hdll htmem
        cases he : s.entry? s.tail with
        | none => rw [he] at hte; simp at hte
        | some e =>
          have hnexp : ¬ e.timestamp + s.timeout_secs ≤ now :=
            hstop e (by rw [← htail]; exact he)
          simp only [Storage.evictLoop]
          rw [if_neg (by simp [is_null_false htne])]
          simp only [he]
          rw [if_neg hnexp]
  | append_singleton l p ih =>
    intro keep s m acc fuel W hfuel hexp hstop
    have hord : keep ++ (l ++ [p]) = (keep ++ l) ++ [p] :=
      (List.append_assoc ..).symm
    rw [hord] at W
    obtain ⟨hdll, hhead, htail, hnodup, hlen, hocc, hmaplen, hkeymap,
      hmapsto, hkeysnodup, hshape, hcap⟩ := WF_fields W
    have hpl : p ∈ (keep ++ l) ++ [p] := by simp
    have htailp : s.tail = p := by rw [htail, getLastD_concat]
    have hpnull : p ≠ Pointer.null := dll_mem_ne_null hdll hpl
    obtain ⟨e, hep, hexpi⟩ := hexp p (by simp)
    have hepT : s.entry? s.tail = some e := by rw [htailp]; exact hep
    cases fuel with
    | zero => simp at hfuel
    | succ f =>
    have hfl : l.length ≤ f := by simp at hfuel; omega
    rw [dll_append] at hdll
    obtain ⟨hdllA, hdllp⟩ := hdll
    simp only [List.headD_cons] at hdllA
    rw [dll_cons] at hdllp
    obtain ⟨hpprev, hpnext, _⟩ := hdllp
    rw [hep, Option.map_some', Option.some_inj] at hpprev hpnext
    have hnodupA : (keep ++ l).Nodup ∧ p ∉ keep ++ l := by
      rw [List.nodup_append] at hnodup
      refine ⟨hnodup.1, ?_⟩
      intro hmem
      exact hnodup.2.2 hmem (List.mem_singleton.mpr rfl)
    have hkeyp : lookupKey m e.key = some p := by
      have h := hkeymap p hpl
      rw [hep] at h
      simpa using h
    have hmemp : (e.key, p) ∈ m := lookupKey_mem hkeyp
    have htnn : s.tail ≠ Pointer.null := by rw [htailp]; exact hpnull
    simp only [Storage.evictLoop]
    rw [if_neg (by simp [is_null_false htnn])]
    simp only [hepT]
    rw [if_pos hexpi]
    set s1 : Storage K V :=
      { s with slabs := freeSlot s.slabs s.tail, tail := e.prev,
               len := s.len - 1 } with hs1def
    have hs1q : ∀ q : Pointer, q ≠ p → s1.entry? q = s.entry? q := by
      intro q hq
      show slotGet? (freeSlot s.slabs s.tail) q = s.entry? q
      rw [slotGet?_freeSlot_ne (by rw [htailp]; exact hq)]
      rfl
    have hs1p : s1.entry? p = none := by
      show slotGet? (freeSlot s.slabs s.tail) p = none
      rw [← htailp]
      exact slotGet?_freeSlot_self ..
    have hocc1 : totalOcc s1 + 1 = totalOcc s := by
      show slabsOcc (freeSlot s.slabs s.tail) + 1 = slabsOcc s.slabs
      exact slabsOcc_freeSlot (by rw [show slotGet? s.slabs s.tail
        = s.entry? s.tail from rfl, hepT]; rfl)
    have hshape1 : segShape s1 = segShape s := slabsShape_freeSlot s.slabs s.tail
    have hmaplen2 : (eraseKey m e.key).length + 1 = m.length :=
      length_eraseKey_of_mem hkeysnodup hmemp
    have hkeysnodup2 : ((eraseKey m e.key).map Prod.fst).Nodup :=
      keys_nodup_eraseKey hkeysnodup
    rcases eq_nil_or_append_singleton (keep ++ l) with hA | ⟨u, w, hA⟩
    · -- the removed node was the only one: the list becomes empty
      obtain ⟨hk0, hl0⟩ := List.append_eq_nil.mp hA
      have hprevnull : e.prev = Pointer.null := by rw [hpprev, hA]; rfl
      rw [if_pos (by rw [hprevnull]; rfl)]
      set sS : Storage K V := { s1 with head := Pointer.null } with hsSdef
      have hsSq : ∀ q : Pointer, q ≠ p → sS.entry? q = s.entry? q := hs1q
      have WS : WF ⟨sS, eraseKey m e.key⟩ (keep ++ l) := by
        rw [hA]
        refine ⟨trivial, rfl, ?_, List.nodup_nil, ?_, ?_, ?_, ?_, ?_,
          hkeysnodup2, ?_, hcap⟩
        · show e.prev = Pointer.null
          exact hprevnull
        · show s.len - 1 = 0
          rw [hlen, hA]
          rfl
        · show totalOcc sS = s.len - 1
          have hx : totalOcc sS = totalOcc s1 := rfl
          omega
        · show (eraseKey m e.key).length = 0
          have hm1 : m.length = 1 := by rw [hmaplen, hA]; rfl
          omega
        · intro q hq
          simp at hq
        · intro kv hkv
          obtain ⟨hkvm, hkne⟩ := mem_eraseKey.mp hkv
          obtain ⟨hkey, hmem⟩ := hmapsto kv hkvm
          rw [hA] at hmem
          simp only [List.nil_append, List.mem_singleton] at hmem
          rw [hmem, hep] at hkey
          simp only [Option.map_some', Option.some_inj] at hkey
          exact absurd hkey.symm hkne
        · intro o ho
          have hx : o ∈ segShape s1 := ho
          rw [hshape1] at hx
          exact hshape o hx
      obtain ⟨s3, ks1, hrun, hWF3, hlen3, hframe3, hcap3, htime3, hshape3,
        hfr3, hnone3⟩ :=
        ih keep sS (eraseKey m e.key) (e.key :: acc) f WS hfl
          (by intro q hq; rw [hl0] at hq; simp at hq)
          (by intro e' he'
              rw [hk0] at he'
              simp only [List.getLastD_nil] at he'
              exact absurd he' (by simp [Storage.entry?, slotGet?]))
      refine ⟨s3, e.key :: ks1, ?_, ?_, ?_, ?_, ?_, ?_, ?_, ?_, ?_⟩
      · show Storage.evictLoop now f sS (e.key :: acc)
          = some (acc.reverse ++ (e.key :: ks1), s3)
        rw [hrun]
        simp
      · exact hWF3
      · simp [hlen3]
      · intro q hq
        rw [hk0] at hq
        simp at hq
      · exact hcap3
      · exact htime3
      · exact hshape3.trans hshape1
      · intro q hq
        have hqp : q ≠ p := by
          intro he
          exact hq (he ▸ (by simp : p ∈ keep ++ (l ++ [p])))
        have hq2 : q ∉ keep ++ l := by
          intro hmem
          refine hq ?_
          rcases List.mem_append.mp hmem with h | h
          · exact List.mem_append_left _ h
          · exact List.mem_append_right _ (List.mem_append_left _ h)
        rw [hfr3 q hq2]
        exact hsSq q hqp
      · intro q hq
        rcases List.mem_append.mp hq with h | h
        · exact hnone3 q h
        · rw [List.mem_singleton] at h
          subst h
          have hq2 : q ∉ keep ++ l := by
            intro hmem
            exact hnodupA.2 hmem
          rw [hfr3 q hq2]
          exact hs1p
    · -- nodes remain: fix up the new tail
      have hAne : keep ++ l ≠ [] := by rw [hA]; simp
      have hwmem : w ∈ keep ++ l := by rw [hA]; simp
      have hwp : w ≠ p := fun he => hnodupA.2 (he ▸ hwmem)
      have hwnull : w ≠ Pointer.null := dll_mem_ne_null hdllA hwmem
      have hprevw : e.prev = w := by rw [hpprev, hA, getLastD_concat]
      rw [if_neg (by simp [hprevw, is_null_false hwnull])]
      have hwe : (s.entry? w).isSome = true := dll_mem_isSome hdllA hwmem
      cases hew : s.entry? w with
      | none => rw [hew] at hwe; simp at hwe
      | some ew =>
      have hs1w : s1.entry? w = some ew := by rw [hs1q w hwp]; exact hew
      have hmod : s1.modifyEntry? e.prev (fun e2 => { e2 with next := Pointer.null })
          = some (s1.setEntry w { ew with next := Pointer.null }) := by
        rw [hprevw]
        exact modifyEntry?_eq_some _ hs1w
      rw [hmod]
      set sS : Storage K V := s1.setEntry w { ew with next := Pointer.null }
        with hsSdef
      have hstepw : sS.entry? w = some { ew with next := Pointer.null } :=
        entry?_setEntry_self _ (by rw [hs1w]; rfl)
      have hstepq : ∀ q : Pointer, q ≠ p → q ≠ w → sS.entry? q = s.entry? q := by
        intro q hqp hqw
        rw [hsSdef, entry?_setEntry_ne _ hqw, hs1q q hqp]
      have hsteppay : ∀ q : Pointer, q ≠ p →
          ((sS.entry? q).map fun x => (x.key, x.timestamp, x.data)) =
          ((s.entry? q).map fun x => (x.key, x.timestamp, x.data)) := by
        intro q hqp
        by_cases hqw : q = w
        · subst hqw
          rw [hstepw, hew]
          rfl
        · rw [hstepq q hqp hqw]
      have hstepkey : ∀ q : Pointer, q ≠ p →
          ((sS.entry? q).map Entry.key) = ((s.entry? q).map Entry.key) := by
        intro q hqp
        by_cases hqw : q = w
        · subst hqw
          rw [hstepw, hew]
          rfl
        · rw [hstepq q hqp hqw]
      have hoccS : totalOcc sS = totalOcc s1 :=
        totalOcc_setEntry _ (by rw [hs1w]; rfl)
      have hshapeS : segShape sS = segShape s := by
        rw [hsSdef, segShape_setEntry]
        exact hshape1
      -- the doubly linked list over the survivors
      rw [hA] at hdllA
      rw [dll_append] at hdllA
      obtain ⟨hdllu, hdllw⟩ := hdllA
      simp only [List.headD_cons] at hdllu
      rw [dll_cons] at hdllw
      obtain ⟨hwprev, hwnext, _⟩ := hdllw
      rw [hew, Option.map_some', Option.some_inj] at hwprev hwnext
      have hnodupU : u.Nodup ∧ w ∉ u := by
        have hn := hnodupA.1
        rw [hA, List.nodup_append] at hn
        exact ⟨hn.1, fun hm => hn.2.2 hm (List.mem_singleton.mpr rfl)⟩
      have hdllS : dll sS Pointer.null (keep ++ l) Pointer.null := by
        rw [hA]
        rw [dll_append]
        refine ⟨?_, ?_⟩
        · simp only [List.headD_cons]
          refine dll_frame ?_ hdllu
          intro r hr
          have hrp : r ≠ p := fun he =>
            hnodupA.2 (he ▸ (by rw [hA]; exact List.mem_append_left _ hr))
          have hrw : r ≠ w := fun he => hnodupU.2 (he ▸ hr)
          exact hstepq r hrp hrw
        · rw [dll_cons]
          refine ⟨?_, ?_, trivial⟩
          · rw [hstepw]
            simp only [Option.map_some', Option.some_inj]
            exact hwprev
          · rw [hstepw]
            rfl
      have WS : WF ⟨sS, eraseKey m e.key⟩ (keep ++ l) := by
        refine ⟨hdllS, ?_, ?_, hnodupA.1, ?_, ?_, ?_, ?_, ?_, hkeysnodup2,
          ?_, hcap⟩
        · show s.head = (keep ++ l).headD Pointer.null
          rw [hhead, headD_append]
          exact headD_indep hAne _ _
        · show e.prev = (keep ++ l).getLastD Pointer.null
          rw [hprevw, hA, getLastD_concat]
        · show s.len - 1 = (keep ++ l).length
          rw [hlen]
          simp only [List.length_append, List.length_cons, List.length_nil]
          omega
        · show totalOcc sS = s.len - 1
          rw [hoccS]
          omega
        · show (eraseKey m e.key).length = (keep ++ l).length
          have hm2 : m.length = (keep ++ l).length + 1 := by
            rw [hmaplen]
            simp only [List.length_append, List.length_cons, List.length_nil]
          omega
        · intro q hq
          show ((sS.entry? q).bind fun e2 => lookupKey (eraseKey m e.key) e2.key)
            = some q
          have hqp : q ≠ p := fun he => hnodupA.2 (he ▸ hq)
          have h := hkeymap q (List.mem_append_left _ hq)
          cases heq : s.entry? q with
          | none => rw [heq] at h; simp at h
          | some eq0 =>
            rw [heq] at h
            simp only [Option.some_bind] at h
            have hkne : eq0.key ≠ e.key := by
              intro hke
              rw [hke] at h
              exact hqp (Option.some_inj.mp (h.symm.trans hkeyp))
            have hkeyq := hstepkey q hqp
            rw [heq] at hkeyq
            cases hsq : sS.entry? q with
            | none => rw [hsq] at hkeyq; simp at hkeyq
            | some eq1 =>
              rw [hsq] at hkeyq
              simp only [Option.map_some', Option.some_inj] at hkeyq
              simp only [Option.some_bind]
              rw [hkeyq, lookupKey_eraseKey_ne hkne]
              exact h
        · intro kv hkv
          obtain ⟨hkvm, hkne⟩ := mem_eraseKey.mp hkv
          obtain ⟨hkey, hmem⟩ := hmapsto kv hkvm
          have hkvp : kv.2 ≠ p := by
            intro he
            rw [he, hep] at hkey
            simp only [Option.map_some', Option.some_inj] at hkey
            exact hkne hkey.symm
          have hmem2 : kv.2 ∈ keep ++ l := by
            rcases List.mem_append.mp hmem with h | h
            · exact h
            · exact absurd (List.mem_singleton.mp h) hkvp
          refine ⟨?_, hmem2⟩
          show ((sS.entry? kv.2).map Entry.key) = some kv.1
          rw [hstepkey kv.2 hkvp]
          exact hkey
        · intro o ho
          have hx : o ∈ segShape s := by rw [← hshapeS]; exact ho
          exact hshape o hx
      obtain ⟨s3, ks1, hrun, hWF3, hlen3, hframe3, hcap3, htime3, hshape3,
        hfr3, hnone3⟩ :=
        ih keep sS (eraseKey m e.key) (e.key :: acc) f WS hfl
          (by intro q hq
              have hqp : q ≠ p := fun he =>
                hnodupA.2 (he ▸ List.mem_append_right keep hq)
              obtain ⟨e0, he0, hx0⟩ := hexp q (List.mem_append_left _ hq)
              have hpay := hsteppay q hqp
              rw [he0] at hpay
              cases hsq : sS.entry? q with
              | none => rw [hsq] at hpay; simp at hpay
              | some e1 =>
                rw [hsq] at hpay
                simp only [Option.map_some', Option.some_inj,
                  Prod.mk.injEq] at hpay
                exact ⟨e1, rfl, by rw [show sS.timeout_secs = s.timeout_secs
                  from rfl, hpay.2.1]; exact hx0⟩)
          (by intro e' he'
              cases hkeep : keep with
              | nil =>
                rw [hkeep] at he'
                simp only [List.getLastD_nil] at he'
                exact absurd he' (by simp [Storage.entry?, slotGet?])
              | cons k0 kr =>
                have hwl : keep.getLastD Pointer.null ∈ keep := by
                  rw [hkeep]
                  exact getLastD_cons_mem ..
                have hwlp : keep.getLastD Pointer.null ≠ p := fun he =>
                  hnodupA.2 (he ▸ List.mem_append_left _ hwl)
                have hpay := hsteppay (keep.getLastD Pointer.null) hwlp
                rw [he'] at hpay
                cases hswl : s.entry? (keep.getLastD Pointer.null) with
                | none => rw [hswl] at hpay; simp at hpay
                | some e2 =>
                  rw [hswl] at hpay
                  simp only [Option.map_some', Option.some_inj,
                    Prod.mk.injEq] at hpay
                  intro hcon
                  exact hstop e2 hswl (by rw [← hpay.2.1]; exact hcon))
      refine ⟨s3, e.key :: ks1, ?_, ?_, ?_, ?_, ?_, ?_, ?_, ?_, ?_⟩
      · show Storage.evictLoop now f sS (e.key :: acc)
          = some (acc.reverse ++ (e.key :: ks1), s3)
        rw [hrun]
        simp
      · exact hWF3
      · simp [hlen3]
      · intro q hq
        have hqp : q ≠ p := fun he =>
          hnodupA.2 (he ▸ List.mem_append_left _ hq)
        rw [hframe3 q hq]
        exact hsteppay q hqp
      · exact hcap3
      · exact htime3
      · exact hshape3.trans hshapeS
      · intro q hq
        have hqp : q ≠ p := by
          intro he
          exact hq (he ▸ (by simp : p ∈ keep ++ (l ++ [p])))
        have hqw : q ≠ w := by
          intro he
          refine hq ?_
          subst he
          rcases List.mem_append.mp hwmem with h | h
          · exact List.mem_append_left _ h
          · exact List.mem_append_right _ (List.mem_append_left _ h)
        have hq2 : q ∉ keep ++ l := by
          intro hmem
          refine hq ?_
          rcases List.mem_append.mp hmem with h | h
          · exact List.mem_append_left _ h
          · exact List.mem_append_right _ (List.mem_append_left _ h)
        rw [hfr3 q hq2]
        exact hstepq q hqp hqw
      · intro q hq
        rcases List.mem_append.mp hq with h | h
        · exact hnone3 q h
        · rw [List.mem_singleton] at h
          subst h
          have hq2 : q ∉ keep ++ l := by
            intro hmem
            exact hnodupA.2 hmem
          rw [hfr3 q hq2]
          have hqw : q ≠ w := by
            intro he
            exact hnodupA.2 (by rw [he]; exact hwmem)
          show (s1.setEntry w { ew with next := Pointer.null }).entry? q = none
          rw [entry?_setEntry_ne _ hqw]
          exact hs1p

/-- `Cache::evict` (its storage half modelled from the spec): removes the
expired tail segment `drop` of the recency order, erases the removed keys
from the map, and reclaims every emptied segment; the survivors `keep`
form a well-formed cache again, and when nothing survives after removing
at least one entry the capacity drops to zero. -/
theorem cache_evict_spec (now : Nat) (c : Cache K V) (keep drop : List Pointer)
    (W : WF c (keep ++ drop))
    (hexp : ∀ p ∈ drop, ∃ e : Entry K V, c.storage.entry? p = some e ∧
      e.timestamp + c.storage.timeout_secs ≤ now)
    (hstop : ∀ e : Entry K V,
      c.storage.entry? (keep.getLastD Pointer.null) = some e →
      ¬ e.timestamp + c.storage.timeout_secs ≤ now) :
    ∃ c2 : Cache K V, Cache.evict now c = some c2 ∧ WF c2 keep ∧
      c2.len = keep.length ∧
      ((keep = [] ∧ drop ≠ []) → c2.capacity = 0) ∧
      (∀ q ∈ keep,
        ((c2.storage.entry? q).map fun x => (x.key, x.timestamp, x.data)) =
        ((c.storage.entry? q).map fun x => (x.key, x.timestamp, x.data))) ∧
      (∀ p ∈ drop, c2.storage.entry? p = none) ∧
      c2.storage.cap = c.storage.cap ∧
      c2.storage.timeout_secs = c.storage.timeout_secs := by
  cases hemp : c.map.isEmpty with
  | true =>
    have hm0 : c.map = [] := List.isEmpty_iff.mp hemp
    have hlen0 : (keep ++ drop).length = 0 := by
      rw [← W.hmaplen, hm0]
      rfl
    have hk0 : keep = [] := by
      rcases List.append_eq_nil.mp (List.length_eq_zero.mp hlen0) with ⟨h1, _⟩
      exact h1
    have hd0 : drop = [] := by
      rcases List.append_eq_nil.mp (List.length_eq_zero.mp hlen0) with ⟨_, h2⟩
      exact h2
    refine ⟨c, ?_, ?_, ?_, ?_, fun q hq => rfl,
      fun p hp => absurd (hd0 ▸ hp) (List.not_mem_nil p), rfl, rfl⟩
    · show Cache.evict now c = some c
      simp only [Cache.evict]
      rw [if_pos (by show c.map.isEmpty = true; rw [hemp])]
    · have hke : keep ++ drop = keep := by rw [hd0, List.append_nil]
      rw [← hke]
      exact W
    · show c.map.length = keep.length
      rw [hm0, hk0]
      rfl
    · rintro ⟨-, hdne⟩
      exact absurd hd0 hdne
  | false =>
    have hfuel : drop.length ≤ c.storage.len := by
      rw [W.hlen]
      simp only [List.length_append]
      omega
    obtain ⟨s2, ks, hrun, hWF2, hksl, hframe, hcap2, htime2, hshape2,
      hfr2, hnone2⟩ :=
      evictLoop_cache_spec now drop keep c.storage c.map [] c.storage.len
        W hfuel hexp hstop
    simp only [List.reverse_nil, List.nil_append] at hrun
    obtain ⟨hdll2, hhead2, htail2, hnodup2, hlen2, hocc2, hmaplen2, hkeymap2,
      hmapsto2, hkeysnodup2, hshape2f, hcap2f⟩ := WF_fields hWF2
    set sF : Storage K V := { s2 with slabs := dropEmptySegs s2.slabs } with hsFdef
    have hFq : ∀ q : Pointer, sF.entry? q = s2.entry? q := by
      intro q
      show slotGet? (dropEmptySegs s2.slabs) q = slotGet? s2.slabs q
      exact slotGet?_dropEmptySegs s2.slabs q
    have hevict : c.storage.evict now = some (ks, sF) := by
      simp only [Storage.evict, Option.bind_eq_bind, Option.pure_def]
      rw [hrun, Option.some_bind]
    have hcompev : Cache.evict now c
        = some ⟨sF, ks.foldl (fun m2 k2 => eraseKey m2 k2) c.map⟩ := by
      have hne : ¬ c.is_empty = true := by
        show ¬ c.map.isEmpty = true
        rw [hemp]
        simp
      simp only [Cache.evict]
      rw [if_neg hne, hevict]
    refine ⟨⟨sF, ks.foldl (fun m2 k2 => eraseKey m2 k2) c.map⟩, hcompev,
      ?_, ?_, ?_, ?_, ?_, hcap2, htime2⟩
    · refine ⟨?_, ?_, ?_, hnodup2, hlen2, ?_, hmaplen2, ?_, ?_, hkeysnodup2,
        ?_, hcap2f⟩
      · exact dll_frame (fun p hp => hFq p) hdll2
      · exact hhead2
      · exact htail2
      · show totalOcc sF = s2.len
        have hx : totalOcc sF = totalOcc s2 := slabsOcc_dropEmptySegs s2.slabs
        rw [hx]
        exact hocc2
      · intro q hq
        show ((sF.entry? q).bind fun e => lookupKey _ e.key) = some q
        rw [hFq q]
        exact hkeymap2 q hq
      · intro kv hkv
        obtain ⟨h1, h2⟩ := hmapsto2 kv hkv
        refine ⟨?_, h2⟩
        show (sF.entry? kv.2).map Entry.key = some kv.1
        rw [hFq kv.2]
        exact h1
      · intro o ho
        have ho2 : o ∈ slabsShape (dropEmptySegs s2.slabs) := ho
        rcases shape_dropEmptySegs_mem ho2 with h | h
        · exact Or.inl h
        · exact hshape2f o h
    · show (ks.foldl (fun m2 k2 => eraseKey m2 k2) c.map).length = keep.length
      rw [hmaplen2]
    · rintro ⟨hk0, -⟩
      show (sF.slabs.map segCap).sum = 0
      have hocc0 : slabsOcc s2.slabs = 0 := by
        have h1 : totalOcc s2 = s2.len := hocc2
        have h2 : s2.len = keep.length := hlen2
        rw [hk0] at h2
        show totalOcc s2 = 0
        rw [h1, h2]
        rfl
      exact capacity_dropEmptySegs_of_occ_zero hocc0
    · intro q hq
      rw [show sF.entry? q = s2.entry? q from hFq q]
      exact hframe q hq
    · intro p hp
      show sF.entry? p = none
      rw [hFq p]
      exact hnone2 p hp

/-- `Cache::get`, all paths: the call always succeeds, preserves
well-formedness over a permutation of the recency order, and never touches
the key map.  On a miss the state is unchanged; on a hit for `k` at handle
`p` the stored value is returned, the node is promoted to the head and its
timestamp refreshed, with key and data intact. -/
theorem cache_get_spec (now : Nat) (c : Cache K V) (ord : List Pointer)
    (k : K) (W : WF c ord) :
    ∃ (r : Option V) (c2 : Cache K V) (ord2 : List Pointer),
      c.get now k = some (r, c2) ∧ WF c2 ord2 ∧ ord2.Perm ord ∧
      c2.map = c.map ∧
      c2.storage.cap = c.storage.cap ∧
      c2.storage.timeout_secs = c.storage.timeout_secs ∧
      segShape c2.storage = segShape c.storage ∧
      (lookupKey c.map k = none → r = none ∧ c2 = c ∧ ord2 = ord) ∧
      (∀ p : Pointer, lookupKey c.map k = some p →
        (∃ e : Entry K V, c.storage.entry? p = some e ∧ r = some e.data ∧
          c2.storage.head = p ∧ ord2.headD Pointer.null = p ∧
          (∃ e3 : Entry K V, c2.storage.entry? p = some e3 ∧ e3.key = e.key ∧
            e3.data = e.data ∧ e3.timestamp = now) ∧
          (∀ q : Pointer, q ≠ p →
            ((c2.storage.entry? q).map fun x => (x.key, x.timestamp, x.data)) =
            ((c.storage.entry? q).map fun x => (x.key, x.timestamp, x.data))))) := by
  obtain ⟨hdll, hhead, htail, hnodup, hlen, hocc, hmaplen, hkeymap,
    hmapsto, hkeysnodup, hshape, hcap⟩ :=
    (⟨W.hdll, W.hhead, W.htail, W.hnodup, W.hlen, W.hocc, W.hmaplen, W.hkeymap,
      W.hmapsto, W.hkeysnodup, W.hshape, W.hcap⟩ :
      dll c.storage Pointer.null ord Pointer.null ∧
      c.storage.head = ord.headD Pointer.null ∧
      c.storage.tail = ord.getLastD Pointer.null ∧
      ord.Nodup ∧
      c.storage.len = ord.length ∧
      totalOcc c.storage = c.storage.len ∧
      c.map.length = ord.length ∧
      (∀ p ∈ ord, ((c.storage.entry? p).bind fun e => lookupKey c.map e.key)
        = some p) ∧
      (∀ kv ∈ c.map, ((c.storage.entry? kv.2).map Entry.key) = some kv.1 ∧
        kv.2 ∈ ord) ∧
      (c.map.map Prod.fst).Nodup ∧
      (∀ o ∈ segShape c.storage, o = none ∨ o = some c.storage.cap) ∧
      0 < c.storage.cap)
  cases hemp : c.map.isEmpty with
  | true =>
    have hm0 : c.map = [] := List.isEmpty_iff.mp hemp
    have hlk : lookupKey c.map k = none := by rw [hm0]; rfl
    refine ⟨none, c, ord, ?_, W, List.Perm.refl _, rfl, rfl, rfl, rfl,
      fun _ => ⟨rfl, rfl, rfl⟩, ?_⟩
    · simp only [Cache.get]
      rw [if_pos (by show c.map.isEmpty = true; rw [hemp])]
    · intro p hp
      rw [hlk] at hp
      cases hp
  | false =>
    cases hlk : lookupKey c.map k with
    | none =>
      refine ⟨none, c, ord, ?_, W, List.Perm.refl _, rfl, rfl, rfl, rfl,
        fun _ => ⟨rfl, rfl, rfl⟩, ?_⟩
      · simp only [Cache.get]
        rw [if_neg (by show ¬ c.map.isEmpty = true; rw [hemp]; simp)]
        simp only [hlk]
      · intro p hp
        simp at hp
    | some p =>
      have hpmem : p ∈ ord := by
        have := hmapsto (k, p) (lookupKey_mem hlk)
        exact this.2
      obtain ⟨e, s3, ord2, hep, hget, hperm, hh2, hdll2, hnodup2, hhead2,
        htail2, he3x, hpay2, hkeyall2, hcap2, hlen2, htimeout2, hshape2,
        hocc2⟩ := storage_get_spec now c.storage ord p hdll hnodup hhead
          htail hpmem
      have hcompget : c.get now k = some (some e.data, ⟨s3, c.map⟩) := by
        simp only [Cache.get]
        rw [if_neg (by show ¬ c.map.isEmpty = true; rw [hemp]; simp)]
        simp only [hlk, hget]
        simp
      refine ⟨some e.data, ⟨s3, c.map⟩, ord2, hcompget, ?_, hperm, rfl,
        hcap2, htimeout2, hshape2, ?_, ?_⟩
      · refine ⟨hdll2, hhead2.trans hh2.symm, htail2, hnodup2, ?_, ?_, ?_, ?_,
          ?_, hkeysnodup, ?_, ?_⟩
        · show s3.len = ord2.length
          rw [hlen2, hlen]
          exact (hperm.length_eq).symm
        · show totalOcc s3 = s3.len
          rw [hocc2, hlen2]
          exact hocc
        · show c.map.length = ord2.length
          rw [hmaplen]
          exact (hperm.length_eq).symm
        · intro q hq
          show ((s3.entry? q).bind fun e2 => lookupKey c.map e2.key) = some q
          have hq2 : q ∈ ord := hperm.mem_iff.mp hq
          have h := hkeymap q hq2
          have hk2 := hkeyall2 q
          cases hx : s3.entry? q with
          | none =>
            rw [hx] at hk2
            cases hy : c.storage.entry? q with
            | none => rw [hy] at h; simp at h
            | some _ => rw [hy] at hk2; simp at hk2
          | some w1 =>
            rw [hx] at hk2
            cases hy : c.storage.entry? q with
            | none => rw [hy] at hk2; simp at hk2
            | some w2 =>
              rw [hy] at hk2
              simp only [Option.map_some', Option.some_inj] at hk2
              rw [hy] at h
              simp only [Option.some_bind] at h ⊢
              rw [hk2]
              exact h
        · intro kv hkv
          obtain ⟨h1, h2⟩ := hmapsto kv hkv
          refine ⟨?_, hperm.mem_iff.mpr h2⟩
          show (s3.entry? kv.2).map Entry.key = some kv.1
          rw [hkeyall2 kv.2]
          exact h1
        · intro o ho
          have ho2 : o ∈ segShape c.storage := by rw [← hshape2]; exact ho
          rcases hshape o ho2 with h | h
          · exact Or.inl h
          · right
            rw [h, hcap2]
        · show 0 < s3.cap
          rw [hcap2]
          exact hcap
      · intro hn
        simp at hn
      · intro p2 hp2
        cases hp2
        exact ⟨e, hep, rfl, hhead2, hh2, he3x, hpay2⟩

/-- `Cache::put` on a key already present at handle `p`: the value at `p`
is overwritten, the timestamp refreshed, the node promoted to the head and
the previous value returned; the key map is untouched. -/
theorem cache_put_update_spec (now : Nat) (c : Cache K V) (ord : List Pointer)
    (k : K) (v0 : V) (p : Pointer) (W : WF c ord)
    (hlk : lookupKey c.map k = some p) :
    ∃ (e : Entry K V) (c2 : Cache K V) (ord2 : List Pointer),
      c.put now k v0 = some (some e.data, c2) ∧
      c.storage.entry? p = some e ∧ e.key = k ∧
      WF c2 ord2 ∧ ord2.Perm ord ∧ ord2.headD Pointer.null = p ∧
      c2.map = c.map ∧ c2.storage.head = p ∧
      c2.len = c.len ∧ c2.capacity = c.capacity ∧
      c2.storage.cap = c.storage.cap ∧
      c2.storage.timeout_secs = c.storage.timeout_secs ∧
      (∃ e3 : Entry K V, c2.storage.entry? p = some e3 ∧ e3.key = k ∧
        e3.data = v0 ∧ e3.timestamp = now) ∧
      (∀ q : Pointer, q ≠ p →
        ((c2.storage.entry? q).map fun x => (x.key, x.timestamp, x.data)) =
        ((c.storage.entry? q).map fun x => (x.key, x.timestamp, x.data))) := by
  obtain ⟨hdll, hhead, htail, hnodup, hlen, hocc, hmaplen, hkeymap,
    hmapsto, hkeysnodup, hshape, hcap⟩ := WF_fields W
  have hpmemkey := hmapsto (k, p) (lookupKey_mem hlk)
  have hpmem : p ∈ ord := hpmemkey.2
  obtain ⟨e, s3, ord2, hep, hupd, hperm, hh2, hdll2, hnodup2, hhead2,
    htail2, he3x, hpay2, hkeyall2, hcap2, hlen2, htimeout2, hshape2,
    hocc2⟩ := storage_update_spec now c.storage ord p v0 hdll hnodup hhead
      htail hpmem
  have hek : e.key = k := by
    have h := hpmemkey.1
    rw [hep] at h
    simp only [Option.map_some', Option.some_inj] at h
    exact h
  have hcompput : c.put now k v0 = some (some e.data, ⟨s3, c.map⟩) := by
    simp only [Cache.put]
    rw [hlk]
    simp only [hupd]
  obtain ⟨e3, he3, he3k, he3d, he3t⟩ := he3x
  refine ⟨e, ⟨s3, c.map⟩, ord2, hcompput, hep, hek, ?_, hperm, hh2, rfl,
    hhead2, rfl, ?_, hcap2, htimeout2, ⟨e3, he3, by rw [he3k, hek], he3d,
    he3t⟩, hpay2⟩
  · refine ⟨hdll2, hhead2.trans hh2.symm, htail2, hnodup2, ?_, ?_, ?_, ?_,
      ?_, hkeysnodup, ?_, ?_⟩
    · show s3.len = ord2.length
      rw [hlen2, hlen]
      exact (hperm.length_eq).symm
    · show totalOcc s3 = s3.len
      rw [hocc2, hlen2]
      exact hocc
    · show c.map.length = ord2.length
      rw [hmaplen]
      exact (hperm.length_eq).symm
    · intro q hq
      show ((s3.entry? q).bind fun e2 => lookupKey c.map e2.key) = some q
      have hq2 : q ∈ ord := hperm.mem_iff.mp hq
      have h := hkeymap q hq2
      have hk2 := hkeyall2 q
      cases hx : s3.entry? q with
      | none =>
        rw [hx] at hk2
        cases hy : c.storage.entry? q with
        | none => rw [hy] at h; simp at h
        | some _ => rw [hy] at hk2; simp at hk2
      | some w1 =>
        rw [hx] at hk2
        cases hy : c.storage.entry? q with
        | none => rw [hy] at hk2; simp at hk2
        | some w2 =>
          rw [hy] at hk2
          simp only [Option.map_some', Option.some_inj] at hk2
          rw [hy] at h
          simp only [Option.some_bind] at h ⊢
          rw [hk2]
          exact h
    · intro kv hkv
      obtain ⟨h1, h2⟩ := hmapsto kv hkv
      refine ⟨?_, hperm.mem_iff.mpr h2⟩
      show (s3.entry? kv.2).map Entry.key = some kv.1
      rw [hkeyall2 kv.2]
      exact h1
    · intro o ho
      have ho2 : o ∈ segShape c.storage := by rw [← hshape2]; exact ho
      rcases hshape o ho2 with h | h
      · exact Or.inl h
      · right
        rw [h, hcap2]
    · show 0 < s3.cap
      rw [hcap2]
      exact hcap
  · show s3.capacity = c.storage.capacity
    rw [capacity_eq_shape, capacity_eq_shape, hshape2]

/-- `Cache::put` on an absent key when the tail exists and has expired:
the tail node is reused in place.  Its old key leaves the map, the node is
promoted to the head with key `k`, value `v0` and a fresh timestamp, the
binding `(k, handle)` enters the map, and the old value is returned; `len`
and `capacity` are unchanged. -/
theorem cache_put_reuse_spec (now : Nat) (c : Cache K V) (ord : List Pointer)
    (k : K) (v0 : V) (et : Entry K V) (W : WF c ord)
    (hlk : lookupKey c.map k = none)
    (hne : ord ≠ [])
    (het : c.storage.entry? c.storage.tail = some et)
    (hexp : et.timestamp + c.storage.timeout_secs ≤ now) :
    ∃ (c2 : Cache K V) (ord2 : List Pointer),
      c.put now k v0 = some (some et.data, c2) ∧
      WF c2 ord2 ∧ ord2.Perm ord ∧
      ord2.headD Pointer.null = c.storage.tail ∧
      c2.storage.head = c.storage.tail ∧
      c2.map = insertKey (eraseKey c.map et.key) k c.storage.tail ∧
      lookupKey c2.map et.key = none ∧
      lookupKey c2.map k = some c.storage.tail ∧
      c2.len = c.len ∧ c2.capacity = c.capacity ∧
      c2.storage.cap = c.storage.cap ∧
      c2.storage.timeout_secs = c.storage.timeout_secs ∧
      (∃ e3 : Entry K V, c2.storage.entry? c.storage.tail = some e3 ∧
        e3.key = k ∧ e3.data = v0 ∧ e3.timestamp = now) ∧
      (∀ q : Pointer, q ≠ c.storage.tail →
        ((c2.storage.entry? q).map fun x => (x.key, x.timestamp, x.data)) =
        ((c.storage.entry? q).map fun x => (x.key, x.timestamp, x.data))) := by
  obtain ⟨hdll, hhead, htail, hnodup, hlen, hocc, hmaplen, hkeymap,
    hmapsto, hkeysnodup, hshape, hcap⟩ := WF_fields W
  have hptrmem : c.storage.tail ∈ ord := by
    rw [htail]
    cases ord with
    | nil => exact absurd rfl hne
    | cons o os => exact getLastD_cons_mem o os Pointer.null
  obtain ⟨s4, ord2, hput, hperm, hh2, hdll2, hnodup2, hhead2, htail2,
    he3x, hpay2, hkey2, hcap2, hlen2, htimeout2, hshape2, hocc2⟩ :=
    storage_put_reuse_spec now c.storage ord k v0 et hdll hnodup hhead
      htail hne het hexp
  have hkeyptr : lookupKey c.map et.key = some c.storage.tail := by
    have h := hkeymap c.storage.tail hptrmem
    rw [het] at h
    simpa using h
  have hknek : k ≠ et.key := by
    intro he
    rw [he, hkeyptr] at hlk
    cases hlk
  have hmemet : (et.key, c.storage.tail) ∈ c.map := lookupKey_mem hkeyptr
  have herasenone : lookupKey (eraseKey c.map et.key) k = none := by
    rw [lookupKey_eraseKey_ne hknek]
    exact hlk
  set m2 := insertKey (eraseKey c.map et.key) k c.storage.tail with hm2def
  have hm2len : m2.length = c.map.length := by
    rw [hm2def, length_insertKey_of_none herasenone]
    have h := length_eraseKey_of_mem hkeysnodup hmemet
    omega
  have hcompput : c.put now k v0 = some (some et.data, ⟨s4, m2⟩) := by
    simp only [Cache.put]
    rw [hlk]
    simp only [hput]
  obtain ⟨e3, he3, he3k, he3d, he3t⟩ := he3x
  refine ⟨⟨s4, m2⟩, ord2, hcompput, ?_, hperm, hh2, hhead2, rfl, ?_, ?_,
    ?_, ?_, hcap2, htimeout2, ⟨e3, he3, he3k, he3d, he3t⟩, hpay2⟩
  · refine ⟨hdll2, hhead2.trans hh2.symm, htail2, hnodup2, ?_, ?_, ?_, ?_,
      ?_, ?_, ?_, ?_⟩
    · show s4.len = ord2.length
      rw [hlen2, hlen]
      exact (hperm.length_eq).symm
    · show totalOcc s4 = s4.len
      rw [hocc2, hlen2]
      exact hocc
    · show m2.length = ord2.length
      rw [hm2len, hmaplen]
      exact (hperm.length_eq).symm
    · intro q hq
      show ((s4.entry? q).bind fun e2 => lookupKey m2 e2.key) = some q
      by_cases hqp : q = c.storage.tail
      · subst hqp
        rw [he3]
        simp only [Option.some_bind]
        rw [he3k, hm2def, lookupKey_insertKey_self]
      · have hq2 : q ∈ ord := hperm.mem_iff.mp hq
        have h := hkeymap q hq2
        have hk2 := hkey2 q hqp
        cases hx : s4.entry? q with
        | none =>
          rw [hx] at hk2
          cases hy : c.storage.entry? q with
          | none => rw [hy] at h; simp at h
          | some _ => rw [hy] at hk2; simp at hk2
        | some w1 =>
          rw [hx] at hk2
          cases hy : c.storage.entry? q with
          | none => rw [hy] at hk2; simp at hk2
          | some w2 =>
            rw [hy] at hk2
            simp only [Option.map_some', Option.some_inj] at hk2
            rw [hy] at h
            simp only [Option.some_bind] at h ⊢
            have hwk : w2.key ≠ k := by
              intro he
              rw [he, hlk] at h
              cases h
            have hwet : w2.key ≠ et.key := by
              intro he
              rw [he, hkeyptr] at h
              exact hqp (Option.some_inj.mp h.symm)
            rw [hk2, hm2def, lookupKey_insertKey_ne hwk,
              lookupKey_eraseKey_ne hwet]
            exact h
    · intro kv hkv
      rcases mem_insertKey.mp hkv with hkv1 | ⟨hkv2, hkvne⟩
      · subst hkv1
        refine ⟨?_, hperm.mem_iff.mpr hptrmem⟩
        show (s4.entry? c.storage.tail).map Entry.key = some k
        rw [he3]
        simp [he3k]
      · obtain ⟨hkvm, hkvet⟩ := mem_eraseKey.mp hkv2
        obtain ⟨h1, h2⟩ := hmapsto kv hkvm
        have hkvp : kv.2 ≠ c.storage.tail := by
          intro he
          rw [he, het] at h1
          simp only [Option.map_some', Option.some_inj] at h1
          exact hkvet h1.symm
        refine ⟨?_, hperm.mem_iff.mpr h2⟩
        show (s4.entry? kv.2).map Entry.key = some kv.1
        rw [hkey2 kv.2 hkvp]
        exact h1
    · show (m2.map Prod.fst).Nodup
      rw [hm2def]
      exact keys_nodup_insertKey (keys_nodup_eraseKey hkeysnodup)
    · intro o ho
      have ho2 : o ∈ segShape c.storage := by rw [← hshape2]; exact ho
      rcases hshape o ho2 with h | h
      · exact Or.inl h
      · right
        rw [h, hcap2]
    · show 0 < s4.cap
      rw [hcap2]
      exact hcap
  · show lookupKey m2 et.key = none
    rw [hm2def, lookupKey_insertKey_ne (Ne.symm hknek), lookupKey_eraseKey_self]
  · show lookupKey m2 k = some c.storage.tail
    rw [hm2def, lookupKey_insertKey_self]
  · show m2.length = c.map.length
    exact hm2len
  · show s4.capacity = c.storage.capacity
    rw [capacity_eq_shape, capacity_eq_shape, hshape2]

/-- `Cache::put` on an absent key with no expired tail to reuse: a brand
new node is allocated, initialised with `k`, `v0` and the current time,
pushed to the head of the recency list and bound in the map; the call
returns absent and `len` grows by one (capacity grows by one segment of
`cap` slots exactly when no free slot existed). -/
theorem cache_put_fresh_spec (now : Nat) (c : Cache K V) (ord : List Pointer)
    (k : K) (v0 : V) (W : WF c ord)
    (hlk : lookupKey c.map k = none)
    (hfresh : c.storage.tail.is_null = true ∨
      ∃ et : Entry K V, c.storage.entry? c.storage.tail = some et ∧
        ¬ (et.timestamp + c.storage.timeout_secs ≤ now)) :
    ∃ (id : Pointer) (c2 : Cache K V),
      c.put now k v0 = some (none, c2) ∧
      WF c2 (id :: ord) ∧
      c.storage.entry? id = none ∧ id ≠ Pointer.null ∧ id ∉ ord ∧
      c2.storage.head = id ∧
      c2.map = insertKey c.map k id ∧
      lookupKey c2.map k = some id ∧
      c2.len = c.len + 1 ∧
      (c2.capacity = c.capacity ∨ c2.capacity = c.capacity + c.storage.cap) ∧
      c2.storage.cap = c.storage.cap ∧
      c2.storage.timeout_secs = c.storage.timeout_secs ∧
      c2.storage.entry? id
        = some (Entry.new now k v0 c.storage.head Pointer.null) ∧
      (∀ q : Pointer, q ≠ id →
        ((c2.storage.entry? q).map fun x => (x.key, x.timestamp, x.data)) =
        ((c.storage.entry? q).map fun x => (x.key, x.timestamp, x.data))) := by
  obtain ⟨hdll, hhead, htail, hnodup, hlen, hocc, hmaplen, hkeymap,
    hmapsto, hkeysnodup, hshape, hcap⟩ := WF_fields W
  have hputeq : c.storage.put now k v0 = c.storage.insertNew now k v0 :=
    storage_put_fresh_eq now c.storage k v0 hfresh
  obtain ⟨id, s3, hins, hid0, hidnull, hid2, hdll2, hnodup2, hhead2, htail2,
    hcap2, hlen2, htimeout2, hocc2, hshape2, hcapgrow, hpay2, hkey2⟩ :=
    insertNew_spec now c.storage ord k v0 hdll hnodup hhead htail hshape hcap
  have hidnotin : id ∉ ord := by
    intro hmem
    have := dll_mem_isSome hdll hmem
    rw [hid0] at this
    simp at this
  set m2 := insertKey c.map k id with hm2def
  have hcompput : c.put now k v0 = some (none, ⟨s3, m2⟩) := by
    simp only [Cache.put]
    rw [hlk, hputeq]
    simp only [hins]
  refine ⟨id, ⟨s3, m2⟩, hcompput, ?_, hid0, hidnull, hidnotin, hhead2, rfl,
    ?_, ?_, ?_, hcap2, htimeout2, hid2, hpay2⟩
  · refine ⟨hdll2, ?_, htail2, hnodup2, ?_, ?_, ?_, ?_, ?_, ?_, ?_, ?_⟩
    · show s3.head = (id :: ord).headD Pointer.null
      rw [hhead2]
      rfl
    · show s3.len = (id :: ord).length
      rw [hlen2, hlen]
      rfl
    · show totalOcc s3 = s3.len
      rw [hocc2, hlen2, hocc]
    · show m2.length = (id :: ord).length
      rw [hm2def, length_insertKey_of_none hlk, hmaplen]
      rfl
    · intro q hq
      show ((s3.entry? q).bind fun e2 => lookupKey m2 e2.key) = some q
      rcases List.mem_cons.mp hq with rfl | hq2
      · rw [hid2]
        simp only [Option.some_bind]
        rw [show (Entry.new now k v0 c.storage.head Pointer.null).key = k
          from rfl, hm2def, lookupKey_insertKey_self]
      · have hqid : q ≠ id := fun he => hidnotin (he ▸ hq2)
        have h := hkeymap q hq2
        have hk2 := hkey2 q hqid
        cases hx : s3.entry? q with
        | none =>
          rw [hx] at hk2
          cases hy : c.storage.entry? q with
          | none => rw [hy] at h; simp at h
          | some _ => rw [hy] at hk2; simp at hk2
        | some w1 =>
          rw [hx] at hk2
          cases hy : c.storage.entry? q with
          | none => rw [hy] at hk2; simp at hk2
          | some w2 =>
            rw [hy] at hk2
            simp only [Option.map_some', Option.some_inj] at hk2
            rw [hy] at h
            simp only [Option.some_bind] at h ⊢
            have hwk : w2.key ≠ k := by
              intro he
              rw [he, hlk] at h
              cases h
            rw [hk2, hm2def, lookupKey_insertKey_ne hwk]
            exact h
    · intro kv hkv
      rcases mem_insertKey.mp hkv with hkv1 | ⟨hkvm, hkvne⟩
      · subst hkv1
        refine ⟨?_, List.mem_cons_self _ _⟩
        show (s3.entry? id).map Entry.key = some k
        rw [hid2]
        rfl
      · obtain ⟨h1, h2⟩ := hmapsto kv hkvm
        have hkvid : kv.2 ≠ id := fun he => hidnotin (he ▸ h2)
        refine ⟨?_, List.mem_cons_of_mem _ h2⟩
        show (s3.entry? kv.2).map Entry.key = some kv.1
        rw [hkey2 kv.2 hkvid]
        exact h1
    · show (m2.map Prod.fst).Nodup
      rw [hm2def]
      exact keys_nodup_insertKey hkeysnodup
    · intro o ho
      rcases hshape2 o ho with h | h
      · exact Or.inl h
      · right
        rw [h, hcap2]
    · show 0 < s3.cap
      rw [hcap2]
      exact hcap
  · show lookupKey m2 k = some id
    rw [hm2def, lookupKey_insertKey_self]
  · show m2.length = c.map.length + 1
    rw [hm2def, length_insertKey_of_none hlk]
  · exact hcapgrow

/-- Every recency order splits into a prefix and a fully-expired suffix
such that the walk of `Storage::evict` stops exactly at the border. -/
theorem expired_split (now : Nat) (s : Storage K V) :
    ∀ ord : List Pointer, ∃ keep drop : List Pointer,
      ord = keep ++ drop ∧
      (∀ p ∈ drop, ∃ e : Entry K V, s.entry? p = some e ∧
        e.timestamp + s.timeout_secs ≤ now) ∧
      (∀ e : Entry K V, s.entry? (keep.getLastD Pointer.null) = some e →
        ¬ e.timestamp + s.timeout_secs ≤ now) := by
  intro ord
  induction ord using List.reverseRecOn with
  | nil =>
    refine ⟨[], [], rfl, by simp, ?_⟩
    intro e he
    exact Option.noConfusion he
  | append_singleton l p ih =>
    obtain ⟨keep, drop, heq, hdrop, hkeep⟩ := ih
    by_cases hQ : ∃ e : Entry K V, s.entry? p = some e ∧
      e.timestamp + s.timeout_secs ≤ now
    · refine ⟨keep, drop ++ [p], by rw [heq, List.append_assoc], ?_, hkeep⟩
      intro q hq
      rcases List.mem_append.mp hq with h | h
      · exact hdrop q h
      · rw [List.mem_singleton] at h
        subst h
        exact hQ
    · refine ⟨l ++ [p], [], by rw [List.append_nil], by simp, ?_⟩
      intro e he hexp
      rw [getLastD_concat] at he
      exact hQ ⟨e, he, hexp⟩

/-- Totality of one public operation on a well-formed cache: the model
never hits a panic path, well-formedness is preserved, and the segment
unit `cap` never changes. -/
theorem cache_step_total (c : Cache K V) (ord : List Pointer) (W : WF c ord)
    (op : Op K V) :
    ∃ (c2 : Cache K V) (ord2 : List Pointer),
      c.step op = some c2 ∧ WF c2 ord2 ∧ c2.storage.cap = c.storage.cap := by
  cases op with
  | get now k =>
    obtain ⟨r, c2, ord2, hrun, W2, -, -, hcap2, -⟩ := cache_get_spec now c ord k W
    exact ⟨c2, ord2, by simp [Cache.step, hrun], W2, hcap2⟩
  | put now k v =>
    cases hlk : lookupKey c.map k with
    | some p =>
      obtain ⟨e, c2, ord2, hrun, -, -, W2, -, -, -, -, -, -, hcap2, -⟩ :=
        cache_put_update_spec now c ord k v p W hlk
      exact ⟨c2, ord2, by simp [Cache.step, hrun], W2, hcap2⟩
    | none =>
      by_cases htn : c.storage.tail.is_null = true
      · obtain ⟨id, c2, hrun, W2, -, -, -, -, -, -, -, -, hcap2, -⟩ :=
          cache_put_fresh_spec now c ord k v W hlk (Or.inl htn)
        exact ⟨c2, id :: ord, by simp [Cache.step, hrun], W2, hcap2⟩
      · have htnn : c.storage.tail ≠ Pointer.null := by
          intro he
          exact htn (by rw [he]; rfl)
        have hne : ord ≠ [] := by
          intro he
          exact htnn (by rw [W.htail, he]; rfl)
        have htmem : c.storage.tail ∈ ord := by
          rw [W.htail]
          cases ord with
          | nil => exact absurd rfl hne
          | cons o os => exact getLastD_cons_mem o os Pointer.null
        have hte : (c.storage.entry? c.storage.tail).isSome = true :=
          dll_mem_isSome W.hdll htmem
        cases het : c.storage.entry? c.storage.tail with
        | none => rw [het] at hte; simp at hte
        | some et =>
          by_cases hexp : et.timestamp + c.storage.timeout_secs ≤ now
          · obtain ⟨c2, ord2, hrun, W2, -, -, -, -, -, -, -, -, hcap2, -⟩ :=
              cache_put_reuse_spec now c ord k v et W hlk hne het hexp
            exact ⟨c2, ord2, by simp [Cache.step, hrun], W2, hcap2⟩
          · obtain ⟨id, c2, hrun, W2, -, -, -, -, -, -, -, -, hcap2, -⟩ :=
              cache_put_fresh_spec now c ord k v W hlk (Or.inr ⟨et, het, hexp⟩)
            exact ⟨c2, id :: ord, by simp [Cache.step, hrun], W2, hcap2⟩
  | evict now =>
    obtain ⟨keep, drop, heq, hdrop, hkeep⟩ :=
      expired_split now c.storage ord
    obtain ⟨c2, hrun, W2, -, -, -, -, hcap2, -⟩ :=
      cache_evict_spec now c keep drop (heq ▸ W) hdrop hkeep
    exact ⟨c2, keep, by simp [Cache.step, hrun], W2, hcap2⟩

/-- Totality of any operation sequence from a well-formed state. -/
theorem cache_run_total (ops : List (Op K V)) :
    ∀ (c : Cache K V) (ord : List Pointer), WF c ord →
    ∃ (c2 : Cache K V) (ord2 : List Pointer),
      c.run ops = some c2 ∧ WF c2 ord2 ∧ c2.storage.cap = c.storage.cap := by
  induction ops with
  | nil => exact fun c ord W => ⟨c, ord, rfl, W, rfl⟩
  | cons op ops ih =>
    intro c ord W
    obtain ⟨c1, ord1, hstep, W1, hc1⟩ := cache_step_total c ord W op
    obtain ⟨c2, ord2, hrun, W2, hc2⟩ := ih c1 ord1 W1
    refine ⟨c2, ord2, ?_, W2, hc2.trans hc1⟩
    show Cache.run c (op :: ops) = some c2
    simp only [Cache.run, hstep]
    exact hrun

/-- The freshly constructed cache is well-formed over the empty order. -/
theorem WF_new (U T : Nat) (hU : 0 < U) :
    WF (⟨Storage.new U T, []⟩ : Cache K V) [] := by
  refine ⟨trivial, rfl, rfl, List.nodup_nil, rfl, ?_, rfl, ?_, ?_, ?_, ?_, hU⟩
  · show totalOcc (Storage.new U T) = 0
    show slabsOcc [some (List.replicate U none)] = 0
    simp [slabsOcc, segOccupied, List.countP_eq_zero]
  · intro p hp
    simp at hp
  · intro kv hkv
    simp at hkv
  · simp [List.nodup_nil]
  · intro o ho
    show o = none ∨ o = some U
    have : segShape (Storage.new U T : Storage K V)
        = [some U] := by
      show slabsShape [some (List.replicate U none)] = [some U]
      simp [slabsShape]
    rw [this] at ho
    simp at ho
    exact Or.inr ho

/-- Occupancy never exceeds capacity, segment by segment. -/
theorem slabsOcc_le_cap (slabs : List (Option (Seg K V))) :
    slabsOcc slabs ≤ (slabs.map segCap).sum := by
  induction slabs with
  | nil => exact Nat.le_refl _
  | cons o l ih =>
    simp only [slabsOcc, List.map_cons, List.sum_cons] at ih ⊢
    have h : segOccupied (o.getD []) ≤ segCap o := by
      cases o with
      | none => exact Nat.zero_le _
      | some seg =>
        simp only [Option.getD_some, segCap, segOccupied]
        exact List.countP_le_length _
    omega

/-- A sum of `none`-or-`u` shapes is a multiple of `u`. -/
theorem shape_sum_multiple (u : Nat) :
    ∀ l : List (Option Nat), (∀ o ∈ l, o = none ∨ o = some u) →
    ∃ m, (l.map (fun o => o.getD 0)).sum = m * u := by
  intro l
  induction l with
  | nil => exact fun _ => ⟨0, by simp⟩
  | cons o l ih =>
    intro h
    obtain ⟨m, hm⟩ := ih (fun o2 ho2 => h o2 (List.mem_cons_of_mem _ ho2))
    rcases h o (List.mem_cons_self _ _) with rfl | rfl
    · exact ⟨m, by simpa using hm⟩
    · refine ⟨m + 1, ?_⟩
      simp only [List.map_cons, List.sum_cons, Option.getD_some, hm]
      ring

/-- Well-formedness over some order implies the specification invariants
I1-I6. -/
theorem WF_invariants (c : Cache K V) (ord : List Pointer) (U : Nat)
    (W : WF c ord) (hU : c.storage.cap = U) : CacheInvariants c U := by
  obtain ⟨hdll, hhead, htail, hnodup, hlen, hocc, hmaplen, hkeymap,
    hmapsto, hkeysnodup, hshape, hcap⟩ := WF_fields W
  have hwn : walkNext c.storage c.storage.len c.storage.head = ord := by
    rw [hlen, hhead]
    exact walkNext_of_dll hdll
  have hwp : walkPrev c.storage c.storage.len c.storage.tail = ord.reverse := by
    rw [hlen, htail]
    exact walkPrev_of_dll hdll
  have hmapord : c.map = [] ↔ ord = [] := by
    constructor
    · intro h
      have : ord.length = 0 := by rw [← hmaplen, h]; rfl
      exact List.length_eq_zero.mp this
    · intro h
      have : c.map.length = 0 := by rw [hmaplen, h]; rfl
      exact List.length_eq_zero.mp this
  refine ⟨⟨?_, ?_, ?_⟩, ⟨?_, ?_, ?_, ?_⟩, ⟨?_, ?_⟩, ?_, ?_, ⟨?_, ?_⟩⟩
  · constructor
    · intro h
      rw [hmapord]
      cases hor : ord with
      | nil => rfl
      | cons o os =>
        exfalso
        have hmem : o ∈ ord := by rw [hor]; exact List.mem_cons_self _ _
        have := dll_mem_ne_null hdll hmem
        rw [hhead, hor] at h
        exact this h
    · intro h
      rw [hhead, hmapord.mp h]
      rfl
  · constructor
    · intro h
      rw [hmapord]
      cases hor : ord with
      | nil => rfl
      | cons o os =>
        exfalso
        have hmem : ord.getLastD Pointer.null ∈ ord := by
          rw [hor]
          exact getLastD_cons_mem ..
        have := dll_mem_ne_null hdll hmem
        rw [htail] at h
        exact this h
    · intro h
      rw [htail, hmapord.mp h]
      rfl
  · show c.map.length = 0 ↔ c.map = []
    exact List.length_eq_zero
  · show (walkNext c.storage c.storage.len c.storage.head).length = c.map.length
    rw [hwn, hmaplen]
  · rw [hwn]
    exact hnodup
  · rw [hwn]
    exact htail.symm
  · rw [hwp, hwn]
  · intro p hp
    rw [hwn] at hp
    exact hkeymap p hp
  · intro kv hkv kv2 hkv2 he
    have h1 := (hmapsto kv hkv).1
    have h2 := (hmapsto kv2 hkv2).1
    rw [he, h2] at h1
    exact (Option.some_inj.mp h1).symm
  · intro kv hkv
    have h1 := (hmapsto kv hkv).1
    cases hx : c.storage.entry? kv.2 with
    | none => rw [hx] at h1; simp at h1
    | some _ => rfl
  · intro hm
    have hone : ord ≠ [] := fun h => hm (hmapord.mpr h)
    constructor
    · cases hor : ord with
      | nil => exact absurd hor hone
      | cons o os =>
        rw [hor, dll_cons] at hdll
        rw [hhead, hor]
        exact hdll.1
    · rcases eq_nil_or_append_singleton ord with h | ⟨u, w, h⟩
      · exact absurd h hone
      · rw [h, dll_append] at hdll
        have hd2 := hdll.2
        rw [dll_cons] at hd2
        rw [htail, h, getLastD_concat]
        exact hd2.2.1
  · show c.map.length ≤ c.storage.capacity
    rw [hmaplen, ← hlen, ← hocc]
    exact slabsOcc_le_cap c.storage.slabs
  · show ∃ m, c.storage.capacity = m * U
    rw [capacity_eq_shape]
    refine shape_sum_multiple U (segShape c.storage) ?_
    intro o ho
    rw [← hU]
    exact hshape o ho

/-- C4: after construction and any sequence of `put`/`get`/`evict`
operations, the run succeeds and the invariants I1-I6 of the specification
hold: head/tail/map emptiness agree, the `next` walk from the head visits
exactly `len` nodes without revisits ending at the tail with the `prev`
walk its reverse, each node's key maps to exactly its handle and no two
map entries share a handle, every mapped handle is live, the end nodes
point to null outward, and `len ≤ capacity` with `capacity` a multiple of
the construction unit `U`. -/
theorem run_from_new_satisfies_invariants (U T : Nat) (c0 : Cache K V)
    (ops : List (Op K V)) (h0 : Cache.new U T = some c0) :
    ∃ c : Cache K V, c0.run ops = some c ∧ CacheInvariants c U := by
  have hU : ¬ U = 0 := by
    intro h
    rw [Cache.new, if_pos h] at h0
    cases h0
  have hc0 : c0 = ⟨Storage.new U T, []⟩ := by
    rw [Cache.new, if_neg hU] at h0
    exact (Option.some_inj.mp h0).symm
  subst hc0
  obtain ⟨c, ord, hrun, W, hcap⟩ :=
    cache_run_total ops ⟨Storage.new U T, []⟩ []
      (WF_new U T (Nat.pos_of_ne_zero hU))
  refine ⟨c, hrun, WF_invariants c ord U W ?_⟩
  rw [hcap]
  rfl

theorem run_from_new_satisfies_invariants_witness :
    ∃ c : Cache Nat Nat,
      Cache.run (⟨Storage.new 2 1, []⟩ : Cache Nat Nat)
        [Op.put 10 1 5, Op.get 11 1, Op.put 11 2 6, Op.put 11 1 7,
         Op.put 14 3 8, Op.evict 15] = some c ∧
      CacheInvariants c 2 :=
  run_from_new_satisfies_invariants 2 1 ⟨Storage.new 2 1, []⟩
    [Op.put 10 1 5, Op.get 11 1, Op.put 11 2 6, Op.put 11 1 7,
     Op.put 14 3 8, Op.evict 15] rfl

/-- The allocation scan returns the first segment (in id order) that still
has a free slot: every live segment with a smaller id is full. -/
theorem findFreeSlab_min :
    ∀ (slabs : List (Option (Seg K V))) (n i : Nat),
      findFreeSlab n slabs = some i →
      ∀ j, n ≤ j → j < i → ∀ seg : Seg K V,
        slabs.get? (j - n) = some (some seg) →
        ¬ segOccupied seg < seg.length := by
  intro slabs
  induction slabs with
  | nil => intro n i h; simp [findFreeSlab] at h
  | cons o rest ih =>
    intro n i h j hnj hji seg hseg
    cases o with
    | none =>
      simp only [findFreeSlab] at h
      rcases Nat.eq_or_lt_of_le hnj with rfl | hlt
      · rw [Nat.sub_self] at hseg
        simp at hseg
      · have hidx : j - n = (j - (n + 1)) + 1 := by omega
        rw [hidx] at hseg
        exact ih (n + 1) i h j hlt hji seg hseg
    | some seg0 =>
      simp only [findFreeSlab] at h
      by_cases hfree : segOccupied seg0 < seg0.length
      · rw [if_pos hfree, Option.some_inj] at h
        omega
      · rw [if_neg hfree] at h
        rcases Nat.eq_or_lt_of_le hnj with rfl | hlt
        · rw [Nat.sub_self] at hseg
          simp only [List.get?] at hseg
          cases hseg
          exact hfree
        · have hidx : j - n = (j - (n + 1)) + 1 := by omega
          rw [hidx] at hseg
          exact ih (n + 1) i h j hlt hji seg hseg

/-- Post-hoc reading of a successful fresh insertion: the chosen handle is
an internal pointer `(i, j)` whose segment was either the first live
segment with a free slot, or — when every live segment was full — a brand
new segment of capacity `cap` placed at a segment id holding no live
segment. -/
theorem insertNew_alloc_spec (now : Nat) (s : Storage K V) (k : K) (v0 : V)
    (id : Pointer) (old : Option (K × V)) (s3 : Storage K V)
    (hcap : 0 < s.cap)
    (h : s.insertNew now k v0 = some ((id, old), s3)) :
    ∃ i j : Nat, id = Pointer.internalPointer i j ∧
      ((∃ seg : Seg K V, s.slabs.get? i = some (some seg) ∧
          segOccupied seg < seg.length ∧
          (∀ i2, i2 < i → ∀ seg2 : Seg K V,
            s.slabs.get? i2 = some (some seg2) →
            ¬ segOccupied seg2 < seg2.length)) ∨
       ((∀ i2 (seg2 : Seg K V), s.slabs.get? i2 = some (some seg2) →
           ¬ segOccupied seg2 < seg2.length) ∧
        (s.slabs.get? i = some none ∨ s.slabs.get? i = none) ∧
        (segShape s3).get? i = some (some s.cap))) := by
  cases hfs : findFreeSlab 0 s.slabs with
  | some i =>
    simp only [Storage.insertNew, Option.bind_eq_bind, Option.pure_def,
      hfs] at h
    cases hins : slabInsertEntry s.slabs i
        (Entry.new now k v0 s.head Pointer.null) with
    | none => rw [hins] at h; simp at h
    | some ins =>
      rw [hins, Option.some_bind] at h
      have hid : id = Pointer.internalPointer i ins.1 := by
        by_cases hb : s.head.is_null = true
        · rw [if_pos hb, Option.some_bind, Option.some_inj] at h
          have := congrArg (fun x => x.1.1) h
          exact this.symm
        · rw [if_neg hb] at h
          cases hmod : Storage.modifyEntry? { s with slabs := ins.2 } s.head
              (fun e => { e with prev := Pointer.internalPointer i ins.1 }) with
          | none => rw [hmod] at h; simp at h
          | some s2 =>
            rw [hmod, Option.some_bind, Option.some_inj] at h
            have := congrArg (fun x => x.1.1) h
            exact this.symm
      obtain ⟨-, seg, hseg, hfree⟩ := findFreeSlab_some_spec s.slabs 0 i hfs
      rw [Nat.sub_zero] at hseg
      refine ⟨i, ins.1, hid, Or.inl ⟨seg, hseg, hfree, ?_⟩⟩
      intro i2 hi2 seg2 hseg2
      have := findFreeSlab_min s.slabs 0 i hfs i2 (Nat.zero_le _) hi2 seg2
      rw [Nat.sub_zero] at this
      exact this hseg2
  | none =>
    have hfull := findFreeSlab_none_spec s.slabs 0 hfs
    simp only [Storage.insertNew, Option.bind_eq_bind, Option.pure_def,
      hfs] at h
    -- the fresh segment and its position
    have hnewlen : (List.replicate s.cap (none : Option (Entry K V))).length
        = s.cap := List.length_replicate ..
    cases hsv : slabVacant s.slabs with
    | some ix =>
      have hvac : s.slabs.get? ix = some none := slabVacant_spec s.slabs ix hsv
      have hlt : ix < s.slabs.length := get?_some_lt hvac
      simp only [slabInsert, hsv] at h
      have hget1 : (s.slabs.set ix
          (some (List.replicate s.cap none))).get? ix
          = some (some (List.replicate s.cap none)) := by
        rw [List.get?_set_eq_of_lt _ hlt]
      cases hins : slabInsertEntry (s.slabs.set ix
          (some (List.replicate s.cap none))) ix
          (Entry.new now k v0 s.head Pointer.null) with
      | none =>
        rw [hins] at h
        simp at h
      | some ins =>
        rw [hins, Option.some_bind] at h
        have hinsopen : ins = ((slabInsert (List.replicate s.cap none)
            (Entry.new now k v0 s.head Pointer.null)).1,
            (s.slabs.set ix (some (List.replicate s.cap none))).set ix
              (some (slabInsert (List.replicate s.cap none)
                (Entry.new now k v0 s.head Pointer.null)).2)) := by
          have h2 := hins
          simp only [slabInsertEntry, hget1] at h2
          exact (Option.some_inj.mp h2).symm
        have hseg1len : (slabInsert (List.replicate s.cap none)
            (Entry.new now k v0 s.head Pointer.null)).2.length = s.cap := by
          simp only [slabInsert]
          cases hsv2 : slabVacant (List.replicate s.cap
              (none : Option (Entry K V))) with
          | some jx =>
            simp only
            rw [List.length_set, hnewlen]
          | none =>
            exfalso
            have : 0 < s.cap := hcap
            cases hc : s.cap with
            | zero => omega
            | succ n =>
              rw [hc] at hsv2
              simp [List.replicate, slabVacant] at hsv2
        have hid : id = Pointer.internalPointer ix ins.1 ∧ s3.slabs = ins.2 ∨
            id = Pointer.internalPointer ix ins.1 ∧
              ∃ e2, s3.slabs = setSlot ins.2 s.head e2 := by
          by_cases hb : s.head.is_null = true
          · rw [if_pos hb, Option.some_bind, Option.some_inj] at h
            left
            constructor
            · have := congrArg (fun x => x.1.1) h
              exact this.symm
            · have := congrArg (fun x => x.2.slabs) h
              exact this.symm
          · rw [if_neg hb] at h
            cases hmod : Storage.modifyEntry? { s with slabs := ins.2 } s.head
                (fun e => { e with prev := Pointer.internalPointer ix ins.1 }) with
            | none => rw [hmod] at h; simp at h
            | some s2 =>
              rw [hmod, Option.some_bind, Option.some_inj] at h
              right
              refine ⟨?_, ?_⟩
              · have := congrArg (fun x => x.1.1) h
                exact this.symm
              · simp only [Storage.modifyEntry?] at hmod
                cases he : Storage.entry? { s with slabs := ins.2 } s.head with
                | none => rw [he] at hmod; simp at hmod
                | some e0 =>
                  rw [he] at hmod
                  simp only [Option.some_inj] at hmod
                  refine ⟨{ e0 with prev := Pointer.internalPointer ix ins.1 }, ?_⟩
                  have h2 := congrArg (fun x => x.2.slabs) h
                  simp only at h2
                  rw [← h2, ← hmod]
                  rfl
        have hshape3 : (segShape s3).get? ix = some (some s.cap) := by
          have hbase : (slabsShape ins.2).get? ix = some (some s.cap) := by
            rw [hinsopen]
            simp only [slabsShape]
            rw [List.get?_map, List.set_set, List.get?_set_eq_of_lt _ hlt]
            simp [hseg1len]
          rcases hid with ⟨-, hsl⟩ | ⟨-, e2, hsl⟩
          · show (slabsShape s3.slabs).get? ix = some (some s.cap)
            rw [hsl]
            exact hbase
          · show (slabsShape s3.slabs).get? ix = some (some s.cap)
            rw [hsl, slabsShape_setSlot]
            exact hbase
        rcases hid with ⟨hid1, -⟩ | ⟨hid1, -⟩ <;>
          exact ⟨ix, ins.1, hid1, Or.inr ⟨fun i2 seg2 hs2 => hfull i2 seg2 hs2,
            Or.inl hvac, hshape3⟩⟩
    | none =>
      simp only [slabInsert, hsv] at h
      have hvac : s.slabs.get? s.slabs.length = none :=
        List.get?_eq_none.mpr (Nat.le_refl _)
      have hget1 : (s.slabs ++ [some (List.replicate s.cap none)]).get?
          s.slabs.length = some (some (List.replicate s.cap none)) := by
        rw [List.get?_append_right (Nat.le_refl _)]
        simp
      cases hins : slabInsertEntry (s.slabs ++
          [some (List.replicate s.cap none)]) s.slabs.length
          (Entry.new now k v0 s.head Pointer.null) with
      | none =>
        rw [hins] at h
        simp at h
      | some ins =>
        rw [hins, Option.some_bind] at h
        have hinsopen : ins = ((slabInsert (List.replicate s.cap none)
            (Entry.new now k v0 s.head Pointer.null)).1,
            (s.slabs ++ [some (List.replicate s.cap none)]).set s.slabs.length
              (some (slabInsert (List.replicate s.cap none)
                (Entry.new now k v0 s.head Pointer.null)).2)) := by
          have h2 := hins
          simp only [slabInsertEntry, hget1] at h2
          exact (Option.some_inj.mp h2).symm
        have hseg1len : (slabInsert (List.replicate s.cap none)
            (Entry.new now k v0 s.head Pointer.null)).2.length = s.cap := by
          simp only [slabInsert]
          cases hsv2 : slabVacant (List.replicate s.cap
              (none : Option (Entry K V))) with
          | some jx =>
            simp only
            rw [List.length_set, hnewlen]
          | none =>
            exfalso
            cases hc : s.cap with
            | zero => omega
            | succ n =>
              rw [hc] at hsv2
              simp [List.replicate, slabVacant] at hsv2
        have hid : id = Pointer.internalPointer s.slabs.length ins.1 ∧
              s3.slabs = ins.2 ∨
            id = Pointer.internalPointer s.slabs.length ins.1 ∧
              ∃ e2, s3.slabs = setSlot ins.2 s.head e2 := by
          by_cases hb : s.head.is_null = true
          · rw [if_pos hb, Option.some_bind, Option.some_inj] at h
            left
            constructor
            · have := congrArg (fun x => x.1.1) h
              exact this.symm
            · have := congrArg (fun x => x.2.slabs) h
              exact this.symm
          · rw [if_neg hb] at h
            cases hmod : Storage.modifyEntry? { s with slabs := ins.2 } s.head
                (fun e => { e with prev :=
                  Pointer.internalPointer s.slabs.length ins.1 }) with
            | none => rw [hmod] at h; simp at h
            | some s2 =>
              rw [hmod, Option.some_bind, Option.some_inj] at h
              right
              refine ⟨?_, ?_⟩
              · have := congrArg (fun x => x.1.1) h
                exact this.symm
              · simp only [Storage.modifyEntry?] at hmod
                cases he : Storage.entry? { s with slabs := ins.2 } s.head with
                | none => rw [he] at hmod; simp at hmod
                | some e0 =>
                  rw [he] at hmod
                  simp only [Option.some_inj] at hmod
                  refine ⟨{ e0 with prev :=
                    Pointer.internalPointer s.slabs.length ins.1 }, ?_⟩
                  have h2 := congrArg (fun x => x.2.slabs) h
                  simp only at h2
                  rw [← h2, ← hmod]
                  rfl
        have hlt2 : s.slabs.length
            < (s.slabs ++ [some (List.replicate s.cap none)]).length := by
          simp
        have hshape3 : (segShape s3).get? s.slabs.length
            = some (some s.cap) := by
          have hbase : (slabsShape ins.2).get? s.slabs.length
              = some (some s.cap) := by
            rw [hinsopen]
            simp only [slabsShape]
            rw [List.get?_map, List.get?_set_eq_of_lt _ hlt2]
            simp [hseg1len]
          rcases hid with ⟨-, hsl⟩ | ⟨-, e2, hsl⟩
          · show (slabsShape s3.slabs).get? s.slabs.length = some (some s.cap)
            rw [hsl]
            exact hbase
          · show (slabsShape s3.slabs).get? s.slabs.length = some (some s.cap)
            rw [hsl, slabsShape_setSlot]
            exact hbase
        rcases hid with ⟨hid1, -⟩ | ⟨hid1, -⟩ <;>
          exact ⟨s.slabs.length, ins.1, hid1,
            Or.inr ⟨fun i2 seg2 hs2 => hfull i2 seg2 hs2,
              Or.inr hvac, hshape3⟩⟩

/-- The two-entry witness cache is well-formed with recency order
`[(0,1), (0,0)]`. -/
theorem WF_twoEntryCache :
    WF twoEntryCache
      [Pointer.internalPointer 0 1, Pointer.internalPointer 0 0] :=
  ⟨by decide, by decide, by decide, by decide, by decide, by decide,
   by decide, by decide, by decide, by decide, by decide, by decide⟩

/-- C2: `put(k, v)` with `k` absent from the key map, a live tail, and
`now - tail.timestamp ≥ T` overwrites the tail in place: the tail's old
key is removed from the map, the node is promoted to the head, its key and
value are replaced and its timestamp refreshed, `(k, handle)` is inserted
into the map, the old value is returned, and `len`/`capacity` are
unchanged. -/
theorem put_absent_key_reuses_expired_tail (now : Nat) (c : Cache K V)
    (ord : List Pointer) (k : K) (v0 : V) (et : Entry K V) (W : WF c ord)
    (hlk : lookupKey c.map k = none) (hne : ord ≠ [])
    (het : c.storage.entry? c.storage.tail = some et)
    (hexp : et.timestamp + c.storage.timeout_secs ≤ now) :
    ∃ (c2 : Cache K V) (ord2 : List Pointer),
      c.put now k v0 = some (some et.data, c2) ∧
      WF c2 ord2 ∧ ord2.Perm ord ∧
      c2.storage.head = c.storage.tail ∧
      ord2.headD Pointer.null = c.storage.tail ∧
      lookupKey c2.map et.key = none ∧
      lookupKey c2.map k = some c.storage.tail ∧
      (∃ e3 : Entry K V, c2.storage.entry? c.storage.tail = some e3 ∧
        e3.key = k ∧ e3.data = v0 ∧ e3.timestamp = now) ∧
      c2.len = c.len ∧ c2.capacity = c.capacity := by
  obtain ⟨c2, ord2, h1, h2, h3, h4, h5, -, h7, h8, h9, h10, -, -, h13, -⟩ :=
    cache_put_reuse_spec now c ord k v0 et W hlk hne het hexp
  exact ⟨c2, ord2, h1, h2, h3, h5, h4, h7, h8, h13, h9, h10⟩

theorem put_absent_key_reuses_expired_tail_witness :
    lookupKey twoEntryCache.map 3 = none ∧
    twoEntryCache.storage.entry? twoEntryCache.storage.tail
      = some { key := 1, timestamp := 0, data := 10, next := Pointer.null,
               prev := Pointer.internalPointer 0 1 } ∧
    (∃ (c2 : Cache Nat Nat) (ord2 : List Pointer),
      twoEntryCache.put 1 3 30 = some (some 10, c2) ∧
      WF c2 ord2 ∧ lookupKey c2.map 1 = none ∧
      lookupKey c2.map 3 = some twoEntryCache.storage.tail ∧
      c2.len = twoEntryCache.len ∧ c2.capacity = twoEntryCache.capacity) := by
  refine ⟨by decide, by decide, ?_⟩
  obtain ⟨c2, ord2, h1, h2, -, -, -, h7, h8, -, h9, h10⟩ :=
    put_absent_key_reuses_expired_tail 1 twoEntryCache
      [Pointer.internalPointer 0 1, Pointer.internalPointer 0 0] 3 30
      { key := 1, timestamp := 0, data := 10, next := Pointer.null,
        prev := Pointer.internalPointer 0 1 }
      WF_twoEntryCache (by decide) (by decide) (by decide) (by decide)
  exact ⟨c2, ord2, h1, h2, h7, h8, h9, h10⟩

/-- C5: `put(k, v2)` on a key already present overwrites the value at the
key's existing handle, refreshes its timestamp, promotes the node to the
head, and returns `Some` of the previous value; a subsequent `get(k)`
yields `v2`. -/
theorem put_existing_key_updates_and_returns_old (now now2 : Nat)
    (c : Cache K V) (ord : List Pointer) (k : K) (v2 : V) (p : Pointer)
    (W : WF c ord) (hlk : lookupKey c.map k = some p) :
    ∃ (e : Entry K V) (c2 : Cache K V) (ord2 : List Pointer),
      c.put now k v2 = some (some e.data, c2) ∧
      c.storage.entry? p = some e ∧ e.key = k ∧
      WF c2 ord2 ∧ c2.storage.head = p ∧ ord2.headD Pointer.null = p ∧
      (∃ e3 : Entry K V, c2.storage.entry? p = some e3 ∧ e3.key = k ∧
        e3.data = v2 ∧ e3.timestamp = now) ∧
      (∃ c3 : Cache K V, c2.get now2 k = some (some v2, c3)) := by
  obtain ⟨e, c2, ord2, hput, hep, hek, W2, hperm, hh2, hmap2, hhead2, hlen2,
    hcap2, hcapst, htim, he3x, hpay⟩ :=
    cache_put_update_spec now c ord k v2 p W hlk
  obtain ⟨e3, he3, he3k, he3d, he3t⟩ := he3x
  obtain ⟨r, c3, ord3, hget, W3, hperm3, hmap3, -, -, -, hmiss, hhit⟩ :=
    cache_get_spec now2 c2 ord2 k W2
  have hlk2 : lookupKey c2.map k = some p := by rw [hmap2]; exact hlk
  obtain ⟨e', hpe', hre', -, -, -, -⟩ := hhit p hlk2
  have hee : e' = e3 := by
    rw [he3] at hpe'
    exact (Option.some_inj.mp hpe').symm
  refine ⟨e, c2, ord2, hput, hep, hek, W2, hhead2, hh2,
    ⟨e3, he3, he3k, he3d, he3t⟩, ⟨c3, ?_⟩⟩
  rw [hget, hre', hee, he3d]

theorem put_existing_key_updates_and_returns_old_witness :
    lookupKey twoEntryCache.map 1 = some (Pointer.internalPointer 0 0) ∧
    (∃ (e : Entry Nat Nat) (c2 : Cache Nat Nat) (ord2 : List Pointer),
      twoEntryCache.put 1 1 99 = some (some e.data, c2) ∧
      twoEntryCache.storage.entry? (Pointer.internalPointer 0 0) = some e ∧
      WF c2 ord2 ∧ c2.storage.head = Pointer.internalPointer 0 0 ∧
      (∃ e3 : Entry Nat Nat,
        c2.storage.entry? (Pointer.internalPointer 0 0) = some e3 ∧
        e3.key = 1 ∧ e3.data = 99 ∧ e3.timestamp = 1) ∧
      (∃ c3 : Cache Nat Nat, c2.get 2 1 = some (some 99, c3))) := by
  refine ⟨by decide, ?_⟩
  obtain ⟨e, c2, ord2, h1, h2, -, h4, h5, -, h7, h8⟩ :=
    put_existing_key_updates_and_returns_old 1 2 twoEntryCache
      [Pointer.internalPointer 0 1, Pointer.internalPointer 0 0] 1 99
      (Pointer.internalPointer 0 0) WF_twoEntryCache (by decide)
  exact ⟨e, c2, ord2, h1, h2, h4, h5, h7, h8⟩

/-- C3: `evict()` removes every entry expired at the moment the sweep
begins (the expired set forming the tail suffix `drop` of the recency
order): each such node is unlinked, its key leaves the map and its slot is
freed, and every segment whose live count reaches zero is removed — so
with every entry expired, `len` and `capacity` both drop to zero.  The
storage half of the sweep is modelled from the spec (its body is not under
`src/`). -/
theorem evict_removes_all_expired (now : Nat) (c : Cache K V)
    (keep drop : List Pointer) (W : WF c (keep ++ drop))
    (hexpd : ∀ p ∈ drop, ∃ e : Entry K V, c.storage.entry? p = some e ∧
      e.timestamp + c.storage.timeout_secs ≤ now)
    (hkeepfresh : ∀ p ∈ keep, ∀ e : Entry K V, c.storage.entry? p = some e →
      ¬ e.timestamp + c.storage.timeout_secs ≤ now) :
    ∃ c2 : Cache K V, Cache.evict now c = some c2 ∧ WF c2 keep ∧
      c2.len = keep.length ∧
      (∀ p ∈ drop, c2.storage.entry? p = none) ∧
      (∀ p ∈ drop, ∀ e : Entry K V, c.storage.entry? p = some e →
        lookupKey c2.map e.key = none) ∧
      ((keep = [] ∧ drop ≠ []) → c2.len = 0 ∧ c2.capacity = 0) := by
  have hstop : ∀ e : Entry K V,
      c.storage.entry? (keep.getLastD Pointer.null) = some e →
      ¬ e.timestamp + c.storage.timeout_secs ≤ now := by
    intro e he
    cases hk : keep with
    | nil =>
      rw [hk] at he
      exact absurd he (by simp [Storage.entry?, slotGet?])
    | cons k0 kr =>
      have hmem : keep.getLastD Pointer.null ∈ keep := by
        rw [hk]
        exact getLastD_cons_mem ..
      exact hkeepfresh _ hmem e he
  obtain ⟨c2, hrun, W2, hlen2, hcap0, hframe, hnone, -, -⟩ :=
    cache_evict_spec now c keep drop W hexpd hstop
  refine ⟨c2, hrun, W2, hlen2, hnone, ?_, ?_⟩
  · intro p hp e he
    cases hlp : lookupKey c2.map e.key with
    | none => rfl
    | some q =>
      exfalso
      have hmemq := lookupKey_mem hlp
      obtain ⟨hq1, hq2⟩ := W2.hmapsto (e.key, q) hmemq
      -- the surviving node q carries the key of the dropped node p
      have hpayq := hframe q hq2
      have hq1s : (c.storage.entry? q).map Entry.key = some e.key := by
        cases hx : c2.storage.entry? q with
        | none => rw [hx] at hq1; simp at hq1
        | some w1 =>
          rw [hx] at hq1 hpayq
          cases hy : c.storage.entry? q with
          | none => rw [hy] at hpayq; simp at hpayq
          | some w2 =>
            rw [hy] at hpayq
            simp only [Option.map_some', Option.some_inj,
              Prod.mk.injEq] at hpayq hq1 ⊢
            rw [← hpayq.1]
            exact hq1
      -- both p and q would answer to the same key in the original map
      have hkp := W.hkeymap p (List.mem_append_right _ hp)
      have hkq := W.hkeymap q (List.mem_append_left _ hq2)
      rw [he] at hkp
      simp only [Option.some_bind] at hkp
      cases hy : c.storage.entry? q with
      | none => rw [hy] at hq1s; simp at hq1s
      | some w2 =>
        rw [hy] at hq1s hkq
        simp only [Option.map_some', Option.some_inj] at hq1s
        simp only [Option.some_bind] at hkq
        rw [hq1s, hkp] at hkq
        have hqp : q = p := Option.some_inj.mp hkq.symm
        have hnd := W.hnodup
        rw [List.nodup_append] at hnd
        exact hnd.2.2 hq2 (hqp ▸ hp)
  · rintro ⟨hk0, hd0⟩
    refine ⟨?_, hcap0 ⟨hk0, hd0⟩⟩
    rw [hlen2, hk0]
    rfl

theorem evict_removes_all_expired_witness :
    (∃ c2 : Cache Nat Nat, Cache.evict 5 twoEntryCache = some c2 ∧
      WF c2 [] ∧ c2.len = 0 ∧ c2.capacity = 0 ∧
      c2.storage.entry? (Pointer.internalPointer 0 0) = none ∧
      c2.storage.entry? (Pointer.internalPointer 0 1) = none ∧
      lookupKey c2.map 1 = none ∧ lookupKey c2.map 2 = none) := by
  obtain ⟨c2, hrun, W2, hlen2, hnone, hkeys, himp⟩ :=
    evict_removes_all_expired 5 twoEntryCache []
      [Pointer.internalPointer 0 1, Pointer.internalPointer 0 0]
      WF_twoEntryCache
      (by intro p hp
          rcases List.mem_cons.mp hp with rfl | hp2
          · exact ⟨{ key := 2, timestamp := 0, data := 20, next := Pointer.internalPointer 0 0, prev := Pointer.null }, by decide, by decide⟩
          · rcases List.mem_cons.mp hp2 with rfl | hp3
            · exact ⟨{ key := 1, timestamp := 0, data := 10, next := Pointer.null, prev := Pointer.internalPointer 0 1 }, by decide, by decide⟩
            · exact absurd hp3 (List.not_mem_nil p))
      (fun p hp => absurd hp (List.not_mem_nil p))
  obtain ⟨hl0, hc0⟩ := himp ⟨rfl, by decide⟩
  refine ⟨c2, hrun, W2, hl0, hc0, ?_, ?_, ?_, ?_⟩
  · exact hnone (Pointer.internalPointer 0 0) (by decide)
  · exact hnone (Pointer.internalPointer 0 1) (by decide)
  · exact hkeys (Pointer.internalPointer 0 0) (by decide)
      { key := 1, timestamp := 0, data := 10, next := Pointer.null, prev := Pointer.internalPointer 0 1 } (by decide)
  · exact hkeys (Pointer.internalPointer 0 1) (by decide)
      { key := 2, timestamp := 0, data := 20, next := Pointer.internalPointer 0 0, prev := Pointer.null } (by decide)

/-- C6: when `put(k, v)` inserts a brand-new node (k absent and no expired
tail to reuse), the allocation scans segments in id order and uses the
first one with a free slot; when every live segment is full a new segment
of capacity `cap` is placed at a segment id holding no live segment.  The
node is initialised with `k`, `v` and the current time, pushed to the head
of the recency list, bound in the map, and the call returns absent. -/
theorem put_fresh_first_fit_allocation (now : Nat) (c : Cache K V)
    (ord : List Pointer) (k : K) (v0 : V) (W : WF c ord)
    (hlk : lookupKey c.map k = none)
    (hfresh : c.storage.tail.is_null = true ∨
      ∃ et : Entry K V, c.storage.entry? c.storage.tail = some et ∧
        ¬ (et.timestamp + c.storage.timeout_secs ≤ now)) :
    ∃ (i j : Nat) (c2 : Cache K V),
      c.put now k v0 = some (none, c2) ∧
      WF c2 (Pointer.internalPointer i j :: ord) ∧
      c.storage.entry? (Pointer.internalPointer i j) = none ∧
      Pointer.internalPointer i j ∉ ord ∧
      c2.storage.head = Pointer.internalPointer i j ∧
      lookupKey c2.map k = some (Pointer.internalPointer i j) ∧
      c2.storage.entry? (Pointer.internalPointer i j)
        = some (Entry.new now k v0 c.storage.head Pointer.null) ∧
      ((∃ seg : Seg K V, c.storage.slabs.get? i = some (some seg) ∧
          segOccupied seg < seg.length ∧
          (∀ i2, i2 < i → ∀ seg2 : Seg K V,
            c.storage.slabs.get? i2 = some (some seg2) →
            ¬ segOccupied seg2 < seg2.length)) ∨
       ((∀ i2 (seg2 : Seg K V), c.storage.slabs.get? i2 = some (some seg2) →
           ¬ segOccupied seg2 < seg2.length) ∧
        (c.storage.slabs.get? i = some none ∨ c.storage.slabs.get? i = none) ∧
        (segShape c2.storage).get? i = some (some c.storage.cap))) := by
  obtain ⟨id, c2, hput, W2, hid0, hidnull, hidnot, hhead2, hmap2, hlkk,
    hlen2, hcapg, hcap2, htime2, hentry, hframe⟩ :=
    cache_put_fresh_spec now c ord k v0 W hlk hfresh
  have hputeq : c.storage.put now k v0 = c.storage.insertNew now k v0 :=
    storage_put_fresh_eq now c.storage k v0 hfresh
  cases hins : c.storage.insertNew now k v0 with
  | none =>
    exfalso
    simp only [Cache.put, hlk, hputeq, hins] at hput
    exact Option.noConfusion hput
  | some pr =>
    obtain ⟨⟨idx, oldp⟩, st⟩ := pr
    cases oldp with
    | some op =>
      exfalso
      simp only [Cache.put, hlk, hputeq, hins, Option.some_inj,
        Prod.mk.injEq] at hput
      exact Option.noConfusion hput.1
    | none =>
      simp only [Cache.put, hlk, hputeq, hins, Option.some_inj] at hput
      have hc2map : c2.map = insertKey c.map k idx := by
        have := congrArg (fun x => x.2.map) hput
        simp only at this
        exact this.symm
      have hc2st : c2.storage = st := by
        have := congrArg (fun x => x.2.storage) hput
        simp only at this
        exact this.symm
      have hidx : idx = id := by
        have h1 : insertKey c.map k idx = insertKey c.map k id := by
          rw [← hc2map, hmap2]
        have h2 := congrArg (fun l => l.headD (k, Pointer.null)) h1
        simp only [insertKey, List.headD_cons, Prod.mk.injEq] at h2
        exact h2.2
      subst hidx
      obtain ⟨i, j, hij, hpolicy⟩ :=
        insertNew_alloc_spec now c.storage k v0 idx none st W.hcap hins
      subst hij
      refine ⟨i, j, c2, ?_, ?_, ?_, ?_, ?_, ?_, ?_, ?_⟩
      · show c.put now k v0 = some (none, c2)
        simp only [Cache.put, hlk, hputeq, hins]
        rw [hput]
      · exact W2
      · exact hid0
      · exact hidnot
      · exact hhead2
      · exact hlkk
      · exact hentry
      · rcases hpolicy with h | ⟨h1, h2, h3⟩
        · exact Or.inl h
        · refine Or.inr ⟨h1, h2, ?_⟩
          rw [show segShape c2.storage = segShape st from by rw [hc2st]]
          exact h3

theorem put_fresh_first_fit_allocation_witness :
    lookupKey twoEntryCache.map 3 = none ∧
    (∃ (i j : Nat) (c2 : Cache Nat Nat),
      twoEntryCache.put 0 3 30 = some (none, c2) ∧
      WF c2 (Pointer.internalPointer i j ::
        [Pointer.internalPointer 0 1, Pointer.internalPointer 0 0]) ∧
      twoEntryCache.storage.entry? (Pointer.internalPointer i j) = none ∧
      c2.storage.head = Pointer.internalPointer i j ∧
      lookupKey c2.map 3 = some (Pointer.internalPointer i j) ∧
      ((∃ seg : Seg Nat Nat,
          twoEntryCache.storage.slabs.get? i = some (some seg) ∧
          segOccupied seg < seg.length ∧
          (∀ i2, i2 < i → ∀ seg2 : Seg Nat Nat,
            twoEntryCache.storage.slabs.get? i2 = some (some seg2) →
            ¬ segOccupied seg2 < seg2.length)) ∨
       ((∀ i2 (seg2 : Seg Nat Nat),
           twoEntryCache.storage.slabs.get? i2 = some (some seg2) →
           ¬ segOccupied seg2 < seg2.length) ∧
        (twoEntryCache.storage.slabs.get? i = some none ∨
          twoEntryCache.storage.slabs.get? i = none) ∧
        (segShape c2.storage).get? i
          = some (some twoEntryCache.storage.cap)))) := by
  refine ⟨by decide, ?_⟩
  obtain ⟨i, j, c2, h1, h2, h3, -, h5, h6, -, h8⟩ :=
    put_fresh_first_fit_allocation 0 twoEntryCache
      [Pointer.internalPointer 0 1, Pointer.internalPointer 0 0] 3 30
      WF_twoEntryCache (by decide)
      (Or.inr ⟨{ key := 1, timestamp := 0, data := 10, next := Pointer.null, prev := Pointer.internalPointer 0 1 }, by decide, by decide⟩)
  exact ⟨i, j, c2, h1, h2, h3, h5, h6, h8⟩

/-- C7: single flight.  In the two-task race of scenario S7 (each task
runs `get_or_update(1, compute)` where `compute` yields 42, modelled as
the atomic lock sections of the source), every schedule keeps at most one
`InProgress` cell alive and invokes `compute` at most once, and whenever
both tasks have returned they both return the one value 42 produced by
the single `compute` invocation. -/
theorem single_flight_exactly_one_compute (sched : List Bool) :
    ∃ s2 : SFState Nat Nat,
      sfgRunFrom 0 1 42 s7Init sched = some s2 ∧
      s2.calls ≤ 1 ∧ inProgressSlots s2.cache ≤ 1 ∧
      (s2.pc0.isDone = true → s2.pc1.isDone = true →
        s2.pc0 = TaskPc.done (some 42) ∧ s2.pc1 = TaskPc.done (some 42) ∧
        s2.calls = 1) := by
  have hpres : ∀ s ∈ s7Reach, ∀ t : Bool,
      ∃ s2 ∈ s7Reach, sfgStepTask 0 1 42 s t = some s2 := by decide
  have hprop : ∀ s ∈ s7Reach, s.calls ≤ 1 ∧ inProgressSlots s.cache ≤ 1 ∧
      (s.pc0.isDone = true → s.pc1.isDone = true →
        s.pc0 = TaskPc.done (some 42) ∧ s.pc1 = TaskPc.done (some 42) ∧
        s.calls = 1) := by decide
  have hrun : ∀ (sch : List Bool) (s : SFState Nat Nat), s ∈ s7Reach →
      ∃ s2 ∈ s7Reach, sfgRunFrom 0 1 42 s sch = some s2 := by
    intro sch
    induction sch with
    | nil => exact fun s hs => ⟨s, hs, rfl⟩
    | cons t ts ih =>
      intro s hs
      obtain ⟨s1, hs1, hstep⟩ := hpres s hs t
      obtain ⟨s2, hs2, hrun2⟩ := ih s1 hs1
      refine ⟨s2, hs2, ?_⟩
      show sfgRunFrom 0 1 42 s (t :: ts) = some s2
      simp only [sfgRunFrom, hstep]
      exact hrun2
  obtain ⟨s2, hs2, hr⟩ := hrun sched s7Init (by decide)
  obtain ⟨h1, h2, h3⟩ := hprop s2 hs2
  exact ⟨s2, hr, h1, h2, h3⟩

/-- C8 (corrected): single-flight `put(k, v)`.  When the cell under `k`
is `InProgress` the call fails with `UpdateInProgress` and leaves the cell
— hence the in-flight computation — untouched, but the cache state is NOT
unchanged: the lookup performed to inspect the cell promotes the node to
the head of the recency list and refreshes its timestamp.  When the cell
is `Available(old)` it is replaced with `Available(v)` and `old` is
returned; when `k` is absent, `Available(v)` is inserted and absent is
returned. -/
theorem sfg_put_paths (now : Nat) (c : Cache K (UpdateState V))
    (ord : List Pointer) (k : K) (v : V) (W : WF c ord) :
    ∃ (r : Except CacheError (Option V)) (c2 : Cache K (UpdateState V)),
      sfgPut now c k v = some (r, c2) ∧
      (lookupKey c.map k = none →
        r = Except.ok none ∧
        ∃ (p2 : Pointer) (e2 : Entry K (UpdateState V)),
          lookupKey c2.map k = some p2 ∧ c2.storage.entry? p2 = some e2 ∧
          e2.data = UpdateState.available v) ∧
      (∀ (p : Pointer) (e : Entry K (UpdateState V)) (v0 : V),
        lookupKey c.map k = some p → c.storage.entry? p = some e →
        e.data = UpdateState.available v0 →
        r = Except.ok (some v0) ∧
        ∃ (p2 : Pointer) (e2 : Entry K (UpdateState V)),
          lookupKey c2.map k = some p2 ∧ c2.storage.entry? p2 = some e2 ∧
          e2.data = UpdateState.available v) ∧
      (∀ (p : Pointer) (e : Entry K (UpdateState V)) (ch : Nat),
        lookupKey c.map k = some p → c.storage.entry? p = some e →
        e.data = UpdateState.inProgress ch →
        r = Except.error CacheError.updateInProgress ∧
        c2.map = c.map ∧ c2.storage.head = p ∧
        ∃ e2 : Entry K (UpdateState V), c2.storage.entry? p = some e2 ∧
          e2.data = UpdateState.inProgress ch ∧ e2.key = e.key ∧
          e2.timestamp = now) := by
  obtain ⟨r1, c1, ord1, hget, W1, hperm1, hmap1, hcap1, htime1, hshape1,
    hmiss, hhit⟩ := cache_get_spec now c ord k W
  cases hlk : lookupKey c.map k with
  | none =>
    obtain ⟨hr1, hc1, hord1⟩ := hmiss hlk
    subst hr1
    rw [hc1] at hget
    -- the base put inserts a fresh `Available v` cell (reusing an expired
    -- tail when there is one)
    have hputcase : ∃ (c2 : Cache K (UpdateState V)) (rv : Option (UpdateState V)),
        c.put now k (UpdateState.available v) = some (rv, c2) ∧
        ∃ (p2 : Pointer) (e2 : Entry K (UpdateState V)),
          lookupKey c2.map k = some p2 ∧ c2.storage.entry? p2 = some e2 ∧
          e2.data = UpdateState.available v := by
      by_cases htn : c.storage.tail.is_null = true
      · obtain ⟨id, c2, hput, W2, -, -, -, -, -, hlkk, -, -, -, -, hentry, -⟩ :=
          cache_put_fresh_spec now c ord k (UpdateState.available v) W hlk
            (Or.inl htn)
        exact ⟨c2, none, hput, id, Entry.new now k (UpdateState.available v)
          c.storage.head Pointer.null, hlkk, hentry, rfl⟩
      · have htnn : c.storage.tail ≠ Pointer.null := by
          intro he
          exact htn (by rw [he]; rfl)
        have hne : ord ≠ [] := by
          intro he
          exact htnn (by rw [W.htail, he]; rfl)
        have htmem : c.storage.tail ∈ ord := by
          rw [W.htail]
          cases ord with
          | nil => exact absurd rfl hne
          | cons o os => exact getLastD_cons_mem o os Pointer.null
        have hte : (c.storage.entry? c.storage.tail).isSome = true :=
          dll_mem_isSome W.hdll htmem
        cases het : c.storage.entry? c.storage.tail with
        | none => rw [het] at hte; simp at hte
        | some et =>
          by_cases hexp : et.timestamp + c.storage.timeout_secs ≤ now
          · obtain ⟨c2, ord2, hput, W2, -, -, -, -, -, hlkk, -, -, -, -,
              he3x, -⟩ :=
              cache_put_reuse_spec now c ord k (UpdateState.available v) et
                W hlk hne het hexp
            obtain ⟨e3, he3, he3k, he3d, he3t⟩ := he3x
            exact ⟨c2, some et.data, hput, c.storage.tail, e3,
              hlkk, he3, he3d⟩
          · obtain ⟨id, c2, hput, W2, -, -, -, -, -, hlkk, -, -, -, -,
              hentry, -⟩ :=
              cache_put_fresh_spec now c ord k (UpdateState.available v) W
                hlk (Or.inr ⟨et, het, hexp⟩)
            exact ⟨c2, none, hput, id, Entry.new now k
              (UpdateState.available v) c.storage.head Pointer.null,
              hlkk, hentry, rfl⟩
    obtain ⟨c2, rv, hput, p2, e2, hlkk, hentry, hdata⟩ := hputcase
    have hcomp : sfgPut now c k v = some (Except.ok none, c2) := by
      simp only [sfgPut, Option.bind_eq_bind, Option.pure_def]
      rw [hget, Option.some_bind]
      simp only
      rw [hput, Option.some_bind]
    refine ⟨Except.ok none, c2, hcomp, fun _ => ⟨rfl, p2, e2, hlkk, hentry,
      hdata⟩, ?_, ?_⟩
    · intro p e v0 hp
      cases hp
    · intro p e ch hp
      cases hp
  | some p =>
    obtain ⟨e, hep, hre, hhead1, hh1, he3x, hpay1⟩ := hhit p hlk
    obtain ⟨e3, he3, he3k, he3d, he3t⟩ := he3x
    subst hre
    cases hed : e.data with
    | available v0 =>
      -- Ok path: overwrite through the base put (key is present in `c1`)
      have hlk1 : lookupKey c1.map k = some p := by rw [hmap1]; exact hlk
      obtain ⟨e1, c2, ord2, hput, hep1, hek1, W2, hperm2, hh2, hmap2,
        hhead2, hlen2, hcap2, hcapst2, htim2, he3x2, hpay2⟩ :=
        cache_put_update_spec now c1 ord1 k (UpdateState.available v) p
          W1 hlk1
      obtain ⟨e4, he4, he4k, he4d, he4t⟩ := he3x2
      have hcomp : sfgPut now c k v = some (Except.ok (some v0), c2) := by
        simp only [sfgPut, Option.bind_eq_bind, Option.pure_def]
        rw [hget, Option.some_bind]
        simp only [hed]
        rw [hput, Option.some_bind]
      refine ⟨Except.ok (some v0), c2, hcomp, ?_, ?_, ?_⟩
      · intro hn
        exact Option.noConfusion hn
      · intro p' e' v0' hp' he' hd'
        cases hp'
        rw [hep] at he'
        cases he'
        rw [hed] at hd'
        cases hd'
        refine ⟨rfl, p, e4, ?_, he4, he4d⟩
        rw [hmap2, hmap1]
        exact hlk
      · intro p' e' ch hp' he' hd'
        cases hp'
        rw [hep] at he'
        cases he'
        rw [hed] at hd'
        cases hd'
    | inProgress ch =>
      have hcomp : sfgPut now c k v
          = some (Except.error CacheError.updateInProgress, c1) := by
        simp only [sfgPut, Option.bind_eq_bind, Option.pure_def]
        rw [hget, Option.some_bind]
        simp only [hed]
      refine ⟨Except.error CacheError.updateInProgress, c1, hcomp, ?_, ?_, ?_⟩
      · intro hn
        exact Option.noConfusion hn
      · intro p' e' v0' hp' he' hd'
        cases hp'
        rw [hep] at he'
        cases he'
        rw [hed] at hd'
        cases hd'
      · intro p' e' ch' hp' he' hd'
        cases hp'
        rw [hep] at he'
        cases he'
        rw [hed] at hd'
        cases hd'
        exact ⟨rfl, hmap1, hhead1, e3, he3, by rw [he3d, hed], he3k, he3t⟩

theorem sfg_put_paths_witness :
    lookupKey sfgTwo.map 2 = some (Pointer.internalPointer 0 0) ∧
    (∃ (r : Except CacheError (Option Nat))
       (c2 : Cache Nat (UpdateState Nat)),
      sfgPut 7 sfgTwo 2 99 = some (r, c2) ∧
      r = Except.error CacheError.updateInProgress ∧
      c2.map = sfgTwo.map ∧
      c2.storage.head = Pointer.internalPointer 0 0 ∧
      (∃ e2 : Entry Nat (UpdateState Nat),
        c2.storage.entry? (Pointer.internalPointer 0 0) = some e2 ∧
        e2.data = UpdateState.inProgress 0 ∧ e2.timestamp = 7)) := by
  refine ⟨by decide, ?_⟩
  have W : WF sfgTwo [Pointer.internalPointer 0 1, Pointer.internalPointer 0 0] :=
    ⟨by decide, by decide, by decide, by decide, by decide, by decide,
     by decide, by decide, by decide, by decide, by decide, by decide⟩
  obtain ⟨r, c2, hcomp, -, -, herr⟩ :=
    sfg_put_paths 7 sfgTwo
      [Pointer.internalPointer 0 1, Pointer.internalPointer 0 0] 2 99 W
  obtain ⟨hr, hmap, hhead, e2, he2, hd2, -, ht2⟩ :=
    herr (Pointer.internalPointer 0 0)
      { key := 2, timestamp := 0, data := UpdateState.inProgress 0, next := Pointer.null, prev := Pointer.internalPointer 0 1 }
      0 (by decide) (by decide) (by decide)
  exact ⟨r, c2, hcomp, hr, hmap, hhead, e2, he2, hd2, ht2⟩

/-- Counterexample to the original C8 wording: the failing single-flight
`put` on an in-flight key does change the cache state — the inspected node
is promoted to the head and its timestamp refreshed by the lookup. -/
theorem sfg_put_error_changes_state :
    ((sfgPut 7 sfgTwo 2 99).map Prod.fst
      = some (Except.error CacheError.updateInProgress)) ∧
    (sfgPut 7 sfgTwo 2 99).map Prod.snd = some sfgTwoAfter ∧
    sfgTwoAfter ≠ sfgTwo ∧
    sfgTwo.storage.head = Pointer.internalPointer 0 1 ∧
    sfgTwoAfter.storage.head = Pointer.internalPointer 0 0 ∧
    ((sfgTwo.storage.entry? (Pointer.internalPointer 0 0)).map
      Entry.timestamp) = some 0 ∧
    ((sfgTwoAfter.storage.entry? (Pointer.internalPointer 0 0)).map
      Entry.timestamp) = some 7 := by
  refine ⟨by decide, by decide, by decide, by decide, by decide, by decide,
    by decide⟩

/-- C1: the claim says `get` on an expired entry returns absent and does not
mutate the cache.  The source's `Storage::get` performs no expiry check: at
clock 1002 the entry for key 2 (timestamp 1000, TTL 1, so expired) is still
returned as `some 2`, its timestamp is refreshed to 1002 and it is promoted
to the head — contradicting the repository's own `test_get_expire_entry`,
which asserts `cache.get(&2) == None` after the TTL elapses. -/
theorem get_expired_entry_returns_value_and_refreshes :
    (s6Cache.bind fun c => (c.get 1000 2).map Prod.fst) = some (some 2) ∧
    (s6CacheAfterGet.bind fun c => (c.get 1002 2).map Prod.fst) = some (some 2) ∧
    (s6CacheAfterGet.bind fun c => (c.get 1002 2).map fun r => (r.2.len, r.2.capacity))
      = some (3, 4) ∧
    (s6CacheAfterGet.bind fun c => (c.get 1002 2).map fun r =>
        (r.2.storage.entry? r.2.storage.head).map fun e => (e.key, e.timestamp))
      = some (some (2, 1002)) := by
  refine ⟨rfl, rfl, rfl, rfl⟩

/-- C9: construction with `U = 0` aborts, dereferencing the null handle
aborts, and for `U > 0` construction succeeds with one empty segment of
capacity `U`, an empty key map and null list endpoints. -/
theorem new_zero_cap_and_null_deref_abort (U T : Nat) (s : Storage Nat Nat)
    (hU : 0 < U) :
    Cache.new (K := Nat) (V := Nat) 0 T = none ∧
    s.entry? Pointer.null = none ∧
    Cache.new (K := Nat) (V := Nat) U T =
      some { storage :=
               { slabs := [some (List.replicate U (none : Option (Entry Nat Nat)))],
                 cap := U, len := 0, head := Pointer.null, tail := Pointer.null,
                 timeout_secs := T },
             map := [] } := by
  refine ⟨rfl, rfl, ?_⟩
  simp [Cache.new, Nat.pos_iff_ne_zero.mp hU, Storage.new]

/-- Witness for C9 at `U = 3`, `T = 7`. -/
theorem new_zero_cap_and_null_deref_abort_witness :
    Cache.new (K := Nat) (V := Nat) 0 7 = none ∧
    (Storage.new (K := Nat) (V := Nat) 2 5).entry? Pointer.null = none ∧
    Cache.new (K := Nat) (V := Nat) 3 7 =
      some { storage :=
               { slabs := [some (List.replicate 3 (none : Option (Entry Nat Nat)))],
                 cap := 3, len := 0, head := Pointer.null, tail := Pointer.null,
                 timeout_secs := 7 },
             map := [] } :=
  new_zero_cap_and_null_deref_abort 3 7 (Storage.new 2 5) (by decide)

/-- C10: `Cache::get` of a key that is not in the key map returns `None` and
returns the cache completely unchanged: no promotion, no timestamp refresh,
no allocation. -/
theorem get_absent_key_returns_none_unchanged {K V : Type} [DecidableEq K]
    (now : Nat) (c : Cache K V) (k : K) (h : lookupKey c.map k = none) :
    c.get now k = some (none, c) := by
  unfold Cache.get
  split
  · rfl
  · rw [h]

/-- Witness for C10: key 9 is absent from the S6 cache. -/
theorem get_absent_key_returns_none_unchanged_witness :
    lookupKey s6CacheD.map 9 = none ∧ s6CacheD.get 1000 9 = some (none, s6CacheD) :=
  ⟨rfl, get_absent_key_returns_none_unchanged 1000 s6CacheD 9 rfl⟩

end AbaCache
